import Mathlib

/-!
# renamer: a shallow embedding of `main.go`

`main.go` moves the most recent non-empty file of a source directory whose
name matches a regular expression to a destination directory, under a fixed
name, after retiring the old destination files, and then removes every
matching source file.

The embedding follows the source function by function.  The package-level
variables of the program (`dstDir`, `srcDir`, `srcStr`, `dstStr`,
`dstAffix`, `ignore`, `dbg`) are the fields of `Flags`; functions that read
`dbg` receive it as an argument.  What the Go runtime and the operating
system supply (the path separator, the regular-expression engine, the
clock, the directory tree) is explicit: `Platform` and `FS`.

Diagnostic output that the program prints only when `dbg` is set has no
effect on control flow or on the filesystem and is not recorded; every
other line the program prints and every system call it makes is recorded,
in order, in the trace of the `World`.  The text of an error, which the
program appends to some lines, is given by the platform.

The filesystem is a tree of directories and regular files.  An object is
known by its place, the list of names on the way from the root; a path
string is resolved to a place component by component, from the root or from
the working directory, through `.` and `..`, so that two strings that lead
to the same object name the same place.  The listing of a directory holds
its regular files and its subdirectories.  A directory can be removed only
when it is empty, a file cannot be created where a directory is, and a
directory gets a new modification time when an entry is added to it or
removed from it.  There are no links, and all that is written during a run
bears one time, `Platform.now`.
-/

namespace Renamer

/-! ## Strings and times -/

/-- A Go string: a finite sequence of units.  `+` is `++`, `len` is the
    length, and `strings.HasSuffix`, `strings.Contains` compare units. -/
abbrev Str := List Char

/-- Go `len(s)`. -/
def len (s : Str) : Nat := s.length

/-- Go `strings.HasSuffix(s, suffix)`. -/
def HasSuffix (s suffix : Str) : Bool := suffix.isSuffixOf s

/-- Go `strings.Contains(s, substr)`: `substr` starts at some position of `s`. -/
def Contains (s substr : Str) : Bool := s.tails.any (fun t => substr.isPrefixOf t)

/-- A `time.Time` without monotonic reading, as the signed distance from the
    zero `Time` (January 1, year 1, 00:00:00 UTC). -/
abbrev Time := Int

/-- The zero value of `time.Time`, what `var tm time.Time` holds. -/
def zeroTime : Time := 0

/-- Go `t.After(u)`. -/
def After (t u : Time) : Bool := decide (u < t)

/-- The three methods of `os.FileInfo` that the program calls. -/
structure FileInfo where
  Name : Str
  Size : Int
  ModTime : Time
deriving DecidableEq, Repr

/-! ## What the runtime supplies -/

/-- The Go runtime as the program sees it. -/
structure Platform where
  /-- Go `os.PathSeparator`. -/
  PathSeparator : Char
  /-- Whether `strconv.Unquote` returns an error on the quoted separator. -/
  unquoteFails : Bool
  /-- Go `regexp.MatchString(pattern, s)`: the pair `(matched, err == nil)`. -/
  MatchString : Str → Str → Bool × Bool
  /-- The time stamped on a file that is written during the run. -/
  now : Time
  /-- The text of `err.Error()` after a failed call on a path. -/
  errorText : Str → Str

/-- Go `strconv.Unquote(strconv.QuoteRuneToGraphic(os.PathSeparator))`: the
    character literal of the separator, unquoted, is the separator as a string;
    `none` when the returned `err` is not nil. -/
def Platform.unquotedSeparator (P : Platform) : Option Str :=
  if P.unquoteFails then none else some [P.PathSeparator]

/-! ## The pure functions of `main.go` -/

/-- The body of the loop of `get1src` (lines 72-78) on the pair
    `(tm, srcFile)`. -/
def get1srcStep (srcDir : Str) (st : Time × Str) (newFile : FileInfo) : Time × Str :=
  if decide (newFile.Size > 0) && After newFile.ModTime st.1 then
    (newFile.ModTime, srcDir ++ newFile.Name)
  else st

/-- Source `get1src` (lines 63-81): one pass over the candidates, keeping the
    pair `(tm, srcFile)`; `tm` starts as the zero time and `srcFile` as the
    empty string. -/
def get1src (srcDir : Str) (srcFiles : List FileInfo) : Str :=
  (srcFiles.foldl (get1srcStep srcDir) (zeroTime, [])).2

/-- Source `nameDst` (lines 100-102). -/
def nameDst (dstDir dstStr dstAffix : Str) : Str := dstDir ++ dstStr ++ dstAffix

/-- Source `dirCorrect` (lines 140-150): the path and the flag.  The warning
    that it prints when the separator cannot be unquoted is `dirCorrectLog`. -/
def dirCorrect (P : Platform) (dir : Str) : Str × Bool :=
  match P.unquotedSeparator with
  | none => ([], false)
  | some sep =>
    if HasSuffix dir sep then (dir, false)
    else (dir ++ sep, true)

/-- The test of line 116: `matched && err == nil`. -/
def matched (P : Platform) (srcStr : Str) (file1 : FileInfo) : Bool :=
  (P.MatchString srcStr file1.Name).1 && (P.MatchString srcStr file1.Name).2

/-- The loop of `getsrcs` (lines 111-122): `srcFiles` starts as the empty,
    non-nil slice and receives every entry that passes the test, in turn. -/
def matchLoop (P : Platform) (srcStr : Str) (files : List FileInfo) : List FileInfo :=
  files.foldl
    (fun (srcFiles : List FileInfo) (file1 : FileInfo) =>
      if matched P srcStr file1 then srcFiles ++ [file1] else srcFiles)
    []

/-! ## The filesystem -/

/-- A regular file: its content and its modification time. -/
structure File where
  bytes : List Nat
  modTime : Time
deriving DecidableEq, Repr

/-- An object of the tree: a regular file, or a directory with the size and
    the modification time that a listing reports for it.  The size of a
    directory is taken not to change when entries come and go. -/
inductive Node where
  | file (f : File)
  | dir (size : Int) (modTime : Time)
deriving DecidableEq, Repr

/-- The place of an object in the tree: the names on the way from the root
    directory down to it.  The root directory is the empty list.  Two path
    strings that lead to the same place name the same object. -/
abbrev Path := List Str

/-- The calls on the filesystem that the program makes, with the place of the
    object they are made on. -/
inductive Syscall where
  | ReadDir (p : Path)
  | Open (p : Path)
  | Create (p : Path)
  | Remove (p : Path)
deriving DecidableEq, Repr

/-- The directory tree.  `nodes` maps a place to the object found there (the
    root directory is always there and has no entry of its own); `cwd` is the
    working directory, from which a relative path string starts; `denied`
    lists the calls that the system refuses whatever the tree holds
    (permissions). -/
structure FS where
  nodes : List (Path × Node)
  cwd : Path
  denied : List Syscall
deriving DecidableEq, Repr

/-- The name `.` of a directory in itself. -/
def dot : Str := ['.']

/-- The name `..` of the parent of a directory. -/
def dotdot : Str := ['.', '.']

/-- A name that an entry of a directory can bear: not empty, without
    separator, neither `.` nor `..`. -/
def validName (sep : Char) (n : Str) : Prop :=
  n ≠ [] ∧ sep ∉ n ∧ n ≠ dot ∧ n ≠ dotdot

instance (sep : Char) (n : Str) : Decidable (validName sep n) := by
  unfold validName; infer_instance

/-- The first object recorded at a place, if any. -/
def lookupIn (nodes : List (Path × Node)) (p : Path) : Option Node :=
  (nodes.find? (fun e => decide (e.1 = p))).map (fun e => e.2)

/-- The objects without the one at a place. -/
def eraseKey (nodes : List (Path × Node)) (p : Path) : List (Path × Node) :=
  nodes.filter (fun e => decide (e.1 ≠ p))

/-- The object at a place, if any; the root has no entry. -/
def FS.node (fs : FS) (p : Path) : Option Node :=
  if p = [] then none else lookupIn fs.nodes p

/-- Whether a place is a directory: the root, or a directory of the tree. -/
def FS.isDir (fs : FS) (p : Path) : Bool :=
  decide (p = []) ||
    (match fs.node p with
     | some (Node.dir _ _) => true
     | _ => false)

/-- The tree without the object at a place. -/
def FS.eraseNode (fs : FS) (p : Path) : FS :=
  { fs with nodes := eraseKey fs.nodes p }

/-- The objects with a given object at a place: it takes the place of the one
    that was there, or is added. -/
def setKey (nodes : List (Path × Node)) (p : Path) (nd : Node) : List (Path × Node) :=
  if (lookupIn nodes p).isSome = true then
    nodes.map (fun e => if e.1 = p then (p, nd) else e)
  else nodes ++ [(p, nd)]

/-- The tree with a given object at a place. -/
def FS.setNode (fs : FS) (p : Path) (nd : Node) : FS :=
  { fs with nodes := setKey fs.nodes p nd }

/-- An object without the modification time of a directory, which changes
    whenever an entry of the directory comes or goes. -/
def Node.untimed : Node → Node
  | Node.file f => Node.file f
  | Node.dir size _ => Node.dir size 0

/-- The object at a place, the modification time of a directory left out. -/
def FS.obj (fs : FS) (p : Path) : Option Node :=
  (fs.node p).map Node.untimed

/-- The tree in which the directory at a place has a new modification time,
    as it gets when an entry is added to it or removed from it.  Nothing
    changes when the place is the root or holds no directory. -/
def FS.touch (fs : FS) (p : Path) (t : Time) : FS :=
  match fs.node p with
  | some (Node.dir size _) => fs.setNode p (Node.dir size t)
  | _ => fs

/-- The components of a path string: what stands between the separators.
    `a/b` gives `a`, `b`; `a/` gives `a` and the empty component; `/a` gives
    the empty component and `a`. -/
def components (sep : Char) : Str → List Str
  | [] => [[]]
  | c :: cs =>
    if c = sep then [] :: components sep cs
    else
      match components sep cs with
      | [] => [[c]]
      | h :: t => (c :: h) :: t

/-- The last component of a path string. -/
def lastComponent (sep : Char) (name : Str) : Str :=
  (components sep name).getLastD []

/-- The components that the system walks through before it reaches the last
    one: those of the working directory unless the string starts with the
    separator, then those of the string but the last. -/
def dirComponents (sep : Char) (fs : FS) (name : Str) : List Str :=
  (if name.head? = some sep then [] else fs.cwd) ++ (components sep name).dropLast

/-- One step of the walk, from the directory `cur`: the empty component and
    `.` stay, `..` goes to the parent (the root is its own parent), a name
    goes to the directory of that name, which must exist. -/
def walkStep (sep : Char) (fs : FS) (cur : Path) (c : Str) : Option Path :=
  if c = [] ∨ c = dot then some cur
  else if c = dotdot then some cur.dropLast
  else if validName sep c ∧ fs.isDir (cur ++ [c]) = true then some (cur ++ [c])
  else none

/-- The walk through a list of components, from the directory `cur`. -/
def walk (sep : Char) (fs : FS) : Path → List Str → Option Path
  | cur, [] => some cur
  | cur, c :: cs =>
    match walkStep sep fs cur c with
    | none => none
    | some cur1 => walk sep fs cur1 cs

/-- The place that a path string names: the system walks from the root
    through the directories and takes the last component there.  The place
    need not hold an object when the last component is a name.  `none` when
    a directory on the way is missing, and for the empty string. -/
def resolve (sep : Char) (fs : FS) (name : Str) : Option Path :=
  if name = [] then none
  else
    match walk sep fs [] (dirComponents sep fs name) with
    | none => none
    | some cur =>
      if lastComponent sep name = [] ∨ lastComponent sep name = dot then some cur
      else if lastComponent sep name = dotdot then some cur.dropLast
      else some (cur ++ [lastComponent sep name])

/-- What a listing reports on an object under a name. -/
def toInfo (n : Str) : Node → FileInfo
  | Node.file f => ⟨n, (f.bytes.length : Int), f.modTime⟩
  | Node.dir size modTime => ⟨n, size, modTime⟩

/-- The names of the entries of the directory at a place. -/
def FS.childNames (sep : Char) (fs : FS) (p : Path) : List Str :=
  (fs.nodes.filterMap (fun e =>
    match e.1.getLast? with
    | some n => if e.1 = p ++ [n] ∧ validName sep n then some n else none
    | none => none)).dedup

/-- The entries of the directory at a place, regular files and directories
    alike, in the order of the tree. -/
def FS.entries (sep : Char) (fs : FS) (p : Path) : List FileInfo :=
  (fs.childNames sep p).filterMap (fun n => (fs.node (p ++ [n])).map (toInfo n))

/-- Go `ioutil.ReadDir(dirname)`: the entries of the directory sorted by
    filename; `none` stands for the result `(nil, err)`.  On success the
    slice is not nil, also when the directory is empty. -/
def ReadDir (P : Platform) (fs : FS) (dirname : Str) : Option (List FileInfo) :=
  match resolve P.PathSeparator fs dirname with
  | none => none
  | some p =>
    if fs.isDir p = true ∧ Syscall.ReadDir p ∉ fs.denied then
      some ((fs.entries P.PathSeparator p).insertionSort (fun a b => a.Name ≤ b.Name))
    else none

/-- Go `os.Open(name)`: the place of the object opened, a regular file or a
    directory; `none` when the returned `err` is not nil. -/
def Open (P : Platform) (fs : FS) (name : Str) : Option Path :=
  match resolve P.PathSeparator fs name with
  | none => none
  | some p =>
    if (p = [] ∨ (fs.node p).isSome = true) ∧ Syscall.Open p ∉ fs.denied then some p
    else none

/-- Go `os.Create(name)`: the regular file is created, or truncated when it
    exists, and its place returned; a file that is new is a new entry of its
    directory, whose modification time changes.  `none` when the returned
    `err` is not nil, as it is when the string names a directory. -/
def Create (P : Platform) (fs : FS) (name : Str) : Option (FS × Path) :=
  if lastComponent P.PathSeparator name = [] ∨ lastComponent P.PathSeparator name = dot ∨
      lastComponent P.PathSeparator name = dotdot then none
  else
    match resolve P.PathSeparator fs name with
    | none => none
    | some p =>
      if fs.isDir p = false ∧ Syscall.Create p ∉ fs.denied then
        some (((if (fs.node p).isSome = true then fs else fs.touch p.dropLast P.now).setNode p
          (Node.file ⟨[], P.now⟩)), p)
      else none

/-- Go `io.Copy(dst, src)` on the two open files: the bytes that the file at
    `src` holds at that moment are written to the file at `dst`; the flag is
    whether the returned `err` is nil, which it is not when `src` is a
    directory. -/
def Copy (P : Platform) (fs : FS) (dst src : Path) : FS × Bool :=
  match fs.node src with
  | some (Node.file f) => (fs.setNode dst (Node.file ⟨f.bytes, P.now⟩), true)
  | _ => (fs, false)

/-- Go `os.Remove(name)`: removes a regular file or an empty directory, an
    entry less in its directory, whose modification time changes; `none` when
    the returned `err` is not nil. -/
def Remove (P : Platform) (fs : FS) (name : Str) : Option FS :=
  if lastComponent P.PathSeparator name = dot ∨ lastComponent P.PathSeparator name = dotdot then
    none
  else
    match resolve P.PathSeparator fs name with
    | none => none
    | some p =>
      match fs.node p with
      | none => none
      | some (Node.file _) =>
        if Syscall.Remove p ∈ fs.denied then none
        else some ((fs.eraseNode p).touch p.dropLast P.now)
      | some (Node.dir _ _) =>
        if fs.entries P.PathSeparator p = [] ∧ Syscall.Remove p ∉ fs.denied then
          some ((fs.eraseNode p).touch p.dropLast P.now)
        else none

/-! ## The run -/

/-- What the program does that can be observed, in order. -/
inductive Event where
  | Println (line : Str)
  | ReadDir (dirname : Str) (ok : Bool)
  | Scan
  | Open (name : Str) (ok : Bool)
  | Create (name : Str) (ok : Bool)
  | Copy (dst src : Str) (ok : Bool)
  | Remove (name : Str) (ok : Bool)
  | Exit (code : Int)
deriving DecidableEq, Repr

/-- The state of a run.  `console` is what the operator will do: one element
    for each line entered on the console, the filesystem as the operator left
    it when entering the line.  Once `console` is empty, standard input is at
    its end. -/
structure World where
  fs : FS
  console : List FS
  trace : List Event
deriving DecidableEq, Repr

/-- Append events to the trace. -/
def World.log (w : World) (es : List Event) : World :=
  { w with trace := w.trace ++ es }

/-- The package-level variables set by `initVar` (lines 28-41). -/
structure Flags where
  srcDir : Str
  dstDir : Str
  srcStr : Str
  dstStr : Str
  dstAffix : Str
  ignore : Bool
  dbg : Bool
deriving DecidableEq, Repr

/-- The line that `wait4dst` prints before it waits (line 51). -/
def prompt (dstDir : Str) : Str := "Make ".toList ++ dstDir ++ " ready and press any key.".toList

/-- The loop of `wait4dst` (lines 46-59).  Every failed listing without
    `ignore` prints the prompt and reads one line, after which the operator
    has left the filesystem in the next state of the console.  With standard
    input at its end `Scan` returns at once and nothing changes any more: the
    loop never ends, which is the result `none`. -/
def wait4dstLoop (P : Platform) (dstDir : Str) (ignore : Bool) :
    FS → List Event → List FS → Option ((Option (List FileInfo) × Bool) × World)
  | fs, trace, console =>
    match ReadDir P fs dstDir with
    | some dir => some ((some dir, true), ⟨fs, console, trace ++ [Event.ReadDir dstDir true]⟩)
    | none =>
      if ignore then
        some ((none, false), ⟨fs, console, trace ++ [Event.ReadDir dstDir false]⟩)
      else
        match console with
        | [] => none
        | fs1 :: rest =>
          wait4dstLoop P dstDir ignore fs1
            (trace ++ [Event.ReadDir dstDir false,
              Event.Println (prompt dstDir),
              Event.Scan])
            rest

/-- Source `wait4dst` (lines 43-61): the pair `(dir, ok)` and the state it
    leaves; `none` when it never returns. -/
def wait4dst (P : Platform) (dstDir : Str) (ignore : Bool) (w : World) :
    Option ((Option (List FileInfo) × Bool) × World) :=
  wait4dstLoop P dstDir ignore w.fs w.trace w.console

/-- Source `cp` (lines 83-98).  The result of `io.Copy` is discarded by the
    program; the trace keeps it. -/
def cp (P : Platform) (srcFile dstFile : Str) (w : World) : World :=
  match Open P w.fs srcFile with
  | none =>
    w.log [Event.Open srcFile false,
      Event.Println ("FAILED to open source file!".toList ++ P.errorText srcFile)]
  | some src =>
    match Create P w.fs dstFile with
    | none =>
      w.log [Event.Open srcFile true, Event.Create dstFile false,
        Event.Println ("FAILED to create target file!".toList ++ P.errorText dstFile)]
    | some (fs1, dst) =>
      { w with
        fs := (Copy P fs1 dst src).1
        trace := w.trace ++
          [Event.Open srcFile true, Event.Create dstFile true,
            Event.Copy dstFile srcFile (Copy P fs1 dst src).2] }

/-- Source `getsrcs` (lines 104-131): `none` is the nil slice. -/
def getsrcs (P : Platform) (srcDir srcStr : Str) (w : World) :
    Option (List FileInfo) × World :=
  match ReadDir P w.fs srcDir with
  | none =>
    (none, w.log [Event.ReadDir srcDir false,
      Event.Println ("NO source files found!".toList ++ P.errorText srcDir)])
  | some files => (some (matchLoop P srcStr files), w.log [Event.ReadDir srcDir true])

/-- The call `os.Remove(name)` with its result discarded. -/
def osRemove (P : Platform) (name : Str) (w : World) : World :=
  match Remove P w.fs name with
  | some fs1 => { w with fs := fs1, trace := w.trace ++ [Event.Remove name true] }
  | none => w.log [Event.Remove name false]

/-- The line that `rm` prints. -/
def toDelete (dir file : Str) : Str := "To delete ".toList ++ dir ++ file

/-- Source `rm` (lines 133-138). -/
def rm (P : Platform) (dbg : Bool) (dir file : Str) (w : World) : World :=
  let w1 := w.log [Event.Println (toDelete dir file)]
  if !dbg then osRemove P (dir ++ file) w1 else w1

/-- The loop of lines 181-185 of `main`. -/
def purgeDst (P : Platform) (dbg : Bool) (dstDir dstStr : Str) (dir : List FileInfo)
    (w : World) : World :=
  dir.foldl
    (fun (w : World) (oldFile : FileInfo) =>
      if Contains oldFile.Name dstStr then rm P dbg dstDir oldFile.Name w else w)
    w

/-- The loop of lines 194-196 of `main`. -/
def purgeSrc (P : Platform) (dbg : Bool) (srcDir : Str) (srcFiles : List FileInfo)
    (w : World) : World :=
  srcFiles.foldl (fun (w : World) (oldFile : FileInfo) => rm P dbg srcDir oldFile.Name w) w

/-- The line that a call of `dirCorrect` prints (line 143): the warning when
    the separator cannot be unquoted, nothing otherwise. -/
def dirCorrectLog (P : Platform) : List Event :=
  match P.unquotedSeparator with
  | none => [Event.Println "Failed to check path separator!".toList]
  | some _ => []

/-- The state after the two calls of `dirCorrect` in `main` (lines 168-169). -/
def checked (P : Platform) (w : World) : World :=
  w.log (dirCorrectLog P ++ dirCorrectLog P)

/-- All five string flags are given: none is the empty string. -/
def allGiven (fl : Flags) : Prop :=
  fl.srcDir ≠ [] ∧ fl.dstDir ≠ [] ∧ fl.srcStr ≠ [] ∧ fl.dstStr ≠ [] ∧ fl.dstAffix ≠ []

instance (fl : Flags) : Decidable (allGiven fl) := by
  unfold allGiven; infer_instance

/-- The line printed before `os.Exit(-1)`. -/
def usage : Str :=
  "All source and destination, dirs and name patterns needed! Use -h for help.".toList

/-- Source `main` (lines 154-202), after `initVar` has set the flags.  The
    result is the state in which the process ends, `none` when it never ends. -/
def main (P : Platform) (fl : Flags) (w : World) : Option World :=
  if len fl.srcDir < 1 || len fl.srcStr < 1 || len fl.dstStr < 1 || len fl.dstDir < 1 ||
      len fl.dstAffix < 1 then
    some (w.log [Event.Println usage, Event.Exit (-1)])
  else
    let srcDir := (dirCorrect P fl.srcDir).1
    let dstDir := (dirCorrect P fl.dstDir).1
    match getsrcs P srcDir fl.srcStr (checked P w) with
    | (none, w1) => some w1
    | (some srcFiles, w1) =>
      match wait4dst P dstDir fl.ignore w1 with
      | none => none
      | some ((some dir, true), w2) =>
        let w3 := purgeDst P fl.dbg dstDir fl.dstStr dir w2
        let srcFile := get1src srcDir srcFiles
        if len srcFile > 0 then
          let dstFile := nameDst dstDir fl.dstStr fl.dstAffix
          let w4 := cp P srcFile dstFile w3
          some (purgeSrc P fl.dbg srcDir srcFiles w4)
        else
          some (w3.log [Event.Println "NO eligible source files!".toList])
      | some (_, w2) => some w2

/-- The state of `main` right after the call of `cp` (line 192), for the
    candidates `srcFiles`, the destination listing `dir` and the state `w2` that
    `wait4dst` left. -/
def afterCp (P : Platform) (fl : Flags) (srcFiles dir : List FileInfo) (w2 : World) : World :=
  cp P (get1src (dirCorrect P fl.srcDir).1 srcFiles)
    (nameDst (dirCorrect P fl.dstDir).1 fl.dstStr fl.dstAffix)
    (purgeDst P fl.dbg (dirCorrect P fl.dstDir).1 fl.dstStr dir w2)

/-- The events that `main` can add to the trace when the flags are all given:
    any line; a listing of the corrected source or destination directory; a
    line read from the console unless `ignore` is set; opening a path of the
    source directory; creating and writing the destination file; and, with
    `dbg` off only, removing a path of the source or destination directory. -/
def mainEvent (P : Platform) (fl : Flags) (e : Event) : Prop :=
  match e with
  | Event.Println _ => True
  | Event.ReadDir d _ => d = (dirCorrect P fl.srcDir).1 ∨ d = (dirCorrect P fl.dstDir).1
  | Event.Scan => fl.ignore = false
  | Event.Open p _ => ∃ name, p = (dirCorrect P fl.srcDir).1 ++ name
  | Event.Create p _ => p = nameDst (dirCorrect P fl.dstDir).1 fl.dstStr fl.dstAffix
  | Event.Copy d s _ => d = nameDst (dirCorrect P fl.dstDir).1 fl.dstStr fl.dstAffix ∧
      ∃ name, s = (dirCorrect P fl.srcDir).1 ++ name
  | Event.Remove p _ => fl.dbg = false ∧
      ∃ name, p = (dirCorrect P fl.srcDir).1 ++ name ∨ p = (dirCorrect P fl.dstDir).1 ++ name
  | Event.Exit _ => False

/-- The exit status of a finished run: the code given to `os.Exit`, else 0. -/
def exitCode (w : World) : Int :=
  if Event.Exit (-1) ∈ w.trace then -1 else 0

/-! ## Sample runs -/

/-- A regular-expression engine that knows one pattern: for `.*\.txt` it
    reports whether the name contains `.txt`, which is what `regexp.MatchString`
    computes for this pattern; any other pattern is reported as one that does
    not compile. -/
def matchTxt (pattern s : Str) : Bool × Bool :=
  if pattern = ".*\\.txt".toList then (Contains s ".txt".toList, true) else (false, false)

/-- A platform whose separator is the slash. -/
def slashPlatform : Platform :=
  { PathSeparator := '/'
    unquoteFails := false
    MatchString := matchTxt
    now := 100
    errorText := fun _ => ": error".toList }

/-- The flags of the scenario: `-srcDir=src -dstDir=dst -srcStr=.*\.txt
    -dstStr=out -dstAffix=.dat`. -/
def sampleFlags : Flags :=
  { srcDir := "src".toList, dstDir := "dst".toList, srcStr := ".*\\.txt".toList,
    dstStr := "out".toList, dstAffix := ".dat".toList, ignore := false, dbg := false }

/-- The place `src/` of the scenarios. -/
def srcPlace : Path := ["src".toList]

/-- The place `dst/` of the scenarios. -/
def dstPlace : Path := ["dst".toList]

/-- The tree of the scenario, seen from the working directory, which is the
    root: `src/a.txt` of 10 bytes, older, `src/b.txt` of 20 bytes, newer, and
    an empty directory `dst/`. -/
def sampleTree : FS :=
  { nodes := [(srcPlace, Node.dir 4096 1),
              (dstPlace, Node.dir 4096 1),
              (srcPlace ++ ["a.txt".toList], Node.file ⟨List.replicate 10 1, 5⟩),
              (srcPlace ++ ["b.txt".toList], Node.file ⟨List.replicate 20 2, 9⟩)]
    cwd := []
    denied := [] }

/-- The tree of the scenario when the system refuses to create the destination
    file. -/
def lockedTree : FS :=
  { sampleTree with denied := [Syscall.Create (dstPlace ++ ["out.dat".toList])] }

/-- The tree of the scenario with a file in the source whose name does not
    match, and a subdirectory whose name does. -/
def mixedTree : FS :=
  { nodes := [(srcPlace, Node.dir 4096 1),
              (dstPlace, Node.dir 4096 1),
              (srcPlace ++ ["a.txt".toList], Node.file ⟨List.replicate 10 1, 5⟩),
              (srcPlace ++ ["notes.md".toList], Node.file ⟨[1, 2, 3], 7⟩),
              (srcPlace ++ ["b.txt".toList], Node.file ⟨List.replicate 20 2, 9⟩)]
    cwd := []
    denied := [] }

/-- The tree of the scenario with a subdirectory `dst/sub/`. -/
def nestedTree : FS :=
  { nodes := [(srcPlace, Node.dir 4096 1),
              (dstPlace, Node.dir 4096 1),
              (dstPlace ++ ["sub".toList], Node.dir 4096 1),
              (srcPlace ++ ["a.txt".toList], Node.file ⟨List.replicate 10 1, 5⟩),
              (srcPlace ++ ["b.txt".toList], Node.file ⟨List.replicate 20 2, 9⟩)]
    cwd := []
    denied := [] }

/-- A tree whose source holds no file that matches, and whose destination holds
    an old output. -/
def staleTree : FS :=
  { nodes := [(srcPlace, Node.dir 4096 1),
              (dstPlace, Node.dir 4096 1),
              (srcPlace ++ ["notes.md".toList], Node.file ⟨[1, 2, 3], 5⟩),
              (dstPlace ++ ["out.dat".toList], Node.file ⟨[4, 5], 3⟩)]
    cwd := []
    denied := [] }

/-- A tree without destination directory. -/
def noDstTree : FS :=
  { nodes := [(srcPlace, Node.dir 4096 1),
              (srcPlace ++ ["a.txt".toList], Node.file ⟨List.replicate 10 1, 5⟩)]
    cwd := []
    denied := [] }

/-- A tree without source directory, whose destination holds an old output. -/
def noSrcTree : FS :=
  { nodes := [(dstPlace, Node.dir 4096 1),
              (dstPlace ++ ["out.dat".toList], Node.file ⟨[4, 5], 3⟩)]
    cwd := []
    denied := [] }

/-- A run starts with an empty trace and, here, an operator who does nothing. -/
def start (fs : FS) : World := { fs := fs, console := [], trace := [] }

/-- The tree of the scenario when the system refuses to open `src/b.txt`. -/
def sealedTree : FS :=
  { sampleTree with denied := [Syscall.Open (srcPlace ++ ["b.txt".toList])] }

/-- The flags of the scenario with a separator in `-dstStr`: `-dstStr=sub/out`. -/
def nestedFlags : Flags := { sampleFlags with dstStr := "sub/out".toList }

/-- The state in which the scenario ends: `dst/out.dat` holds the bytes of
    `src/b.txt`, the source directory is empty. -/
def sampleOut : World :=
  { fs :=
      { nodes := [(srcPlace, Node.dir 4096 100),
          (dstPlace, Node.dir 4096 100),
          (dstPlace ++ ["out.dat".toList], Node.file ⟨List.replicate 20 2, 100⟩)]
        cwd := []
        denied := [] }
    console := []
    trace := [Event.ReadDir "src/".toList true, Event.ReadDir "dst/".toList true,
      Event.Open "src/b.txt".toList true, Event.Create "dst/out.dat".toList true,
      Event.Copy "dst/out.dat".toList "src/b.txt".toList true,
      Event.Println (toDelete "src/".toList "a.txt".toList),
      Event.Remove "src/a.txt".toList true,
      Event.Println (toDelete "src/".toList "b.txt".toList),
      Event.Remove "src/b.txt".toList true] }

/-- The state in which the scenario ends with `-dstStr=sub/out` and a
    subdirectory `dst/sub/`: the copy is `dst/sub/out.dat`. -/
def nestedOut : World :=
  { fs :=
      { nodes := [(srcPlace, Node.dir 4096 100),
          (dstPlace, Node.dir 4096 1),
          (dstPlace ++ ["sub".toList], Node.dir 4096 100),
          (dstPlace ++ ["sub".toList, "out.dat".toList],
            Node.file ⟨List.replicate 20 2, 100⟩)]
        cwd := []
        denied := [] }
    console := []
    trace := [Event.ReadDir "src/".toList true, Event.ReadDir "dst/".toList true,
      Event.Open "src/b.txt".toList true, Event.Create "dst/sub/out.dat".toList true,
      Event.Copy "dst/sub/out.dat".toList "src/b.txt".toList true,
      Event.Println (toDelete "src/".toList "a.txt".toList),
      Event.Remove "src/a.txt".toList true,
      Event.Println (toDelete "src/".toList "b.txt".toList),
      Event.Remove "src/b.txt".toList true] }

/-- A tree in which the source directory `dst/in/` is an entry of the
    destination directory `dst/`. -/
def innerTree : FS :=
  { nodes := [(dstPlace, Node.dir 4096 1),
              (dstPlace ++ ["in".toList], Node.dir 4096 1),
              (dstPlace ++ ["in".toList, "a.txt".toList], Node.file ⟨List.replicate 10 1, 5⟩),
              (dstPlace ++ ["in".toList, "b.txt".toList], Node.file ⟨List.replicate 20 2, 9⟩)]
    cwd := []
    denied := [] }

/-- The flags of the scenario with `-srcDir=dst/in`. -/
def innerFlags : Flags := { sampleFlags with srcDir := "dst/in".toList }

/-- The state in which the scenario ends on `innerTree` with `-srcDir=dst/in`. -/
def innerOut : World :=
  { fs :=
      { nodes := [(dstPlace, Node.dir 4096 100),
          (dstPlace ++ ["in".toList], Node.dir 4096 100),
          (dstPlace ++ ["out.dat".toList], Node.file ⟨List.replicate 20 2, 100⟩)]
        cwd := []
        denied := [] }
    console := []
    trace := [Event.ReadDir "dst/in/".toList true, Event.ReadDir "dst/".toList true,
      Event.Open "dst/in/b.txt".toList true, Event.Create "dst/out.dat".toList true,
      Event.Copy "dst/out.dat".toList "dst/in/b.txt".toList true,
      Event.Println (toDelete "dst/in/".toList "a.txt".toList),
      Event.Remove "dst/in/a.txt".toList true,
      Event.Println (toDelete "dst/in/".toList "b.txt".toList),
      Event.Remove "dst/in/b.txt".toList true] }

/-! ## Auxiliary notions -/

/-- Whether an object, the modification time left out, is a directory. -/
def isDirObj : Option Node → Bool
  | some (Node.dir _ _) => true
  | _ => false

/-- The tree `fs1` has the working directory of `fs` and no directory that
    `fs` has not. -/
def DirsWithin (fs1 fs : FS) : Prop :=
  fs1.cwd = fs.cwd ∧ ∀ q, fs1.isDir q = true → fs.isDir q = true

/-- The places of the entries of the directory at `c` with the names of a
    listing. -/
def placesOf (c : Path) (l : List FileInfo) : List Path := l.map (fun f => c ++ [f.Name])

/-! ## Lemmas on path strings -/

theorem components_cons_sep (sep : Char) (cs : Str) :
    components sep (sep :: cs) = [] :: components sep cs := by
  simp [components]

theorem components_cons_ne (sep c : Char) (cs : Str) (h : c ≠ sep) (x : Str) (xs : List Str)
    (hx : components sep cs = x :: xs) :
    components sep (c :: cs) = (c :: x) :: xs := by
  simp [components, h, hx]

theorem components_ne_nil (sep : Char) (s : Str) : components sep s ≠ [] := by
  induction s with
  | nil => simp [components]
  | cons c cs ih =>
    by_cases h : c = sep
    · subst h; rw [components_cons_sep]; simp
    · obtain ⟨x, xs, hx⟩ := List.exists_cons_of_ne_nil ih
      rw [components_cons_ne sep c cs h x xs hx]; simp

theorem components_append_sep (sep : Char) (a b : Str) :
    components sep (a ++ sep :: b) = components sep a ++ components sep b := by
  induction a with
  | nil => simp [components]
  | cons c cs ih =>
    by_cases h : c = sep
    · subst h
      rw [List.cons_append, components_cons_sep, components_cons_sep, ih]; rfl
    · obtain ⟨x, xs, hx⟩ := List.exists_cons_of_ne_nil (components_ne_nil sep cs)
      rw [List.cons_append, components_cons_ne sep c _ h x (xs ++ components sep b)
        (by rw [ih, hx]; rfl), components_cons_ne sep c cs h x xs hx]
      rfl

theorem components_of_not_mem (sep : Char) (n : Str) (h : sep ∉ n) : components sep n = [n] := by
  induction n with
  | nil => simp [components]
  | cons c cs ih =>
    have hc : c ≠ sep := fun e => h (by rw [e]; exact List.mem_cons_self _ _)
    have hcs : sep ∉ cs := fun e => h (List.mem_cons_of_mem _ e)
    exact components_cons_ne sep c cs hc cs [] (ih hcs)

/-- The components of a directory string that ends with the separator,
    followed by a name. -/
theorem components_dir_name (sep : Char) (d0 n : Str) (hn : sep ∉ n) :
    components sep (d0 ++ [sep] ++ n) = components sep d0 ++ [n] := by
  rw [List.append_assoc, List.singleton_append, components_append_sep,
    components_of_not_mem sep n hn]

theorem components_dir (sep : Char) (d0 : Str) :
    components sep (d0 ++ [sep]) = components sep d0 ++ [[]] := by
  have := components_dir_name sep d0 [] (by simp)
  simpa using this

theorem lastComponent_dir_name (sep : Char) (d0 n : Str) (hn : sep ∉ n) :
    lastComponent sep (d0 ++ [sep] ++ n) = n := by
  rw [lastComponent, components_dir_name sep d0 n hn]
  simp

theorem lastComponent_dir (sep : Char) (d0 : Str) : lastComponent sep (d0 ++ [sep]) = [] := by
  rw [lastComponent, components_dir]
  simp

theorem dirComponents_dir_name (sep : Char) (fs : FS) (d0 n : Str) (hn : sep ∉ n) :
    dirComponents sep fs (d0 ++ [sep] ++ n) = dirComponents sep fs (d0 ++ [sep]) := by
  have hh : (d0 ++ [sep] ++ n).head? = (d0 ++ [sep]).head? := by
    cases d0 <;> simp
  rw [dirComponents, dirComponents, hh, components_dir_name sep d0 n hn, components_dir]
  simp

theorem hasSuffix_singleton (s : Str) (c : Char) (h : HasSuffix s [c] = true) :
    ∃ s0, s = s0 ++ [c] := by
  obtain ⟨t, ht⟩ := List.isSuffixOf_iff_suffix.1 h
  exact ⟨t, ht.symm⟩

theorem contains_append_self (a b : Str) : Contains (a ++ b) a = true := by
  cases hab : a ++ b with
  | nil =>
    have : a = [] := (List.append_eq_nil.1 hab).1
    simp [Contains, this]
  | cons x xs =>
    simp only [Contains, List.tails, List.any_cons]
    rw [← hab]
    simp

/-! ## Lemmas on the places that strings name -/

/-- The place that a directory string followed by a name names is the entry of
    that name in the directory. -/
theorem resolve_child (sep : Char) (fs : FS) (d0 n : Str) (c : Path)
    (h : resolve sep fs (d0 ++ [sep]) = some c) (hn : validName sep n) :
    resolve sep fs (d0 ++ [sep] ++ n) = some (c ++ [n]) := by
  obtain ⟨h1, h2, h3, h4⟩ := hn
  unfold resolve at h ⊢
  have e1 : d0 ++ [sep] ≠ [] := by simp
  have e2 : d0 ++ [sep] ++ n ≠ [] := by simp
  rw [if_neg e1] at h
  rw [if_neg e2, dirComponents_dir_name sep fs d0 n h2, lastComponent_dir_name sep d0 n h2]
  rw [lastComponent_dir] at h
  cases hw : walk sep fs [] (dirComponents sep fs (d0 ++ [sep])) with
  | none => rw [hw] at h; cases h
  | some cur =>
    rw [hw] at h
    simp only [true_or, if_true] at h
    have hc : cur = c := Option.some.inj h
    subst hc
    simp [h1, h3, h4]

theorem walkStep_mono (sep : Char) (fs1 fs : FS) (h : ∀ q, fs1.isDir q = true → fs.isDir q = true)
    (cur : Path) (c : Str) (p : Path) (hs : walkStep sep fs1 cur c = some p) :
    walkStep sep fs cur c = some p := by
  unfold walkStep at hs ⊢
  by_cases h1 : c = [] ∨ c = dot
  · rw [if_pos h1] at hs ⊢; exact hs
  · rw [if_neg h1] at hs ⊢
    by_cases h2 : c = dotdot
    · rw [if_pos h2] at hs ⊢; exact hs
    · rw [if_neg h2] at hs ⊢
      by_cases h3 : validName sep c ∧ fs1.isDir (cur ++ [c]) = true
      · rw [if_pos h3] at hs
        rw [if_pos ⟨h3.1, h _ h3.2⟩]; exact hs
      · rw [if_neg h3] at hs; cases hs

theorem walk_mono (sep : Char) (fs1 fs : FS) (h : ∀ q, fs1.isDir q = true → fs.isDir q = true)
    (cs : List Str) (cur p : Path) (hs : walk sep fs1 cur cs = some p) :
    walk sep fs cur cs = some p := by
  induction cs generalizing cur with
  | nil => exact hs
  | cons c cs ih =>
    unfold walk at hs ⊢
    cases hw : walkStep sep fs1 cur c with
    | none => rw [hw] at hs; cases hs
    | some cur1 =>
      rw [hw] at hs
      rw [walkStep_mono sep fs1 fs h cur c cur1 hw]
      exact ih cur1 hs

/-- A string that names a place in a tree names the same place in a tree
    that has the same working directory and at least its directories. -/
theorem resolve_mono (sep : Char) (fs1 fs : FS) (h : DirsWithin fs1 fs) (s : Str) (p : Path)
    (hs : resolve sep fs1 s = some p) : resolve sep fs s = some p := by
  unfold resolve at hs ⊢
  by_cases h0 : s = []
  · rw [if_pos h0] at hs; cases hs
  · rw [if_neg h0] at hs ⊢
    have hd : dirComponents sep fs1 s = dirComponents sep fs s := by
      simp [dirComponents, h.1]
    rw [hd] at hs
    cases hw : walk sep fs1 [] (dirComponents sep fs s) with
    | none => rw [hw] at hs; cases hs
    | some cur =>
      rw [hw] at hs
      rw [walk_mono sep fs1 fs h.2 _ _ _ hw]
      exact hs

theorem DirsWithin_refl (fs : FS) : DirsWithin fs fs := ⟨rfl, fun _ h => h⟩

theorem DirsWithin_trans (a b c : FS) (h1 : DirsWithin a b) (h2 : DirsWithin b c) :
    DirsWithin a c := ⟨h1.1.trans h2.1, fun q h => h2.2 q (h1.2 q h)⟩

/-! ## Lemmas on the objects of the tree -/

theorem lookupIn_cons_ne (x : Path × Node) (xs : List (Path × Node)) (q : Path) (h : ¬ x.1 = q) :
    lookupIn (x :: xs) q = lookupIn xs q := by
  simp [lookupIn, List.find?_cons, h]

theorem lookupIn_cons_eq (x : Path × Node) (xs : List (Path × Node)) (q : Path) (h : x.1 = q) :
    lookupIn (x :: xs) q = some x.2 := by
  simp [lookupIn, List.find?_cons, h]

theorem lookupIn_eraseKey (nodes : List (Path × Node)) (p q : Path) :
    lookupIn (eraseKey nodes p) q = if q = p then none else lookupIn nodes q := by
  induction nodes with
  | nil => simp [lookupIn, eraseKey]
  | cons x xs ih =>
    by_cases hx : x.1 = p
    · have : eraseKey (x :: xs) p = eraseKey xs p := by simp [eraseKey, hx]
      rw [this, ih]
      by_cases hq : q = p
      · simp [hq]
      · have hxq : ¬ x.1 = q := fun h => hq (h ▸ hx)
        rw [lookupIn_cons_ne x xs q hxq]
    · have : eraseKey (x :: xs) p = x :: eraseKey xs p := by simp [eraseKey, hx]
      rw [this]
      by_cases hxq : x.1 = q
      · have hq : ¬ q = p := fun h => hx (hxq.trans h)
        rw [lookupIn_cons_eq _ _ _ hxq, lookupIn_cons_eq _ _ _ hxq, if_neg hq]
      · rw [lookupIn_cons_ne _ _ _ hxq, lookupIn_cons_ne _ _ _ hxq, ih]

theorem lookupIn_append_singleton (nodes : List (Path × Node)) (p q : Path) (v : Node) :
    lookupIn (nodes ++ [(p, v)]) q
      = match lookupIn nodes q with
        | some x => some x
        | none => if p = q then some v else none := by
  induction nodes with
  | nil => by_cases h : p = q <;> simp [lookupIn, List.find?_cons, h]
  | cons x xs ih =>
    by_cases hxq : x.1 = q
    · rw [List.cons_append, lookupIn_cons_eq _ _ _ hxq, lookupIn_cons_eq _ _ _ hxq]
    · rw [List.cons_append, lookupIn_cons_ne _ _ _ hxq, lookupIn_cons_ne _ _ _ hxq, ih]

theorem lookupIn_map_set (nodes : List (Path × Node)) (p q : Path) (v : Node) :
    lookupIn (nodes.map (fun e => if e.1 = p then (p, v) else e)) q
      = if q = p then (lookupIn nodes q).map (fun _ => v) else lookupIn nodes q := by
  induction nodes with
  | nil => simp [lookupIn]
  | cons x xs ih =>
    have hkey : (if x.1 = p then (p, v) else x).1 = x.1 := by
      by_cases h : x.1 = p <;> simp [h]
    rw [List.map_cons]
    by_cases hxq : x.1 = q
    · rw [lookupIn_cons_eq _ _ _ (hkey.trans hxq), lookupIn_cons_eq _ _ _ hxq]
      by_cases hqp : q = p
      · have hxp : x.1 = p := hxq.trans hqp
        simp [hqp, hxp]
      · have hxp : ¬ x.1 = p := fun h => hqp (hxq.symm.trans h)
        simp [hqp, hxp]
    · rw [lookupIn_cons_ne _ _ _ (by rw [hkey]; exact hxq), lookupIn_cons_ne _ _ _ hxq, ih]

theorem lookupIn_setKey (nodes : List (Path × Node)) (p q : Path) (v : Node) :
    lookupIn (setKey nodes p v) q = if q = p then some v else lookupIn nodes q := by
  unfold setKey
  by_cases hs : (lookupIn nodes p).isSome = true
  · rw [if_pos hs, lookupIn_map_set]
    by_cases hq : q = p
    · subst hq
      obtain ⟨x, hx⟩ := Option.isSome_iff_exists.1 hs
      simp [hx]
    · simp [hq]
  · rw [if_neg hs, lookupIn_append_singleton]
    have hn : lookupIn nodes p = none := by
      cases h : lookupIn nodes p with
      | none => rfl
      | some x => rw [h] at hs; simp at hs
    by_cases hq : q = p
    · subst hq; rw [hn]
    · have hpq : ¬ p = q := fun h => hq h.symm
      cases h : lookupIn nodes q <;> simp [hq, hpq]

theorem lookupIn_some_mem (nodes : List (Path × Node)) (p : Path) (v : Node)
    (h : lookupIn nodes p = some v) : (p, v) ∈ nodes := by
  induction nodes with
  | nil => simp [lookupIn] at h
  | cons x xs ih =>
    by_cases hxp : x.1 = p
    · rw [lookupIn_cons_eq _ _ _ hxp] at h
      have : x = (p, v) := by
        rw [← hxp, ← Option.some.inj h]
      rw [this]; exact List.mem_cons_self _ _
    · rw [lookupIn_cons_ne _ _ _ hxp] at h
      exact List.mem_cons_of_mem _ (ih h)

theorem lookupIn_isSome_of_mem (nodes : List (Path × Node)) (p : Path) (v : Node)
    (h : (p, v) ∈ nodes) : (lookupIn nodes p).isSome = true := by
  induction nodes with
  | nil => simp at h
  | cons x xs ih =>
    by_cases hxp : x.1 = p
    · rw [lookupIn_cons_eq _ _ _ hxp]; rfl
    · rw [lookupIn_cons_ne _ _ _ hxp]
      rcases List.mem_cons.1 h with h | h
      · exact absurd (by rw [← h]) hxp
      · exact ih h

theorem node_nil (fs : FS) : fs.node [] = none := by simp [FS.node]

theorem obj_nil (fs : FS) : fs.obj [] = none := by simp [FS.obj, node_nil]

theorem node_setNode (fs : FS) (p q : Path) (nd : Node) (hp : p ≠ []) :
    (fs.setNode p nd).node q = if q = p then some nd else fs.node q := by
  unfold FS.node FS.setNode
  by_cases hq : q = []
  · have : ¬ q = p := fun h => hp (h ▸ hq)
    rw [if_pos hq, if_neg this, if_pos hq]
  · simp only [hq, if_false]
    exact lookupIn_setKey _ _ _ _

theorem node_eraseNode (fs : FS) (p q : Path) :
    (fs.eraseNode p).node q = if q = p then none else fs.node q := by
  unfold FS.node FS.eraseNode
  by_cases hq : q = []
  · simp [hq]
  · simp only [hq, if_false]
    exact lookupIn_eraseKey _ _ _

theorem touch_frame (fs : FS) (p : Path) (t : Time) :
    (fs.touch p t).cwd = fs.cwd ∧ (fs.touch p t).denied = fs.denied ∧
    (∀ q, (fs.touch p t).obj q = fs.obj q) ∧
    (∀ q, q ≠ p → (fs.touch p t).node q = fs.node q) := by
  unfold FS.touch
  cases h : fs.node p with
  | none => exact ⟨rfl, rfl, fun _ => rfl, fun _ _ => rfl⟩
  | some nd =>
    cases nd with
    | file f => exact ⟨rfl, rfl, fun _ => rfl, fun _ _ => rfl⟩
    | dir size mt =>
      have hp : p ≠ [] := by
        intro e; rw [e, node_nil] at h; cases h
      refine ⟨rfl, rfl, ?_, ?_⟩
      · intro q
        simp only [FS.obj]
        rw [node_setNode _ _ _ _ hp]
        by_cases hq : q = p
        · rw [if_pos hq, hq, h]; rfl
        · rw [if_neg hq]
      · intro q hq
        simp only []
        rw [node_setNode _ _ _ _ hp, if_neg hq]

theorem obj_setNode (fs : FS) (p q : Path) (nd : Node) (hp : p ≠ []) :
    (fs.setNode p nd).obj q = if q = p then some nd.untimed else fs.obj q := by
  simp only [FS.obj]
  rw [node_setNode _ _ _ _ hp]
  by_cases hq : q = p <;> simp [hq]

theorem obj_eraseNode (fs : FS) (p q : Path) :
    (fs.eraseNode p).obj q = if q = p then none else fs.obj q := by
  simp only [FS.obj]
  rw [node_eraseNode]
  by_cases hq : q = p <;> simp [hq]

theorem isDir_eq_obj (fs : FS) (q : Path) :
    fs.isDir q = (decide (q = []) || isDirObj (fs.obj q)) := by
  unfold FS.isDir FS.obj
  cases h : fs.node q with
  | none => rfl
  | some nd => cases nd <;> rfl

theorem node_isSome_obj (fs : FS) (q : Path) : (fs.node q).isSome = (fs.obj q).isSome := by
  simp [FS.obj]

theorem node_file_iff (fs : FS) (q : Path) (f : File) :
    fs.node q = some (Node.file f) ↔ fs.obj q = some (Node.file f) := by
  unfold FS.obj
  cases h : fs.node q with
  | none => simp
  | some nd => cases nd <;> simp [Node.untimed]

theorem node_none_iff (fs : FS) (q : Path) : fs.node q = none ↔ fs.obj q = none := by
  simp [FS.obj]

/-- Two trees with the same objects have the same directories. -/
theorem isDir_congr (fs1 fs : FS) (q : Path) (h : fs1.obj q = fs.obj q) :
    fs1.isDir q = fs.isDir q := by
  rw [isDir_eq_obj, isDir_eq_obj, h]

/-! ## Lemmas on listings -/

theorem toInfo_Name (n : Str) (nd : Node) : (toInfo n nd).Name = n := by
  cases nd <;> rfl

theorem mem_childNames (sep : Char) (fs : FS) (p : Path) (n : Str) :
    n ∈ fs.childNames sep p ↔ validName sep n ∧ (fs.node (p ++ [n])).isSome = true := by
  unfold FS.childNames
  rw [List.mem_dedup, List.mem_filterMap]
  have hne : p ++ [n] ≠ [] := by simp
  constructor
  · rintro ⟨e, he, hm⟩
    cases hl : e.1.getLast? with
    | none => rw [hl] at hm; cases hm
    | some m =>
      rw [hl] at hm
      simp only [] at hm
      by_cases hc : e.1 = p ++ [m] ∧ validName sep m
      · rw [if_pos hc] at hm
        have hmn : m = n := Option.some.inj hm
        subst hmn
        refine ⟨hc.2, ?_⟩
        simp only [FS.node, hne, if_false]
        apply lookupIn_isSome_of_mem _ _ e.2
        rw [← hc.1]; exact he
      · rw [if_neg hc] at hm; cases hm
  · rintro ⟨hv, hs⟩
    simp only [FS.node, hne, if_false] at hs
    obtain ⟨nd, hnd⟩ := Option.isSome_iff_exists.1 hs
    refine ⟨(p ++ [n], nd), lookupIn_some_mem _ _ _ hnd, ?_⟩
    simp [hv]

/-- The entries of a directory are its objects one name further. -/
theorem mem_entries (sep : Char) (fs : FS) (p : Path) (e : FileInfo) :
    e ∈ fs.entries sep p ↔
      ∃ n nd, validName sep n ∧ fs.node (p ++ [n]) = some nd ∧ e = toInfo n nd := by
  unfold FS.entries
  rw [List.mem_filterMap]
  constructor
  · rintro ⟨n, hn, hm⟩
    obtain ⟨hv, _⟩ := (mem_childNames sep fs p n).1 hn
    cases h : fs.node (p ++ [n]) with
    | none => rw [h] at hm; cases hm
    | some nd =>
      rw [h] at hm
      exact ⟨n, nd, hv, h, (Option.some.inj hm).symm⟩
  · rintro ⟨n, nd, hv, hnd, he⟩
    refine ⟨n, (mem_childNames sep fs p n).2 ⟨hv, by rw [hnd]; rfl⟩, ?_⟩
    rw [hnd, he]; rfl

theorem entries_eq_nil_iff (sep : Char) (fs : FS) (p : Path) :
    fs.entries sep p = [] ↔ ∀ n, validName sep n → fs.node (p ++ [n]) = none := by
  rw [List.eq_nil_iff_forall_not_mem]
  constructor
  · intro h n hv
    cases hnd : fs.node (p ++ [n]) with
    | none => rfl
    | some nd => exact absurd ((mem_entries sep fs p _).2 ⟨n, nd, hv, hnd, rfl⟩) (h _)
  · intro h e he
    obtain ⟨n, nd, hv, hnd, _⟩ := (mem_entries sep fs p e).1 he
    rw [h n hv] at hnd; cases hnd

theorem ReadDir_some (P : Platform) (fs : FS) (d : Str) (l : List FileInfo)
    (h : ReadDir P fs d = some l) :
    ∃ p, resolve P.PathSeparator fs d = some p ∧ fs.isDir p = true ∧
      Syscall.ReadDir p ∉ fs.denied ∧
      l = (fs.entries P.PathSeparator p).insertionSort (fun a b => a.Name ≤ b.Name) ∧
      ∀ e, e ∈ l ↔ e ∈ fs.entries P.PathSeparator p := by
  unfold ReadDir at h
  cases hr : resolve P.PathSeparator fs d with
  | none => rw [hr] at h; cases h
  | some p =>
    rw [hr] at h
    simp only [] at h
    by_cases hc : fs.isDir p = true ∧ Syscall.ReadDir p ∉ fs.denied
    · rw [if_pos hc] at h
      have hl := Option.some.inj h
      refine ⟨p, rfl, hc.1, hc.2, hl.symm, ?_⟩
      intro e
      rw [← hl]
      exact (List.perm_insertionSort _ _).mem_iff
    · rw [if_neg hc] at h; cases h

theorem ReadDir_isSome (P : Platform) (fs : FS) (d : Str) (p : Path)
    (hr : resolve P.PathSeparator fs d = some p) (hd : fs.isDir p = true)
    (hn : Syscall.ReadDir p ∉ fs.denied) :
    ReadDir P fs d
      = some ((fs.entries P.PathSeparator p).insertionSort (fun a b => a.Name ≤ b.Name)) := by
  unfold ReadDir
  rw [hr]
  simp only []
  rw [if_pos ⟨hd, hn⟩]

/-! ## Lemmas on the calls that change the tree -/

theorem isDir_of_file (fs : FS) (p : Path) (f : File) (h : fs.node p = some (Node.file f)) :
    fs.isDir p = false := by
  have hp : p ≠ [] := by
    intro e; rw [e, node_nil] at h; cases h
  simp [FS.isDir, h, hp]

theorem ne_nil_of_node (fs : FS) (p : Path) (h : (fs.node p).isSome = true) : p ≠ [] := by
  intro e; rw [e, node_nil] at h; cases h

/-- What a successful `Remove` does: the string names an object, a directory
    only if it has no entry; that object is gone, every other is as it was, the
    modification time of the directory above it aside. -/
theorem Remove_some (P : Platform) (fs fs1 : FS) (name : Str) (h : Remove P fs name = some fs1) :
    ∃ p, resolve P.PathSeparator fs name = some p ∧ (fs.node p).isSome = true ∧
      (fs.isDir p = true → ∀ n, validName P.PathSeparator n → fs.node (p ++ [n]) = none) ∧
      Syscall.Remove p ∉ fs.denied ∧
      fs1.cwd = fs.cwd ∧ fs1.denied = fs.denied ∧
      (∀ q, fs1.obj q = if q = p then none else fs.obj q) ∧
      (∀ q, q ≠ p → q ≠ p.dropLast → fs1.node q = fs.node q) := by
  unfold Remove at h
  by_cases hl : lastComponent P.PathSeparator name = dot ∨
      lastComponent P.PathSeparator name = dotdot
  · rw [if_pos hl] at h; cases h
  · rw [if_neg hl] at h
    cases hr : resolve P.PathSeparator fs name with
    | none => rw [hr] at h; cases h
    | some p =>
      rw [hr] at h
      simp only [] at h
      obtain ⟨t1, t2, t3, t4⟩ := touch_frame (fs.eraseNode p) p.dropLast P.now
      have key : fs1 = (fs.eraseNode p).touch p.dropLast P.now →
          fs1.cwd = fs.cwd ∧ fs1.denied = fs.denied ∧
          (∀ q, fs1.obj q = if q = p then none else fs.obj q) ∧
          (∀ q, q ≠ p → q ≠ p.dropLast → fs1.node q = fs.node q) := by
        intro e
        subst e
        refine ⟨t1, t2, ?_, ?_⟩
        · intro q; rw [t3, obj_eraseNode]
        · intro q h1 h2; rw [t4 q h2, node_eraseNode, if_neg h1]
      cases hn : fs.node p with
      | none => rw [hn] at h; cases h
      | some nd =>
        rw [hn] at h
        cases nd with
        | file f =>
          simp only [] at h
          by_cases hd : Syscall.Remove p ∈ fs.denied
          · rw [if_pos hd] at h; cases h
          · rw [if_neg hd] at h
            refine ⟨p, rfl, by rw [hn]; rfl, ?_, hd, key (Option.some.inj h).symm⟩
            intro hdir
            rw [isDir_of_file fs p f hn] at hdir; cases hdir
        | dir size mt =>
          simp only [] at h
          by_cases hc : fs.entries P.PathSeparator p = [] ∧ Syscall.Remove p ∉ fs.denied
          · rw [if_pos hc] at h
            refine ⟨p, rfl, by rw [hn]; rfl, ?_, hc.2, key (Option.some.inj h).symm⟩
            intro _
            exact (entries_eq_nil_iff _ _ _).1 hc.1
          · rw [if_neg hc] at h; cases h

/-- What a successful `Create` does: the string names a place that holds no
    directory and whose name is a name; an empty regular file is there, every
    other object is as it was, the modification time of the directory above it
    aside. -/
theorem Create_some (P : Platform) (fs fs1 : FS) (name : Str) (p : Path)
    (h : Create P fs name = some (fs1, p)) :
    resolve P.PathSeparator fs name = some p ∧
    lastComponent P.PathSeparator name ≠ [] ∧ lastComponent P.PathSeparator name ≠ dot ∧
    lastComponent P.PathSeparator name ≠ dotdot ∧
    fs.isDir p = false ∧ p ≠ [] ∧ Syscall.Create p ∉ fs.denied ∧
    fs1.cwd = fs.cwd ∧ fs1.denied = fs.denied ∧
    (∀ q, fs1.obj q = if q = p then some (Node.file ⟨[], P.now⟩) else fs.obj q) ∧
    (∀ q, q ≠ p → q ≠ p.dropLast → fs1.node q = fs.node q) := by
  unfold Create at h
  by_cases hl : lastComponent P.PathSeparator name = [] ∨
      lastComponent P.PathSeparator name = dot ∨ lastComponent P.PathSeparator name = dotdot
  · rw [if_pos hl] at h; cases h
  · rw [if_neg hl] at h
    cases hr : resolve P.PathSeparator fs name with
    | none => rw [hr] at h; cases h
    | some p1 =>
      rw [hr] at h
      simp only [] at h
      by_cases hc : fs.isDir p1 = false ∧ Syscall.Create p1 ∉ fs.denied
      · rw [if_pos hc] at h
        obtain ⟨e1, e2⟩ := Prod.mk.inj (Option.some.inj h)
        subst e2
        have hp : p1 ≠ [] := by
          intro e
          have := hc.1
          rw [e] at this
          simp [FS.isDir] at this
        obtain ⟨t1, t2, t3, t4⟩ := touch_frame fs p1.dropLast P.now
        have hb : ∀ base : FS, base.cwd = fs.cwd → base.denied = fs.denied →
            (∀ q, base.obj q = fs.obj q) → (∀ q, q ≠ p1.dropLast → base.node q = fs.node q) →
            fs1 = base.setNode p1 (Node.file ⟨[], P.now⟩) →
            fs1.cwd = fs.cwd ∧ fs1.denied = fs.denied ∧
            (∀ q, fs1.obj q = if q = p1 then some (Node.file ⟨[], P.now⟩) else fs.obj q) ∧
            (∀ q, q ≠ p1 → q ≠ p1.dropLast → fs1.node q = fs.node q) := by
          intro base b1 b2 b3 b4 e
          subst e
          refine ⟨b1, b2, ?_, ?_⟩
          · intro q; rw [obj_setNode _ _ _ _ hp, b3]; rfl
          · intro q h1 h2; rw [node_setNode _ _ _ _ hp, if_neg h1, b4 q h2]
        refine ⟨rfl, fun e => hl (Or.inl e), fun e => hl (Or.inr (Or.inl e)),
          fun e => hl (Or.inr (Or.inr e)), hc.1, hp, hc.2, ?_⟩
        by_cases hs : (fs.node p1).isSome = true
        · rw [if_pos hs] at e1
          exact hb fs rfl rfl (fun _ => rfl) (fun _ _ => rfl) e1.symm
        · rw [if_neg hs] at e1
          exact hb _ t1 t2 t3 t4 e1.symm
      · rw [if_neg hc] at h; cases h

theorem Open_some (P : Platform) (fs : FS) (name : Str) (p : Path)
    (h : Open P fs name = some p) : resolve P.PathSeparator fs name = some p := by
  unfold Open at h
  cases hr : resolve P.PathSeparator fs name with
  | none => rw [hr] at h; cases h
  | some p1 =>
    rw [hr] at h
    simp only [] at h
    by_cases hc : (p1 = [] ∨ (fs.node p1).isSome = true) ∧ Syscall.Open p1 ∉ fs.denied
    · rw [if_pos hc] at h; exact h
    · rw [if_neg hc] at h; cases h

/-- What `Copy` does: when it succeeds the source is a regular file and the
    destination holds its bytes, stamped with the current time; when it fails
    nothing changes. -/
theorem Copy_cases (P : Platform) (fs : FS) (dst src : Path) :
    ((Copy P fs dst src).2 = true ∧ ∃ f, fs.node src = some (Node.file f) ∧
      (Copy P fs dst src).1 = fs.setNode dst (Node.file ⟨f.bytes, P.now⟩)) ∨
    ((Copy P fs dst src).2 = false ∧ (Copy P fs dst src).1 = fs) := by
  unfold Copy
  cases h : fs.node src with
  | none => right; exact ⟨rfl, rfl⟩
  | some nd =>
    cases nd with
    | file f => left; exact ⟨rfl, f, rfl, rfl⟩
    | dir size mt => right; exact ⟨rfl, rfl⟩

/-! ## Lemmas on `cp` -/

theorem cp_cases (P : Platform) (src dst : Str) (w : World) :
    (Open P w.fs src = none ∧
      cp P src dst w = w.log [Event.Open src false,
        Event.Println ("FAILED to open source file!".toList ++ P.errorText src)]) ∨
    (∃ ps, Open P w.fs src = some ps ∧ Create P w.fs dst = none ∧
      cp P src dst w = w.log [Event.Open src true, Event.Create dst false,
        Event.Println ("FAILED to create target file!".toList ++ P.errorText dst)]) ∨
    (∃ ps fs1 pd, Open P w.fs src = some ps ∧ Create P w.fs dst = some (fs1, pd) ∧
      cp P src dst w = { w with
        fs := (Copy P fs1 pd ps).1
        trace := w.trace ++
          [Event.Open src true, Event.Create dst true,
            Event.Copy dst src (Copy P fs1 pd ps).2] }) := by
  unfold cp
  cases ho : Open P w.fs src with
  | none => left; exact ⟨rfl, rfl⟩
  | some ps =>
    right
    cases hc : Create P w.fs dst with
    | none => left; exact ⟨ps, rfl, rfl, rfl⟩
    | some r =>
      right
      obtain ⟨fs1, pd⟩ := r
      exact ⟨ps, fs1, pd, rfl, rfl, rfl⟩

theorem cp_trace (P : Platform) (src dst : Str) (w : World) :
    ∃ new, (cp P src dst w).trace = w.trace ++ new ∧
      ∀ e ∈ new, (∃ ok, e = Event.Open src ok) ∨ (∃ ok, e = Event.Create dst ok) ∨
        (∃ ok, e = Event.Copy dst src ok) ∨ ∃ line, e = Event.Println line := by
  rcases cp_cases P src dst w with ⟨_, h⟩ | ⟨ps, _, _, h⟩ | ⟨ps, fs1, pd, _, _, h⟩
  · rw [h]; exact ⟨_, rfl, by simp⟩
  · rw [h]; exact ⟨_, rfl, by simp⟩
  · rw [h]; exact ⟨_, rfl, by simp⟩

/-- What `cp` leaves untouched, whatever its outcome: the working directory,
    the refusals, the console, the directories, and every object but the one
    at the place that the destination string names; and no object
    disappears. -/
theorem cp_frame (P : Platform) (src dst : Str) (w : World) :
    (cp P src dst w).fs.cwd = w.fs.cwd ∧ (cp P src dst w).fs.denied = w.fs.denied ∧
    (cp P src dst w).console = w.console ∧
    (∀ q, resolve P.PathSeparator w.fs dst ≠ some q →
      (cp P src dst w).fs.obj q = w.fs.obj q) ∧
    (∀ q, (w.fs.node q).isSome = true → ((cp P src dst w).fs.node q).isSome = true) ∧
    (∀ q, (cp P src dst w).fs.isDir q = w.fs.isDir q) := by
  rcases cp_cases P src dst w with ⟨_, h⟩ | ⟨ps, _, _, h⟩ | ⟨ps, fs1, pd, _, hc, h⟩
  · rw [h]; exact ⟨rfl, rfl, rfl, fun _ _ => rfl, fun _ hq => hq, fun _ => rfl⟩
  · rw [h]; exact ⟨rfl, rfl, rfl, fun _ _ => rfl, fun _ hq => hq, fun _ => rfl⟩
  · rw [h]
    obtain ⟨c1, _, _, _, c5, c6, _, c8, c9, c10, _⟩ := Create_some P w.fs fs1 dst pd hc
    have hobj : ∃ g : File, ∀ q, (Copy P fs1 pd ps).1.obj q
        = if q = pd then some (Node.file g) else w.fs.obj q := by
      rcases Copy_cases P fs1 pd ps with ⟨_, f, _, he⟩ | ⟨_, he⟩
      · refine ⟨⟨f.bytes, P.now⟩, ?_⟩
        intro q
        rw [he, obj_setNode _ _ _ _ c6, c10]
        by_cases hq : q = pd <;> simp [hq, Node.untimed]
      · exact ⟨⟨[], P.now⟩, fun q => by rw [he, c10]⟩
    obtain ⟨g, hg⟩ := hobj
    have hcw : (Copy P fs1 pd ps).1.cwd = w.fs.cwd ∧ (Copy P fs1 pd ps).1.denied = w.fs.denied := by
      rcases Copy_cases P fs1 pd ps with ⟨_, f, _, he⟩ | ⟨_, he⟩
      · rw [he]; exact ⟨c8, c9⟩
      · rw [he]; exact ⟨c8, c9⟩
    refine ⟨hcw.1, hcw.2, rfl, ?_, ?_, ?_⟩
    · intro q hq
      have hne : q ≠ pd := fun e => hq (by rw [c1, e])
      simp only []
      rw [hg, if_neg hne]
    · intro q hq
      simp only []
      rw [node_isSome_obj, hg]
      by_cases hqd : q = pd
      · rw [if_pos hqd]; rfl
      · rw [if_neg hqd, ← node_isSome_obj]; exact hq
    · intro q
      simp only []
      rw [isDir_eq_obj, isDir_eq_obj, hg]
      by_cases hqd : q = pd
      · rw [if_pos hqd]
        have h5 := c5
        rw [isDir_eq_obj, ← hqd] at h5
        rw [h5]
        simp [isDirObj, hqd, c6]
      · rw [if_neg hqd]

/-! ## Lemmas on `rm` and the two purge loops -/

theorem osRemove_cases (P : Platform) (name : Str) (w : World) :
    (∃ fs1, Remove P w.fs name = some fs1 ∧
      osRemove P name w = { w with fs := fs1, trace := w.trace ++ [Event.Remove name true] }) ∨
    (Remove P w.fs name = none ∧ osRemove P name w = w.log [Event.Remove name false]) := by
  unfold osRemove
  cases h : Remove P w.fs name with
  | none => right; exact ⟨rfl, rfl⟩
  | some fs1 => left; exact ⟨fs1, rfl, rfl⟩

theorem osRemove_trace (P : Platform) (name : Str) (w : World) :
    ∃ ok, (osRemove P name w).trace = w.trace ++ [Event.Remove name ok] := by
  rcases osRemove_cases P name w with ⟨fs1, _, h⟩ | ⟨_, h⟩
  · exact ⟨true, by rw [h]⟩
  · exact ⟨false, by rw [h]; rfl⟩

theorem rm_dbg (P : Platform) (dir file : Str) (w : World) :
    rm P true dir file w = w.log [Event.Println (toDelete dir file)] := by
  simp [rm]

theorem purgeSrc_step (P : Platform) (dir : Str) (x : FileInfo) (xs : List FileInfo) (w : World) :
    purgeSrc P false dir (x :: xs) w
      = purgeSrc P false dir xs
          (osRemove P (dir ++ x.Name) (w.log [Event.Println (toDelete dir x.Name)])) := by
  simp [purgeSrc, rm]

theorem purgeSrc_dbg (P : Platform) (dir : Str) (l : List FileInfo) (w : World) :
    (purgeSrc P true dir l w).fs = w.fs ∧ (purgeSrc P true dir l w).console = w.console ∧
    ∃ new, (purgeSrc P true dir l w).trace = w.trace ++ new ∧
      ∀ e ∈ new, ∃ line, e = Event.Println line := by
  induction l generalizing w with
  | nil => exact ⟨rfl, rfl, [], by simp [purgeSrc], by simp⟩
  | cons x xs ih =>
    have hstep : purgeSrc P true dir (x :: xs) w
        = purgeSrc P true dir xs (rm P true dir x.Name w) := rfl
    obtain ⟨h1, h2, new, h3, h4⟩ := ih (rm P true dir x.Name w)
    rw [hstep, rm_dbg] at *
    refine ⟨h1, h2, Event.Println (toDelete dir x.Name) :: new, ?_, ?_⟩
    · rw [h3]; simp [World.log]
    · intro e he
      rcases List.mem_cons.1 he with h | h
      · exact ⟨_, h⟩
      · exact h4 e h

theorem purgeSrc_trace (P : Platform) (dir : Str) (l : List FileInfo) (w : World) :
    ∃ new, (purgeSrc P false dir l w).trace = w.trace ++ new ∧
      (∀ e ∈ new, ∃ f ∈ l, e = Event.Println (toDelete dir f.Name) ∨
        ∃ ok, e = Event.Remove (dir ++ f.Name) ok) ∧
      (∀ f ∈ l, ∃ ok, Event.Remove (dir ++ f.Name) ok ∈ new) := by
  induction l generalizing w with
  | nil => exact ⟨[], by simp [purgeSrc], by simp, by simp⟩
  | cons x xs ih =>
    obtain ⟨new, h1, h2, h3⟩ :=
      ih (osRemove P (dir ++ x.Name) (w.log [Event.Println (toDelete dir x.Name)]))
    obtain ⟨ok, t1⟩ :=
      osRemove_trace P (dir ++ x.Name) (w.log [Event.Println (toDelete dir x.Name)])
    rw [purgeSrc_step]
    refine ⟨Event.Println (toDelete dir x.Name) ::
      Event.Remove (dir ++ x.Name) ok :: new, ?_, ?_, ?_⟩
    · rw [h1, t1]; simp [World.log]
    · intro e he
      rcases List.mem_cons.1 he with h | he
      · exact ⟨x, List.mem_cons_self _ _, Or.inl h⟩
      · rcases List.mem_cons.1 he with h | he
        · exact ⟨x, List.mem_cons_self _ _, Or.inr ⟨ok, h⟩⟩
        · obtain ⟨f, hf, hor⟩ := h2 e he
          exact ⟨f, List.mem_cons_of_mem _ hf, hor⟩
    · intro f hf
      rcases List.mem_cons.1 hf with h | h
      · exact ⟨ok, by rw [h]; simp⟩
      · obtain ⟨ok2, hok2⟩ := h3 f h
        exact ⟨ok2, by simp [hok2]⟩

theorem purgeDst_eq_purgeSrc (P : Platform) (dbg : Bool) (dstDir dstStr : Str)
    (dir : List FileInfo) (w : World) :
    purgeDst P dbg dstDir dstStr dir w
      = purgeSrc P dbg dstDir (dir.filter (fun f => Contains f.Name dstStr)) w := by
  induction dir generalizing w with
  | nil => rfl
  | cons x xs ih =>
    by_cases hx : Contains x.Name dstStr = true
    · have e1 : purgeDst P dbg dstDir dstStr (x :: xs) w
          = purgeDst P dbg dstDir dstStr xs (rm P dbg dstDir x.Name w) := by
        simp [purgeDst, hx]
      have e2 : (x :: xs).filter (fun f => Contains f.Name dstStr)
          = x :: xs.filter (fun f => Contains f.Name dstStr) := by simp [List.filter_cons, hx]
      rw [e1, ih, e2]
      rfl
    · have e1 : purgeDst P dbg dstDir dstStr (x :: xs) w = purgeDst P dbg dstDir dstStr xs w := by
        simp [purgeDst, hx]
      have e2 : (x :: xs).filter (fun f => Contains f.Name dstStr)
          = xs.filter (fun f => Contains f.Name dstStr) := by simp [List.filter_cons, hx]
      rw [e1, ih, e2]

theorem append_singleton_ne_self (c : Path) (n : Str) : c ++ [n] ≠ c := by
  intro h
  have := congrArg List.length h
  simp at this

theorem append_singleton_inj (c d : Path) (n m : Str) (h : c ++ [n] = d ++ [m]) :
    c = d ∧ n = m := by
  have := List.append_inj' h rfl
  exact ⟨this.1, by simpa using this.2⟩

/-- The purge of the entries of one directory, when no removal fails.  The
    directory string names the place `c` in the tree `ref`, whose directories
    include those of the tree at the start.  Then every entry of the listing is
    gone at the end, every other object is as it was (the modification time of
    the directory `c` aside), and a directory that was removed had no entry at
    the start. -/
theorem purgeSrc_obj (P : Platform) (ref : FS) (d0 : Str) (c : Path) (l : List FileInfo)
    (hres : resolve P.PathSeparator ref (d0 ++ [P.PathSeparator]) = some c)
    (hval : ∀ f ∈ l, validName P.PathSeparator f.Name) (w : World)
    (hin : DirsWithin w.fs ref) (new : List Event)
    (hnew : (purgeSrc P false (d0 ++ [P.PathSeparator]) l w).trace = w.trace ++ new)
    (hok : ∀ p, Event.Remove p false ∉ new) :
    DirsWithin (purgeSrc P false (d0 ++ [P.PathSeparator]) l w).fs ref ∧
    (purgeSrc P false (d0 ++ [P.PathSeparator]) l w).fs.denied = w.fs.denied ∧
    (purgeSrc P false (d0 ++ [P.PathSeparator]) l w).console = w.console ∧
    (∀ q, (purgeSrc P false (d0 ++ [P.PathSeparator]) l w).fs.obj q
      = if q ∈ placesOf c l then none else w.fs.obj q) ∧
    (∀ q, q ∉ placesOf c l → q ≠ c →
      (purgeSrc P false (d0 ++ [P.PathSeparator]) l w).fs.node q = w.fs.node q) ∧
    (∀ q ∈ placesOf c l, w.fs.isDir q = true →
      ∀ n, validName P.PathSeparator n → w.fs.obj (q ++ [n]) = none) := by
  induction l generalizing w new with
  | nil =>
    refine ⟨hin, rfl, rfl, ?_, ?_, ?_⟩
    · intro q; simp [placesOf, purgeSrc]
    · intro q _ _; rfl
    · intro q hq; simp [placesOf] at hq
  | cons x xs ih =>
    have hx : validName P.PathSeparator x.Name := hval x (List.mem_cons_self _ _)
    have hxs : ∀ f ∈ xs, validName P.PathSeparator f.Name :=
      fun f hf => hval f (List.mem_cons_of_mem _ hf)
    rw [purgeSrc_step] at hnew ⊢
    generalize hw0 : w.log [Event.Println (toDelete (d0 ++ [P.PathSeparator]) x.Name)] = w0
      at hnew ⊢
    have hw0fs : w0.fs = w.fs := by rw [← hw0]; rfl
    have hw0c : w0.console = w.console := by rw [← hw0]; rfl
    have hw0t : w0.trace = w.trace ++ [Event.Println (toDelete (d0 ++ [P.PathSeparator]) x.Name)] := by
      rw [← hw0]; rfl
    obtain ⟨new1, hn1, _, _⟩ := purgeSrc_trace P (d0 ++ [P.PathSeparator]) xs
      (osRemove P (d0 ++ [P.PathSeparator] ++ x.Name) w0)
    rcases osRemove_cases P (d0 ++ [P.PathSeparator] ++ x.Name) w0 with ⟨fs1, hr, ho⟩ | ⟨_, ho⟩
    · -- the removal succeeds
      have hnew1 : new = Event.Println (toDelete (d0 ++ [P.PathSeparator]) x.Name) ::
          Event.Remove (d0 ++ [P.PathSeparator] ++ x.Name) true :: new1 := by
        have h2 : w.trace ++ new = w.trace ++
            (Event.Println (toDelete (d0 ++ [P.PathSeparator]) x.Name) ::
              Event.Remove (d0 ++ [P.PathSeparator] ++ x.Name) true :: new1) := by
          rw [← hnew, hn1, ho]
          simp [hw0t]
        exact List.append_cancel_left h2
      have hok1 : ∀ p, Event.Remove p false ∉ new1 := by
        intro p hp
        apply hok p
        rw [hnew1]
        exact List.mem_cons_of_mem _ (List.mem_cons_of_mem _ hp)
      rw [hw0fs] at hr
      obtain ⟨p, r1, r2, r3, _, r5, r6, r7, r8⟩ := Remove_some P w.fs fs1 _ hr
      have hp : p = c ++ [x.Name] := by
        have h1 := resolve_mono _ _ _ hin _ _ r1
        rw [resolve_child _ _ _ _ _ hres hx] at h1
        exact (Option.some.inj h1).symm
      subst hp
      have hdir1 : ∀ q, fs1.isDir q = true → w.fs.isDir q = true := by
        intro q hq
        rw [isDir_eq_obj, r7] at hq
        rw [isDir_eq_obj]
        by_cases hqp : q = c ++ [x.Name]
        · rw [if_pos hqp] at hq
          have hne : q ≠ [] := by rw [hqp]; simp
          simp [isDirObj, hne] at hq
        · rw [if_neg hqp] at hq; exact hq
      rw [ho] at hn1 ⊢
      obtain ⟨i1, i2, i3, i4, i5, i6⟩ := ih hxs
        { w0 with fs := fs1
                  trace := w0.trace ++ [Event.Remove (d0 ++ [P.PathSeparator] ++ x.Name) true] }
        ⟨r5.trans hin.1, fun q hq => hin.2 q (hdir1 q hq)⟩ new1 hn1 hok1
      have hpl : placesOf c (x :: xs) = (c ++ [x.Name]) :: placesOf c xs := rfl
      refine ⟨i1, i2.trans r6, i3.trans hw0c, ?_, ?_, ?_⟩
      · intro q
        rw [i4, hpl]
        simp only [List.mem_cons]
        rw [r7]
        by_cases h1 : q ∈ placesOf c xs
        · simp [h1]
        · by_cases h2 : q = c ++ [x.Name]
          · simp [h2]
          · simp [h1, h2]
      · intro q hq hqc
        rw [hpl] at hq
        have h1 : q ≠ c ++ [x.Name] := fun e => hq (by rw [e]; exact List.mem_cons_self _ _)
        have h2 : q ∉ placesOf c xs := fun e => hq (List.mem_cons_of_mem _ e)
        rw [i5 q h2 hqc]
        simp only []
        rw [r8 q h1 (by simpa using hqc)]
      · intro q hq hdir n hn
        by_cases h1 : q = c ++ [x.Name]
        · rw [h1] at hdir ⊢
          exact (node_none_iff _ _).1 (r3 hdir n hn)
        · rw [hpl] at hq
          have h2 : q ∈ placesOf c xs := by
            rcases List.mem_cons.1 hq with e | e
            · exact absurd e h1
            · exact e
          have hd1 : fs1.isDir q = true := by
            rw [isDir_eq_obj, r7, if_neg h1, ← isDir_eq_obj]; exact hdir
          have := i6 q h2 hd1 n hn
          simp only [] at this
          rw [r7] at this
          have hne : q ++ [n] ≠ c ++ [x.Name] := by
            intro e
            have hqc := (append_singleton_inj _ _ _ _ e).1
            obtain ⟨f, _, hf⟩ := List.mem_map.1 h2
            rw [hqc] at hf
            exact append_singleton_ne_self c f.Name hf
          rw [if_neg hne] at this
          exact this
    · -- the removal fails
      exfalso
      have h2 : w.trace ++ new = w.trace ++
          (Event.Println (toDelete (d0 ++ [P.PathSeparator]) x.Name) ::
            Event.Remove (d0 ++ [P.PathSeparator] ++ x.Name) false :: new1) := by
        rw [← hnew, hn1, ho]
        simp [hw0t, World.log]
      have hnew1 := List.append_cancel_left h2
      apply hok (d0 ++ [P.PathSeparator] ++ x.Name)
      rw [hnew1]
      exact List.mem_cons_of_mem _ (List.mem_cons_self _ _)

/-! ## Lemmas on `wait4dst` -/

theorem wait4dstLoop_ready (P : Platform) (d : Str) (ig : Bool) (fs : FS) (trace : List Event)
    (console : List FS) (dir : List FileInfo) (h : ReadDir P fs d = some dir) :
    wait4dstLoop P d ig fs trace console
      = some ((some dir, true), ⟨fs, console, trace ++ [Event.ReadDir d true]⟩) := by
  cases console <;> simp [wait4dstLoop, h]

theorem wait4dstLoop_ignore (P : Platform) (d : Str) (fs : FS) (trace : List Event)
    (console : List FS) (h : ReadDir P fs d = none) :
    wait4dstLoop P d true fs trace console
      = some ((none, false), ⟨fs, console, trace ++ [Event.ReadDir d false]⟩) := by
  cases console <;> simp [wait4dstLoop, h]

theorem wait4dstLoop_retry (P : Platform) (d : Str) (fs fs1 : FS) (trace : List Event)
    (rest : List FS) (h : ReadDir P fs d = none) :
    wait4dstLoop P d false fs trace (fs1 :: rest)
      = wait4dstLoop P d false fs1
          (trace ++ [Event.ReadDir d false, Event.Println (prompt d), Event.Scan]) rest := by
  simp [wait4dstLoop, h, prompt]

theorem wait4dstLoop_stuck (P : Platform) (d : Str) (fs : FS) (trace : List Event)
    (h : ReadDir P fs d = none) :
    wait4dstLoop P d false fs trace [] = none := by
  simp [wait4dstLoop, h]

/-- What `wait4dst` has done when it returns. -/
theorem wait4dstLoop_spec (P : Platform) (d : Str) (ig : Bool) (console : List FS) :
    ∀ (fs : FS) (trace : List Event) (r : Option (List FileInfo) × Bool) (w1 : World),
      wait4dstLoop P d ig fs trace console = some (r, w1) →
      w1.fs ∈ fs :: console ∧
      (∃ new, w1.trace = trace ++ new ∧
        ∀ e ∈ new, (∃ ok, e = Event.ReadDir d ok) ∨
          (ig = false ∧ ((∃ line, e = Event.Println line) ∨ e = Event.Scan))) ∧
      ((∃ dir, r = (some dir, true) ∧ ReadDir P w1.fs d = some dir) ∨
        (r = (none, false) ∧ ig = true ∧ w1.fs = fs ∧ ReadDir P fs d = none)) := by
  induction console with
  | nil =>
    intro fs trace r w1 h
    cases hr : ReadDir P fs d with
    | some dir =>
      rw [wait4dstLoop_ready P d ig fs trace [] dir hr] at h
      obtain ⟨h1, h2⟩ := Prod.mk.inj (Option.some.inj h)
      subst h1; subst h2
      exact ⟨by simp, ⟨_, rfl, by simp⟩, Or.inl ⟨dir, rfl, hr⟩⟩
    | none =>
      cases ig with
      | true =>
        rw [wait4dstLoop_ignore P d fs trace [] hr] at h
        obtain ⟨h1, h2⟩ := Prod.mk.inj (Option.some.inj h)
        subst h1; subst h2
        exact ⟨by simp, ⟨_, rfl, by simp⟩, Or.inr ⟨rfl, rfl, rfl, by first | exact hr | rfl⟩⟩
      | false =>
        rw [wait4dstLoop_stuck P d fs trace hr] at h
        cases h
  | cons fs1 rest ih =>
    intro fs trace r w1 h
    cases hr : ReadDir P fs d with
    | some dir =>
      rw [wait4dstLoop_ready P d ig fs trace _ dir hr] at h
      obtain ⟨h1, h2⟩ := Prod.mk.inj (Option.some.inj h)
      subst h1; subst h2
      exact ⟨by simp, ⟨_, rfl, by simp⟩, Or.inl ⟨dir, rfl, hr⟩⟩
    | none =>
      cases ig with
      | true =>
        rw [wait4dstLoop_ignore P d fs trace _ hr] at h
        obtain ⟨h1, h2⟩ := Prod.mk.inj (Option.some.inj h)
        subst h1; subst h2
        exact ⟨by simp, ⟨_, rfl, by simp⟩, Or.inr ⟨rfl, rfl, rfl, by first | exact hr | rfl⟩⟩
      | false =>
        rw [wait4dstLoop_retry P d fs fs1 trace rest hr] at h
        obtain ⟨a, ⟨new, b1, b2⟩, c⟩ := ih fs1 _ r w1 h
        refine ⟨List.mem_cons_of_mem _ a, ⟨[Event.ReadDir d false, Event.Println (prompt d),
          Event.Scan] ++ new, by rw [b1]; simp, ?_⟩, ?_⟩
        · intro e he
          rcases List.mem_append.1 he with he | he
          · simp only [List.mem_cons, List.mem_singleton, List.not_mem_nil, or_false] at he
            rcases he with he | he | he
            · exact Or.inl ⟨false, he⟩
            · exact Or.inr ⟨rfl, Or.inl ⟨_, he⟩⟩
            · exact Or.inr ⟨rfl, Or.inr he⟩
          · exact b2 e he
        · rcases c with c | ⟨_, c, _⟩
          · exact Or.inl c
          · cases c

/-- The loop of `wait4dst` ends when `ignore` is set, and when the directory
    can be listed at once or after one of the lines of the operator. -/
theorem wait4dstLoop_terminates (P : Platform) (d : Str) (ig : Bool) (console : List FS) :
    ∀ (fs : FS) (trace : List Event),
      (ig = true ∨ ∃ fs1 ∈ fs :: console, ReadDir P fs1 d ≠ none) →
      ∃ r, wait4dstLoop P d ig fs trace console = some r := by
  induction console with
  | nil =>
    intro fs trace h
    cases hr : ReadDir P fs d with
    | some dir => exact ⟨_, wait4dstLoop_ready P d ig fs trace [] dir hr⟩
    | none =>
      rcases h with h | ⟨fs1, hm, hne⟩
      · subst h; exact ⟨_, wait4dstLoop_ignore P d fs trace [] hr⟩
      · simp only [List.mem_singleton] at hm
        subst hm
        exact absurd hr hne
  | cons fs2 rest ih =>
    intro fs trace h
    cases hr : ReadDir P fs d with
    | some dir => exact ⟨_, wait4dstLoop_ready P d ig fs trace _ dir hr⟩
    | none =>
      cases ig with
      | true => exact ⟨_, wait4dstLoop_ignore P d fs trace _ hr⟩
      | false =>
        rw [wait4dstLoop_retry P d fs fs2 trace rest hr]
        apply ih
        rcases h with h | ⟨fs1, hm, hne⟩
        · cases h
        · right
          rcases List.mem_cons.1 hm with hm | hm
          · subst hm; exact absurd hr hne
          · exact ⟨fs1, hm, hne⟩

/-! ## Lemmas on the separator check -/

theorem dirCorrectLog_lines (P : Platform) :
    ∀ e ∈ dirCorrectLog P ++ dirCorrectLog P, ∃ line, e = Event.Println line := by
  intro e he
  unfold dirCorrectLog at he
  cases h : P.unquotedSeparator with
  | none => rw [h] at he; exact ⟨_, by simpa using he⟩
  | some sep => rw [h] at he; simp at he

theorem dirCorrectLog_of_some (P : Platform) (sep : Str) (h : P.unquotedSeparator = some sep) :
    dirCorrectLog P = [] := by
  simp [dirCorrectLog, h]

theorem checked_trace (P : Platform) (w : World) :
    (checked P w).trace = w.trace ++ (dirCorrectLog P ++ dirCorrectLog P) := rfl

/-- Events counted from the state after the separator check are events
    counted from the start, the warnings included. -/
theorem via_checked (P : Platform) (w out : World) (Q : Event → Prop)
    (hQ : ∀ line, Q (Event.Println line))
    (h : ∃ new, out.trace = (checked P w).trace ++ new ∧ ∀ e ∈ new, Q e) :
    ∃ new, out.trace = w.trace ++ new ∧ ∀ e ∈ new, Q e := by
  obtain ⟨new, h1, h2⟩ := h
  refine ⟨(dirCorrectLog P ++ dirCorrectLog P) ++ new,
    by rw [h1, checked_trace, List.append_assoc], ?_⟩
  intro e he
  rcases List.mem_append.1 he with he | he
  · obtain ⟨line, hl⟩ := dirCorrectLog_lines P e he
    subst hl; exact hQ line
  · exact h2 e he

/-! ## The paths of `main` -/

theorem len_lt_one (s : Str) : (decide (len s < 1) = true) ↔ s = [] := by
  cases s <;> simp [len]

theorem guard_of_allGiven (fl : Flags) (h : allGiven fl) :
    (decide (len fl.srcDir < 1) || decide (len fl.srcStr < 1) || decide (len fl.dstStr < 1) ||
      decide (len fl.dstDir < 1) || decide (len fl.dstAffix < 1)) = false := by
  obtain ⟨h1, h2, h3, h4, h5⟩ := h
  have a1 : decide (len fl.srcDir < 1) = false := by
    rw [Bool.eq_false_iff]; exact fun h => h1 ((len_lt_one _).1 h)
  have a2 : decide (len fl.dstDir < 1) = false := by
    rw [Bool.eq_false_iff]; exact fun h => h2 ((len_lt_one _).1 h)
  have a3 : decide (len fl.srcStr < 1) = false := by
    rw [Bool.eq_false_iff]; exact fun h => h3 ((len_lt_one _).1 h)
  have a4 : decide (len fl.dstStr < 1) = false := by
    rw [Bool.eq_false_iff]; exact fun h => h4 ((len_lt_one _).1 h)
  have a5 : decide (len fl.dstAffix < 1) = false := by
    rw [Bool.eq_false_iff]; exact fun h => h5 ((len_lt_one _).1 h)
  rw [a1, a2, a3, a4, a5]; rfl

theorem guard_of_not_allGiven (fl : Flags) (h : ¬ allGiven fl) :
    (decide (len fl.srcDir < 1) || decide (len fl.srcStr < 1) || decide (len fl.dstStr < 1) ||
      decide (len fl.dstDir < 1) || decide (len fl.dstAffix < 1)) = true := by
  by_contra hc
  apply h
  simp only [Bool.or_eq_true, not_or, len_lt_one] at hc
  obtain ⟨⟨⟨⟨h1, h2⟩, h3⟩, h4⟩, h5⟩ := hc
  exact ⟨h1, h4, h2, h3, h5⟩

theorem main_not_allGiven (P : Platform) (fl : Flags) (w : World) (h : ¬ allGiven fl) :
    main P fl w = some (w.log [Event.Println usage, Event.Exit (-1)]) := by
  have hg := guard_of_not_allGiven fl h
  unfold main
  simp only [decide_eq_true_eq] at hg ⊢
  rw [if_pos (by simpa using hg)]

/-- The five ways through `main` once the flags are all given: the source
    cannot be listed; the wait for the destination never ends; the destination
    is not ready; no source file is eligible; a file is copied. -/
theorem main_cases (P : Platform) (fl : Flags) (w : World) (h : allGiven fl) :
    (ReadDir P w.fs (dirCorrect P fl.srcDir).1 = none ∧
      main P fl w = some ((checked P w).log [Event.ReadDir (dirCorrect P fl.srcDir).1 false,
        Event.Println ("NO source files found!".toList ++
          P.errorText (dirCorrect P fl.srcDir).1)])) ∨
    (∃ files, ReadDir P w.fs (dirCorrect P fl.srcDir).1 = some files ∧
      ((wait4dst P (dirCorrect P fl.dstDir).1 fl.ignore
          ((checked P w).log [Event.ReadDir (dirCorrect P fl.srcDir).1 true]) = none ∧
        main P fl w = none) ∨
      (∃ r w2, wait4dst P (dirCorrect P fl.dstDir).1 fl.ignore
          ((checked P w).log [Event.ReadDir (dirCorrect P fl.srcDir).1 true]) = some (r, w2) ∧
        (∀ dir, r ≠ (some dir, true)) ∧ main P fl w = some w2) ∨
      (∃ dir w2, wait4dst P (dirCorrect P fl.dstDir).1 fl.ignore
          ((checked P w).log [Event.ReadDir (dirCorrect P fl.srcDir).1 true]) = some ((some dir, true), w2) ∧
        ((get1src (dirCorrect P fl.srcDir).1 (matchLoop P fl.srcStr files) = [] ∧
          main P fl w = some ((purgeDst P fl.dbg (dirCorrect P fl.dstDir).1 fl.dstStr dir w2).log
            [Event.Println "NO eligible source files!".toList])) ∨
        (get1src (dirCorrect P fl.srcDir).1 (matchLoop P fl.srcStr files) ≠ [] ∧
          main P fl w = some (purgeSrc P fl.dbg (dirCorrect P fl.srcDir).1
            (matchLoop P fl.srcStr files)
            (cp P (get1src (dirCorrect P fl.srcDir).1 (matchLoop P fl.srcStr files))
              (nameDst (dirCorrect P fl.dstDir).1 fl.dstStr fl.dstAffix)
              (purgeDst P fl.dbg (dirCorrect P fl.dstDir).1 fl.dstStr dir w2)))))))) := by
  have hg := guard_of_allGiven fl h
  have hmain : main P fl w =
      match getsrcs P (dirCorrect P fl.srcDir).1 fl.srcStr (checked P w) with
      | (none, w1) => some w1
      | (some srcFiles, w1) =>
        match wait4dst P (dirCorrect P fl.dstDir).1 fl.ignore w1 with
        | none => none
        | some ((some dir, true), w2) =>
          if len (get1src (dirCorrect P fl.srcDir).1 srcFiles) > 0 then
            some (purgeSrc P fl.dbg (dirCorrect P fl.srcDir).1 srcFiles
              (cp P (get1src (dirCorrect P fl.srcDir).1 srcFiles)
                (nameDst (dirCorrect P fl.dstDir).1 fl.dstStr fl.dstAffix)
                (purgeDst P fl.dbg (dirCorrect P fl.dstDir).1 fl.dstStr dir w2)))
          else
            some ((purgeDst P fl.dbg (dirCorrect P fl.dstDir).1 fl.dstStr dir w2).log
              [Event.Println "NO eligible source files!".toList])
        | some (_, w2) => some w2 := by
    unfold main
    rw [if_neg (by rw [hg]; simp)]
  rw [hmain]
  have hfs : (checked P w).fs = w.fs := rfl
  cases hr : ReadDir P w.fs (dirCorrect P fl.srcDir).1 with
  | none =>
    left
    exact ⟨rfl, by simp [getsrcs, hr, hfs]⟩
  | some files =>
    right
    refine ⟨files, rfl, ?_⟩
    have hgs : getsrcs P (dirCorrect P fl.srcDir).1 fl.srcStr (checked P w)
        = (some (matchLoop P fl.srcStr files),
            (checked P w).log [Event.ReadDir (dirCorrect P fl.srcDir).1 true]) := by
      simp [getsrcs, hr, hfs]
    rw [hgs]
    simp only []
    cases hw : wait4dst P (dirCorrect P fl.dstDir).1 fl.ignore
        ((checked P w).log [Event.ReadDir (dirCorrect P fl.srcDir).1 true]) with
    | none => left; exact ⟨rfl, rfl⟩
    | some rw2 =>
      right
      obtain ⟨⟨dir, ok⟩, w2⟩ := rw2
      cases dir with
      | none => left; exact ⟨_, w2, rfl, by simp, by cases ok <;> rfl⟩
      | some dir =>
        cases ok with
        | false => left; exact ⟨_, w2, rfl, by simp, rfl⟩
        | true =>
          right
          refine ⟨dir, w2, rfl, ?_⟩
          by_cases hq : get1src (dirCorrect P fl.srcDir).1 (matchLoop P fl.srcStr files) = []
          · left
            refine ⟨hq, ?_⟩
            simp [hq, len]
          · right
            refine ⟨hq, ?_⟩
            have : len (get1src (dirCorrect P fl.srcDir).1 (matchLoop P fl.srcStr files)) > 0 := by
              simpa [len, List.length_pos] using hq
            simp only []
            rw [if_pos this]

/-! ## Lemmas on `get1src` -/

/-- What the loop of `get1src` holds after any number of candidates: either
    nothing was chosen and no candidate seen qualifies, or the pair is the
    first candidate of maximal time among the non-empty ones. -/
theorem get1src_loop (srcDir : Str) (l : List FileInfo) :
    (l.foldl (get1srcStep srcDir) (zeroTime, []) = (zeroTime, []) ∧
      ∀ g ∈ l, 0 < g.Size → g.ModTime ≤ 0) ∨
    (∃ (i : Nat) (f : FileInfo), l[i]? = some f ∧
      l.foldl (get1srcStep srcDir) (zeroTime, []) = (f.ModTime, srcDir ++ f.Name) ∧
      0 < f.Size ∧ 0 < f.ModTime ∧
      (∀ g ∈ l, 0 < g.Size → g.ModTime ≤ f.ModTime) ∧
      (∀ (j : Nat) (g : FileInfo), j < i → l[j]? = some g → 0 < g.Size →
        g.ModTime < f.ModTime)) := by
  induction l using List.reverseRecOn with
  | nil => left; simp
  | append_singleton l x ih =>
    rw [List.foldl_append]
    rcases ih with ⟨hst, hall⟩ | ⟨i, f, hi, hst, hsz, htm, hmax, hfirst⟩
    · rw [hst]
      by_cases hx : 0 < x.Size ∧ 0 < x.ModTime
      · right
        refine ⟨l.length, x, by simp, ?_, hx.1, hx.2, ?_, ?_⟩
        · simp [get1srcStep, After, zeroTime, hx.1, hx.2]
        · intro g hg hgs
          rcases List.mem_append.1 hg with hg | hg
          · exact le_trans (hall g hg hgs) (le_of_lt hx.2)
          · simp at hg; subst hg; exact le_refl _
        · intro j g hj hjg hgs
          rw [List.getElem?_append_left hj] at hjg
          exact lt_of_le_of_lt (hall g (List.getElem?_mem hjg) hgs) hx.2
      · left
        refine ⟨?_, ?_⟩
        · simp only [List.foldl_cons, List.foldl_nil, get1srcStep, After, zeroTime]
          have : ¬ (decide (x.Size > 0) && decide (0 < x.ModTime)) = true := by
            simpa using fun h => not_lt.1 (fun h2 => hx ⟨h, h2⟩)
          simp [this]
        · intro g hg hgs
          rcases List.mem_append.1 hg with hg | hg
          · exact hall g hg hgs
          · simp at hg; subst hg
            exact not_lt.1 (fun h2 => hx ⟨hgs, h2⟩)
    · rw [hst]
      have hil : i < l.length := by
        by_contra hc
        rw [List.getElem?_eq_none (not_lt.1 hc)] at hi
        cases hi
      by_cases hx : 0 < x.Size ∧ f.ModTime < x.ModTime
      · right
        refine ⟨l.length, x, by simp, ?_, hx.1, lt_trans htm hx.2, ?_, ?_⟩
        · simp [get1srcStep, After, hx.1, hx.2]
        · intro g hg hgs
          rcases List.mem_append.1 hg with hg | hg
          · exact le_trans (hmax g hg hgs) (le_of_lt hx.2)
          · simp at hg; subst hg; exact le_refl _
        · intro j g hj hjg hgs
          rw [List.getElem?_append_left hj] at hjg
          exact lt_of_le_of_lt (hmax g (List.getElem?_mem hjg) hgs) hx.2
      · right
        refine ⟨i, f, ?_, ?_, hsz, htm, ?_, ?_⟩
        · rw [List.getElem?_append_left hil]; exact hi
        · simp only [List.foldl_cons, List.foldl_nil, get1srcStep, After]
          have : ¬ (decide (x.Size > 0) && decide (f.ModTime < x.ModTime)) = true := by
            simpa using fun h => not_lt.1 (fun h2 => hx ⟨h, h2⟩)
          simp [this]
        · intro g hg hgs
          rcases List.mem_append.1 hg with hg | hg
          · exact hmax g hg hgs
          · simp at hg; subst hg
            exact not_lt.1 (fun h2 => hx ⟨hgs, h2⟩)
        · intro j g hj hjg hgs
          rw [List.getElem?_append_left (lt_trans hj hil)] at hjg
          exact hfirst j g hj hjg hgs

/-- The result of `get1src` when some candidate qualifies. -/
theorem get1src_of_qualified (srcDir : Str) (l : List FileInfo)
    (h : ∃ f ∈ l, 0 < f.Size ∧ After f.ModTime zeroTime = true) :
    ∃ (i : Nat) (f : FileInfo), l[i]? = some f ∧
      get1src srcDir l = srcDir ++ f.Name ∧ 0 < f.Size ∧ 0 < f.ModTime ∧
      (∀ g ∈ l, 0 < g.Size → g.ModTime ≤ f.ModTime) ∧
      (∀ (j : Nat) (g : FileInfo), j < i → l[j]? = some g → 0 < g.Size →
        g.ModTime < f.ModTime) := by
  obtain ⟨f0, hf0, hs0, ht0⟩ := h
  have ht0 : (0 : Int) < f0.ModTime := by simpa [After, zeroTime] using ht0
  rcases get1src_loop srcDir l with ⟨_, hall⟩ | ⟨i, f, hi, hst, hsz, htm, hmax, hfirst⟩
  · exact absurd (hall f0 hf0 hs0) (not_le.2 ht0)
  · exact ⟨i, f, hi, by simp [get1src, hst], hsz, htm, hmax, hfirst⟩

/-- The result of `get1src` when no candidate qualifies. -/
theorem get1src_of_none_qualified (srcDir : Str) (l : List FileInfo)
    (h : ∀ f ∈ l, ¬ (0 < f.Size ∧ After f.ModTime zeroTime = true)) :
    get1src srcDir l = [] := by
  rcases get1src_loop srcDir l with ⟨hst, _⟩ | ⟨i, f, hi, _, hsz, htm, _, _⟩
  · simp [get1src, hst]
  · exact absurd ⟨hsz, by simpa [After, zeroTime] using htm⟩ (h f (List.getElem?_mem hi))

/-! ## Lemmas on the loop of `getsrcs` -/

theorem matchLoop_foldl (P : Platform) (srcStr : Str) (files acc : List FileInfo) :
    files.foldl
      (fun (srcFiles : List FileInfo) (file1 : FileInfo) =>
        if matched P srcStr file1 then srcFiles ++ [file1] else srcFiles) acc
      = acc ++ files.filter (matched P srcStr) := by
  induction files generalizing acc with
  | nil => simp
  | cons x xs ih =>
    rw [List.foldl_cons, ih]
    by_cases hx : matched P srcStr x = true
    · simp [hx]
    · simp [hx]

theorem matchLoop_eq_filter (P : Platform) (srcStr : Str) (files : List FileInfo) :
    matchLoop P srcStr files = files.filter (matched P srcStr) := by
  simp [matchLoop, matchLoop_foldl]

/-! ## Lemmas on `dirCorrect` -/

theorem dirCorrect_spec (P : Platform) (dir sep : Str) (h : P.unquotedSeparator = some sep) :
    HasSuffix (dirCorrect P dir).1 sep = true ∧
    (HasSuffix dir sep = true → dirCorrect P dir = (dir, false)) ∧
    (HasSuffix dir sep = false → dirCorrect P dir = (dir ++ sep, true)) := by
  have happ : HasSuffix (dir ++ sep) sep = true := by
    simp [HasSuffix]
  by_cases hs : HasSuffix dir sep = true
  · simp [dirCorrect, h, hs]
  · have hs2 : HasSuffix dir sep = false := by simpa using hs
    simp [dirCorrect, h, hs2, happ]

/-! ## The events of a run -/

theorem get1src_form (srcDir : Str) (l : List FileInfo) :
    get1src srcDir l = [] ∨ ∃ f ∈ l, get1src srcDir l = srcDir ++ f.Name := by
  rcases get1src_loop srcDir l with ⟨hst, _⟩ | ⟨i, f, hi, hst, _⟩
  · left; simp [get1src, hst]
  · right; exact ⟨f, List.getElem?_mem hi, by simp [get1src, hst]⟩

/-- The events of a purge loop: lines, and with `dbg` off removals of the
    entries given. -/
theorem purgeSrc_events (P : Platform) (dbg : Bool) (dir : Str) (l : List FileInfo) (w : World) :
    ∃ new, (purgeSrc P dbg dir l w).trace = w.trace ++ new ∧
      ∀ e ∈ new, (∃ line, e = Event.Println line) ∨
        (dbg = false ∧ ∃ f ∈ l, ∃ ok, e = Event.Remove (dir ++ f.Name) ok) := by
  cases dbg with
  | true =>
    obtain ⟨_, _, new, h1, h2⟩ := purgeSrc_dbg P dir l w
    exact ⟨new, h1, fun e he => Or.inl (h2 e he)⟩
  | false =>
    obtain ⟨new, h1, h2, _⟩ := purgeSrc_trace P dir l w
    refine ⟨new, h1, ?_⟩
    intro e he
    obtain ⟨f, hf, h | ⟨ok, h⟩⟩ := h2 e he
    · exact Or.inl ⟨_, h⟩
    · exact Or.inr ⟨rfl, f, hf, ok, h⟩

theorem purgeDst_events (P : Platform) (dbg : Bool) (dstDir dstStr : Str) (dir : List FileInfo) (w : World) :
    ∃ new, (purgeDst P dbg dstDir dstStr dir w).trace = w.trace ++ new ∧
      ∀ e ∈ new, (∃ line, e = Event.Println line) ∨
        (dbg = false ∧ ∃ f ∈ dir, Contains f.Name dstStr = true ∧
          ∃ ok, e = Event.Remove (dstDir ++ f.Name) ok) := by
  rw [purgeDst_eq_purgeSrc]
  obtain ⟨new, h1, h2⟩ := purgeSrc_events P dbg dstDir (dir.filter (fun f => Contains f.Name dstStr)) w
  refine ⟨new, h1, ?_⟩
  intro e he
  rcases h2 e he with h | ⟨hd, f, hf, ok, h⟩
  · exact Or.inl h
  · rw [List.mem_filter] at hf
    exact Or.inr ⟨hd, f, hf.1, hf.2, ok, h⟩

/-- A call of `wait4dst` that returns has listed the directory. -/
theorem wait4dstLoop_lists (P : Platform) (d : Str) (ig : Bool) (console : List FS) :
    ∀ (fs : FS) (trace : List Event) (r : Option (List FileInfo) × Bool) (w1 : World),
      wait4dstLoop P d ig fs trace console = some (r, w1) →
      ∃ pre ok, w1.trace = trace ++ pre ++ [Event.ReadDir d ok] := by
  induction console with
  | nil =>
    intro fs trace r w1 h
    cases hr : ReadDir P fs d with
    | some dir =>
      rw [wait4dstLoop_ready P d ig fs trace [] dir hr] at h
      obtain ⟨_, h2⟩ := Prod.mk.inj (Option.some.inj h)
      subst h2
      exact ⟨[], true, by simp⟩
    | none =>
      cases ig with
      | true =>
        rw [wait4dstLoop_ignore P d fs trace [] hr] at h
        obtain ⟨_, h2⟩ := Prod.mk.inj (Option.some.inj h)
        subst h2
        exact ⟨[], false, by simp⟩
      | false =>
        rw [wait4dstLoop_stuck P d fs trace hr] at h
        cases h
  | cons fs1 rest ih =>
    intro fs trace r w1 h
    cases hr : ReadDir P fs d with
    | some dir =>
      rw [wait4dstLoop_ready P d ig fs trace _ dir hr] at h
      obtain ⟨_, h2⟩ := Prod.mk.inj (Option.some.inj h)
      subst h2
      exact ⟨[], true, by simp⟩
    | none =>
      cases ig with
      | true =>
        rw [wait4dstLoop_ignore P d fs trace _ hr] at h
        obtain ⟨_, h2⟩ := Prod.mk.inj (Option.some.inj h)
        subst h2
        exact ⟨[], false, by simp⟩
      | false =>
        rw [wait4dstLoop_retry P d fs fs1 trace rest hr] at h
        obtain ⟨pre, ok, hpre⟩ := ih fs1 _ r w1 h
        exact ⟨[Event.ReadDir d false, Event.Println (prompt d), Event.Scan] ++ pre, ok,
          by rw [hpre]; simp⟩

/-- Every event that a run with all flags given adds to the trace is one of
    `mainEvent`. -/
theorem main_events (P : Platform) (fl : Flags) (w out : World) (h : allGiven fl)
    (hrun : main P fl w = some out) :
    ∃ new, out.trace = w.trace ++ new ∧ ∀ e ∈ new, mainEvent P fl e := by
  suffices h0 : ∃ new, out.trace = (checked P w).trace ++ new ∧ ∀ e ∈ new, mainEvent P fl e by
    obtain ⟨new, h1, h2⟩ := h0
    refine ⟨(dirCorrectLog P ++ dirCorrectLog P) ++ new,
      by rw [h1, checked_trace, List.append_assoc], ?_⟩
    intro e he
    rcases List.mem_append.1 he with he | he
    · obtain ⟨line, hl⟩ := dirCorrectLog_lines P e he
      subst hl; simp [mainEvent]
    · exact h2 e he
  rcases main_cases P fl w h with ⟨_, hm⟩ | ⟨files, _, hrest⟩
  · rw [hm] at hrun
    have := Option.some.inj hrun
    subst this
    refine ⟨_, rfl, ?_⟩
    intro e he
    simp only [List.mem_cons, List.mem_singleton, List.not_mem_nil, or_false] at he
    rcases he with he | he <;> subst he <;> simp [mainEvent]
  · rcases hrest with ⟨_, hm⟩ | ⟨r, w2, hw, _, hm⟩ | ⟨dir, w2, hw, hrest⟩
    · rw [hm] at hrun; cases hrun
    · rw [hm] at hrun
      have := Option.some.inj hrun
      subst this
      obtain ⟨_, ⟨new, hn1, hn2⟩, _⟩ := wait4dstLoop_spec P _ _ _ _ _ _ _ hw
      refine ⟨Event.ReadDir (dirCorrect P fl.srcDir).1 true :: new, ?_, ?_⟩
      · rw [hn1]; simp [World.log]
      · intro e he
        rcases List.mem_cons.1 he with he | he
        · subst he; simp [mainEvent]
        · rcases hn2 e he with ⟨ok, he⟩ | ⟨hig, ⟨line, he⟩ | he⟩
          · subst he; simp [mainEvent]
          · subst he; simp [mainEvent]
          · subst he; simpa [mainEvent] using hig
    · obtain ⟨_, ⟨new, hn1, hn2⟩, _⟩ := wait4dstLoop_spec P _ _ _ _ _ _ _ hw
      have hwait : ∀ e ∈ Event.ReadDir (dirCorrect P fl.srcDir).1 true :: new,
          mainEvent P fl e := by
        intro e he
        rcases List.mem_cons.1 he with he | he
        · subst he; simp [mainEvent]
        · rcases hn2 e he with ⟨ok, he⟩ | ⟨hig, ⟨line, he⟩ | he⟩
          · subst he; simp [mainEvent]
          · subst he; simp [mainEvent]
          · subst he; simpa [mainEvent] using hig
      have hw2 : w2.trace = (checked P w).trace ++ Event.ReadDir (dirCorrect P fl.srcDir).1 true :: new := by
        rw [hn1]; simp [World.log]
      obtain ⟨newD, hd1, hd2⟩ :=
        purgeDst_events P fl.dbg (dirCorrect P fl.dstDir).1 fl.dstStr dir w2
      have hpurge : ∀ e ∈ newD, mainEvent P fl e := by
        intro e he
        rcases hd2 e he with ⟨line, he⟩ | ⟨hdbg, f, _, _, ok, he⟩ <;> subst he
        · simp [mainEvent]
        · exact ⟨hdbg, f.Name, Or.inr rfl⟩
      rcases hrest with ⟨_, hm⟩ | ⟨hq, hm⟩
      · rw [hm] at hrun
        have := Option.some.inj hrun
        subst this
        refine ⟨Event.ReadDir (dirCorrect P fl.srcDir).1 true :: new ++ newD ++
          [Event.Println "NO eligible source files!".toList], ?_, ?_⟩
        · simp only [World.log]; rw [hd1, hw2]; simp
        · intro e he
          rcases List.mem_append.1 he with he | he
          · rcases List.mem_append.1 he with he | he
            · exact hwait e he
            · exact hpurge e he
          · simp only [List.mem_singleton] at he
            subst he; simp [mainEvent]
      · rw [hm] at hrun
        have := Option.some.inj hrun
        subst this
        obtain ⟨newC, hc1, hc2⟩ := cp_trace P
          (get1src (dirCorrect P fl.srcDir).1 (matchLoop P fl.srcStr files))
          (nameDst (dirCorrect P fl.dstDir).1 fl.dstStr fl.dstAffix)
          (purgeDst P fl.dbg (dirCorrect P fl.dstDir).1 fl.dstStr dir w2)
        obtain ⟨newS, hs1, hs2⟩ := purgeSrc_events P fl.dbg (dirCorrect P fl.srcDir).1
          (matchLoop P fl.srcStr files)
          (cp P (get1src (dirCorrect P fl.srcDir).1 (matchLoop P fl.srcStr files))
            (nameDst (dirCorrect P fl.dstDir).1 fl.dstStr fl.dstAffix)
            (purgeDst P fl.dbg (dirCorrect P fl.dstDir).1 fl.dstStr dir w2))
        have hform : ∃ name, get1src (dirCorrect P fl.srcDir).1 (matchLoop P fl.srcStr files)
            = (dirCorrect P fl.srcDir).1 ++ name := by
          rcases get1src_form (dirCorrect P fl.srcDir).1 (matchLoop P fl.srcStr files) with
            h0 | ⟨f, _, hf⟩
          · exact absurd h0 hq
          · exact ⟨f.Name, hf⟩
        refine ⟨Event.ReadDir (dirCorrect P fl.srcDir).1 true :: new ++ newD ++ newC ++ newS,
          ?_, ?_⟩
        · rw [hs1, hc1, hd1, hw2]; simp
        · intro e he
          rcases List.mem_append.1 he with he | he
          · rcases List.mem_append.1 he with he | he
            · rcases List.mem_append.1 he with he | he
              · exact hwait e he
              · exact hpurge e he
            · rcases hc2 e he with ⟨ok, he⟩ | ⟨ok, he⟩ | ⟨ok, he⟩ | ⟨line, he⟩ <;> subst he
              · exact hform
              · rfl
              · exact ⟨rfl, hform⟩
              · simp [mainEvent]
          · rcases hs2 e he with ⟨line, he⟩ | ⟨hdbg, f, _, ok, he⟩ <;> subst he
            · simp [mainEvent]
            · exact ⟨hdbg, f.Name, Or.inl rfl⟩

/-- The run that reaches the copy step: the source is listed, the destination
    is ready and a candidate is chosen. -/
theorem main_reaches_cp (P : Platform) (fl : Flags) (w w2 : World)
    (files dir : List FileInfo) (h : allGiven fl)
    (hsrc : ReadDir P w.fs (dirCorrect P fl.srcDir).1 = some files)
    (hw : wait4dst P (dirCorrect P fl.dstDir).1 fl.ignore
      ((checked P w).log [Event.ReadDir (dirCorrect P fl.srcDir).1 true]) = some ((some dir, true), w2))
    (hq : get1src (dirCorrect P fl.srcDir).1 (matchLoop P fl.srcStr files) ≠ []) :
    main P fl w = some (purgeSrc P fl.dbg (dirCorrect P fl.srcDir).1
      (matchLoop P fl.srcStr files) (afterCp P fl (matchLoop P fl.srcStr files) dir w2)) := by
  rcases main_cases P fl w h with ⟨h0, _⟩ | ⟨files2, hf2, hrest⟩
  · rw [hsrc] at h0; cases h0
  · have hfe : files2 = files := by
      rw [hsrc] at hf2; exact (Option.some.inj hf2).symm
    subst hfe
    rcases hrest with ⟨hw2, _⟩ | ⟨r, w3, hw2, hr, _⟩ | ⟨dir2, w3, hw2, hrest⟩
    · rw [hw] at hw2; cases hw2
    · rw [hw] at hw2
      obtain ⟨h1, _⟩ := Prod.mk.inj (Option.some.inj hw2)
      exact absurd h1.symm (hr dir)
    · rw [hw] at hw2
      obtain ⟨h1, h2⟩ := Prod.mk.inj (Option.some.inj hw2)
      have hd : dir2 = dir := (Option.some.inj (Prod.mk.inj h1).1).symm
      subst hd; subst h2
      rcases hrest with ⟨h0, _⟩ | ⟨_, hm⟩
      · exact absurd h0 hq
      · exact hm

/-- The run in which the destination is ready and no candidate is chosen. -/
theorem main_without_candidate (P : Platform) (fl : Flags) (w w2 : World)
    (files dir : List FileInfo) (h : allGiven fl)
    (hsrc : ReadDir P w.fs (dirCorrect P fl.srcDir).1 = some files)
    (hw : wait4dst P (dirCorrect P fl.dstDir).1 fl.ignore
      ((checked P w).log [Event.ReadDir (dirCorrect P fl.srcDir).1 true])
        = some ((some dir, true), w2))
    (hq : get1src (dirCorrect P fl.srcDir).1 (matchLoop P fl.srcStr files) = []) :
    main P fl w = some ((purgeDst P fl.dbg (dirCorrect P fl.dstDir).1 fl.dstStr dir w2).log
      [Event.Println "NO eligible source files!".toList]) := by
  rcases main_cases P fl w h with ⟨h0, _⟩ | ⟨files2, hf2, hrest⟩
  · rw [hsrc] at h0; cases h0
  · have hfe : files2 = files := by
      rw [hsrc] at hf2; exact (Option.some.inj hf2).symm
    subst hfe
    rcases hrest with ⟨hw2, _⟩ | ⟨r, w3, hw2, hr, _⟩ | ⟨dir2, w3, hw2, hrest⟩
    · rw [hw] at hw2; cases hw2
    · rw [hw] at hw2
      obtain ⟨h1, _⟩ := Prod.mk.inj (Option.some.inj hw2)
      exact absurd h1.symm (hr dir)
    · rw [hw] at hw2
      obtain ⟨h1, h2⟩ := Prod.mk.inj (Option.some.inj hw2)
      have hd : dir2 = dir := (Option.some.inj (Prod.mk.inj h1).1).symm
      subst hd; subst h2
      rcases hrest with ⟨_, hm⟩ | ⟨h0, _⟩
      · exact hm
      · exact absurd hq h0

/-- A call of `wait4dst` that reads no line leaves the filesystem as it found
    it. -/
theorem wait4dstLoop_env (P : Platform) (d : Str) (ig : Bool) (console : List FS) :
    ∀ (fs : FS) (trace : List Event) (r : Option (List FileInfo) × Bool) (w1 : World),
      wait4dstLoop P d ig fs trace console = some (r, w1) →
      ∃ new, w1.trace = trace ++ new ∧ (Event.Scan ∉ new → w1.fs = fs) := by
  induction console with
  | nil =>
    intro fs trace r w1 h
    obtain ⟨hin, ⟨new, hn, _⟩, _⟩ := wait4dstLoop_spec P d ig [] fs trace r w1 h
    exact ⟨new, hn, fun _ => by simpa using hin⟩
  | cons fs1 rest ih =>
    intro fs trace r w1 h
    cases hr : ReadDir P fs d with
    | some dir =>
      rw [wait4dstLoop_ready P d ig fs trace _ dir hr] at h
      obtain ⟨_, h2⟩ := Prod.mk.inj (Option.some.inj h)
      subst h2
      exact ⟨_, rfl, fun _ => rfl⟩
    | none =>
      cases ig with
      | true =>
        rw [wait4dstLoop_ignore P d fs trace _ hr] at h
        obtain ⟨_, h2⟩ := Prod.mk.inj (Option.some.inj h)
        subst h2
        exact ⟨_, rfl, fun _ => rfl⟩
      | false =>
        rw [wait4dstLoop_retry P d fs fs1 trace rest hr] at h
        obtain ⟨new, hn, _⟩ := ih fs1 _ r w1 h
        refine ⟨[Event.ReadDir d false, Event.Println (prompt d), Event.Scan] ++ new,
          by rw [hn]; simp, ?_⟩
        intro hno
        exact absurd (by simp) hno

/-- When the events of `wait4dst` hold no line read from the console, none of
    the events of the run does, and the filesystem that `wait4dst` left is the
    initial one. -/
theorem env_of_noscan (P : Platform) (w out : World) (pre newW post : List Event) (fs2 : FS)
    (htr : out.trace = (checked P w).trace ++ pre ++ newW ++ post)
    (henv : Event.Scan ∉ newW → fs2 = w.fs) :
    ∀ new, out.trace = w.trace ++ new → Event.Scan ∉ new → fs2 = w.fs := by
  intro new hnew hscan
  apply henv
  intro hmem
  apply hscan
  have hn : new = (dirCorrectLog P ++ dirCorrectLog P) ++ pre ++ newW ++ post := by
    have h2 : w.trace ++ new
        = w.trace ++ ((dirCorrectLog P ++ dirCorrectLog P) ++ pre ++ newW ++ post) := by
      rw [← hnew, htr, checked_trace]
      simp
    exact List.append_cancel_left h2
  rw [hn]
  simp [hmem]

/-! ## Lemmas on what a run leaves in place -/

/-- An object that exists in a tree is listed under its name in any tree with
    the same working directory, directories and refusals that still holds an
    object at its place. -/
theorem names_preserved (P : Platform) (fs fs1 : FS) (hcwd : fs1.cwd = fs.cwd)
    (hden : fs1.denied = fs.denied) (hdir : ∀ q, fs1.isDir q = fs.isDir q)
    (hkeep : ∀ q, (fs.node q).isSome = true → (fs1.node q).isSome = true)
    (d : Str) (l : List FileInfo) (h : ReadDir P fs d = some l) :
    ∃ l1, ReadDir P fs1 d = some l1 ∧ ∀ f ∈ l, ∃ f1 ∈ l1, f1.Name = f.Name := by
  obtain ⟨p, hr, hd, hn, _, hmem⟩ := ReadDir_some P fs d l h
  have hr1 : resolve P.PathSeparator fs1 d = some p :=
    resolve_mono _ fs fs1 ⟨hcwd.symm, fun q hq => by rw [hdir]; exact hq⟩ d p hr
  have h1 := ReadDir_isSome P fs1 d p hr1 (by rw [hdir]; exact hd) (by rw [hden]; exact hn)
  refine ⟨_, h1, ?_⟩
  intro f hf
  obtain ⟨n, nd, hv, hnd, hfe⟩ := (mem_entries _ _ _ _).1 ((hmem f).1 hf)
  obtain ⟨nd1, hnd1⟩ := Option.isSome_iff_exists.1 (hkeep (p ++ [n]) (by rw [hnd]; rfl))
  refine ⟨toInfo n nd1, ?_, ?_⟩
  · apply (List.perm_insertionSort _ _).mem_iff.2
    exact (mem_entries _ _ _ _).2 ⟨n, nd1, hv, hnd1, rfl⟩
  · rw [hfe, toInfo_Name, toInfo_Name]

/-- What `cp` has done when its trace holds a copy that succeeded: the source
    string names a regular file, the destination string names a place that
    held no directory and whose last component is a name; that place holds the
    bytes of the source, stamped with the current time, and every other
    object is as it was, the modification time of the directory of the
    destination aside. -/
theorem cp_copied (P : Platform) (src dst : Str) (w : World) (new : List Event)
    (hnew : (cp P src dst w).trace = w.trace ++ new)
    (hcopy : ∃ a b, Event.Copy a b true ∈ new) :
    ∃ ps pd f, resolve P.PathSeparator w.fs src = some ps ∧
      resolve P.PathSeparator w.fs dst = some pd ∧
      lastComponent P.PathSeparator dst ≠ [] ∧ lastComponent P.PathSeparator dst ≠ dot ∧
      lastComponent P.PathSeparator dst ≠ dotdot ∧
      w.fs.isDir pd = false ∧ pd ≠ [] ∧
      (ps ≠ pd → w.fs.node ps = some (Node.file f)) ∧
      (cp P src dst w).fs.cwd = w.fs.cwd ∧ (cp P src dst w).fs.denied = w.fs.denied ∧
      (cp P src dst w).console = w.console ∧
      (∀ q, (cp P src dst w).fs.obj q
        = if q = pd then some (Node.file ⟨f.bytes, P.now⟩) else w.fs.obj q) ∧
      (∀ q, q ≠ pd → q ≠ pd.dropLast → (cp P src dst w).fs.node q = w.fs.node q) := by
  obtain ⟨a, b, hab⟩ := hcopy
  rcases cp_cases P src dst w with ⟨_, h⟩ | ⟨ps, _, _, h⟩ | ⟨ps, fs1, pd, ho, hc, h⟩
  · exfalso
    rw [h] at hnew
    have h2 : w.trace ++ [Event.Open src false,
        Event.Println ("FAILED to open source file!".toList ++ P.errorText src)]
        = w.trace ++ new := hnew
    rw [← List.append_cancel_left h2] at hab
    simp at hab
  · exfalso
    rw [h] at hnew
    have h2 : w.trace ++ [Event.Open src true, Event.Create dst false,
        Event.Println ("FAILED to create target file!".toList ++ P.errorText dst)]
        = w.trace ++ new := hnew
    rw [← List.append_cancel_left h2] at hab
    simp at hab
  · rw [h] at hnew ⊢
    have h2 : w.trace ++ [Event.Open src true, Event.Create dst true,
        Event.Copy dst src (Copy P fs1 pd ps).2] = w.trace ++ new := hnew
    rw [← List.append_cancel_left h2] at hab
    have hok : (Copy P fs1 pd ps).2 = true := by
      simp at hab
      exact hab.2.2
    obtain ⟨c1, c2, c3, c4, c5, c6, _, c8, c9, c10, c11⟩ := Create_some P w.fs fs1 dst pd hc
    rcases Copy_cases P fs1 pd ps with ⟨_, f, hf, he⟩ | ⟨hfalse, _⟩
    · refine ⟨ps, pd, f, Open_some P w.fs src ps ho, c1, c2, c3, c4, c5, c6, ?_, ?_, ?_, rfl,
        ?_, ?_⟩
      · intro hne
        have := (node_file_iff fs1 ps f).1 hf
        rw [c10, if_neg hne] at this
        exact (node_file_iff w.fs ps f).2 this
      · simp only []; rw [he]; exact c8
      · simp only []; rw [he]; exact c9
      · intro q
        simp only []
        rw [he, obj_setNode _ _ _ _ c6, c10]
        by_cases hq : q = pd <;> simp [hq, Node.untimed]
      · intro q h1 h2
        simp only []
        rw [he, node_setNode _ _ _ _ c6, if_neg h1, c11 q h1 h2]
    · rw [hok] at hfalse; cases hfalse

/-! ## The claims on the pure functions -/

/-- C2: when some candidate has size > 0 and a modification time strictly
    after the zero time, `get1src` returns `srcDir` followed by the name of the
    candidate at the smallest index whose size is > 0 and whose modification
    time is the maximum over the candidates of size > 0: the candidate returned
    has size > 0, no candidate of size > 0 is more recent, and every candidate
    of size > 0 before it is strictly older. -/
theorem get1src_returns_first_freshest (srcDir : Str) (srcFiles : List FileInfo)
    (h : ∃ f ∈ srcFiles, 0 < f.Size ∧ After f.ModTime zeroTime = true) :
    ∃ (i : Nat) (f : FileInfo), srcFiles[i]? = some f ∧
      get1src srcDir srcFiles = srcDir ++ f.Name ∧ 0 < f.Size ∧
      (∀ g ∈ srcFiles, 0 < g.Size → g.ModTime ≤ f.ModTime) ∧
      (∀ (j : Nat) (g : FileInfo), j < i → srcFiles[j]? = some g → 0 < g.Size →
        g.ModTime < f.ModTime) := by
  obtain ⟨i, f, hi, hres, hsz, _, hmax, hfirst⟩ := get1src_of_qualified srcDir srcFiles h
  exact ⟨i, f, hi, hres, hsz, hmax, hfirst⟩

/-- C2 at a concrete list: an empty file with the latest time, then two
    non-empty files of equal time. -/
theorem get1src_returns_first_freshest_witness :
    (∃ f ∈ [(⟨"z".toList, 0, 99⟩ : FileInfo), ⟨"a".toList, 10, 5⟩, ⟨"b".toList, 20, 5⟩],
      0 < f.Size ∧ After f.ModTime zeroTime = true) ∧
    ∃ (i : Nat) (f : FileInfo),
      [(⟨"z".toList, 0, 99⟩ : FileInfo), ⟨"a".toList, 10, 5⟩, ⟨"b".toList, 20, 5⟩][i]? = some f ∧
      get1src "s/".toList
        [(⟨"z".toList, 0, 99⟩ : FileInfo), ⟨"a".toList, 10, 5⟩, ⟨"b".toList, 20, 5⟩]
        = "s/".toList ++ f.Name ∧ 0 < f.Size ∧
      (∀ g ∈ [(⟨"z".toList, 0, 99⟩ : FileInfo), ⟨"a".toList, 10, 5⟩, ⟨"b".toList, 20, 5⟩],
        0 < g.Size → g.ModTime ≤ f.ModTime) ∧
      (∀ (j : Nat) (g : FileInfo), j < i →
        [(⟨"z".toList, 0, 99⟩ : FileInfo), ⟨"a".toList, 10, 5⟩, ⟨"b".toList, 20, 5⟩][j]? = some g →
        0 < g.Size → g.ModTime < f.ModTime) :=
  ⟨⟨⟨"a".toList, 10, 5⟩, by decide, by decide, by decide⟩,
   get1src_returns_first_freshest _ _ ⟨⟨"a".toList, 10, 5⟩, by decide, by decide, by decide⟩⟩

/-- C9, as stated, fails: a candidate of size 5 whose modification time is the
    zero time is not chosen, `get1src` returns the empty string although the
    list is not empty and not every candidate has size 0. -/
theorem get1src_empty_despite_nonempty_candidate :
    get1src "s/".toList [(⟨"a".toList, 5, 0⟩ : FileInfo)] = [] ∧
    ¬ ([(⟨"a".toList, 5, 0⟩ : FileInfo)] = [] ∨
        ∀ f ∈ [(⟨"a".toList, 5, 0⟩ : FileInfo)], f.Size = 0) ∧
    ∃ f ∈ [(⟨"a".toList, 5, 0⟩ : FileInfo)], 0 < f.Size :=
  ⟨by decide, by decide, ⟨"a".toList, 5, 0⟩, by decide, by decide⟩

/-- C9, amended: for a path that cannot be empty (`srcDir` is not empty, or no
    candidate has an empty name), `get1src` returns the empty string if and only
    if no candidate has size > 0 together with a modification time strictly
    after the zero time; and whenever some candidate has both, the result is
    not empty and is `srcDir` followed by the name of a candidate. -/
theorem get1src_empty_iff_none_qualified (srcDir : Str) (srcFiles : List FileInfo)
    (hne : srcDir ≠ [] ∨ ∀ f ∈ srcFiles, f.Name ≠ []) :
    (get1src srcDir srcFiles = [] ↔
      ∀ f ∈ srcFiles, ¬ (0 < f.Size ∧ After f.ModTime zeroTime = true)) ∧
    ((∃ f ∈ srcFiles, 0 < f.Size ∧ After f.ModTime zeroTime = true) →
      get1src srcDir srcFiles ≠ [] ∧
      ∃ f ∈ srcFiles, get1src srcDir srcFiles = srcDir ++ f.Name) := by
  have key : (∃ f ∈ srcFiles, 0 < f.Size ∧ After f.ModTime zeroTime = true) →
      get1src srcDir srcFiles ≠ [] ∧
      ∃ f ∈ srcFiles, get1src srcDir srcFiles = srcDir ++ f.Name := by
    intro h
    obtain ⟨i, f, hi, hres, _⟩ := get1src_of_qualified srcDir srcFiles h
    have hf : f ∈ srcFiles := List.getElem?_mem hi
    refine ⟨?_, f, hf, hres⟩
    rw [hres]
    intro hnil
    rcases List.append_eq_nil.1 hnil with ⟨h1, h2⟩
    rcases hne with hne | hne
    · exact hne h1
    · exact hne f hf h2
  refine ⟨⟨?_, get1src_of_none_qualified srcDir srcFiles⟩, key⟩
  intro hnil f hf hq
  exact (key ⟨f, hf, hq⟩).1 hnil

/-- C9 amended, at a concrete list. -/
theorem get1src_empty_iff_none_qualified_witness :
    ("s/".toList ≠ [] ∨ ∀ f ∈ [(⟨"a".toList, 5, 0⟩ : FileInfo), ⟨"b".toList, 3, 7⟩], f.Name ≠ []) ∧
    ((get1src "s/".toList [(⟨"a".toList, 5, 0⟩ : FileInfo), ⟨"b".toList, 3, 7⟩] = [] ↔
      ∀ f ∈ [(⟨"a".toList, 5, 0⟩ : FileInfo), ⟨"b".toList, 3, 7⟩],
        ¬ (0 < f.Size ∧ After f.ModTime zeroTime = true)) ∧
    ((∃ f ∈ [(⟨"a".toList, 5, 0⟩ : FileInfo), ⟨"b".toList, 3, 7⟩],
        0 < f.Size ∧ After f.ModTime zeroTime = true) →
      get1src "s/".toList [(⟨"a".toList, 5, 0⟩ : FileInfo), ⟨"b".toList, 3, 7⟩] ≠ [] ∧
      ∃ f ∈ [(⟨"a".toList, 5, 0⟩ : FileInfo), ⟨"b".toList, 3, 7⟩],
        get1src "s/".toList [(⟨"a".toList, 5, 0⟩ : FileInfo), ⟨"b".toList, 3, 7⟩]
          = "s/".toList ++ f.Name)) :=
  ⟨Or.inl (by decide), get1src_empty_iff_none_qualified _ _ (Or.inl (by decide))⟩

/-- C3: when the listing of `srcDir` succeeds, `getsrcs` returns exactly the
    entries of the listing for whose name `regexp.MatchString` reports a match
    and no error, each as often as it occurs and in the order of the listing:
    for a pattern that compiles these are the entries whose name matches, for
    a pattern that does not compile there is none.  When the listing fails
    `getsrcs` returns nil, which is not the empty slice. -/
theorem getsrcs_returns_matching_sublist (P : Platform) (srcDir srcStr : Str) (w : World) :
    (∀ files, ReadDir P w.fs srcDir = some files →
      ∃ srcFiles, (getsrcs P srcDir srcStr w).1 = some srcFiles ∧
        srcFiles = files.filter (fun f =>
          (P.MatchString srcStr f.Name).1 && (P.MatchString srcStr f.Name).2) ∧
        (∀ f, f ∈ srcFiles ↔ f ∈ files ∧
          (P.MatchString srcStr f.Name).1 = true ∧ (P.MatchString srcStr f.Name).2 = true) ∧
        (∀ f, (P.MatchString srcStr f.Name).1 = true → (P.MatchString srcStr f.Name).2 = true →
          srcFiles.count f = files.count f) ∧
        srcFiles.Sublist files ∧
        ((∀ name, (P.MatchString srcStr name).2 = true) →
          ∀ f, f ∈ srcFiles ↔ f ∈ files ∧ (P.MatchString srcStr f.Name).1 = true) ∧
        ((∀ name, (P.MatchString srcStr name).2 = false) → srcFiles = [])) ∧
    (ReadDir P w.fs srcDir = none → (getsrcs P srcDir srcStr w).1 = none) ∧
    (none : Option (List FileInfo)) ≠ some [] := by
  have hm : matched P srcStr = fun f =>
      (P.MatchString srcStr f.Name).1 && (P.MatchString srcStr f.Name).2 := rfl
  refine ⟨?_, ?_, by simp⟩
  · intro files hfiles
    refine ⟨files.filter (matched P srcStr), ?_, by rw [hm], ?_, ?_, List.filter_sublist files,
      ?_, ?_⟩
    · simp [getsrcs, hfiles, matchLoop_eq_filter]
    · intro f; simp [List.mem_filter, matched]
    · intro f h1 h2
      exact List.count_filter (by simp [matched, h1, h2])
    · intro hok f
      simp [List.mem_filter, matched, hok f.Name]
    · intro herr
      apply List.filter_eq_nil_iff.2
      intro f _
      simp [matched, herr f.Name]
  · intro hnone
    simp [getsrcs, hnone]

/-- C3 on a source directory that lists `a.txt`, `b.txt` and `notes.md`, with
    the pattern `.*\.txt`: `getsrcs` returns `a.txt` and `b.txt`; on a tree in
    which nothing matches it returns the empty slice; and on a tree without
    source directory it returns nil. -/
theorem getsrcs_returns_matching_sublist_witness :
    ReadDir slashPlatform (start mixedTree).fs "src/".toList
      = some [⟨"a.txt".toList, 10, 5⟩, ⟨"b.txt".toList, 20, 9⟩, ⟨"notes.md".toList, 3, 7⟩] ∧
    (getsrcs slashPlatform "src/".toList ".*\\.txt".toList (start mixedTree)).1
      = some [⟨"a.txt".toList, 10, 5⟩, ⟨"b.txt".toList, 20, 9⟩] ∧
    ReadDir slashPlatform (start staleTree).fs "src/".toList
      = some [⟨"notes.md".toList, 3, 5⟩] ∧
    (getsrcs slashPlatform "src/".toList ".*\\.txt".toList (start staleTree)).1 = some [] ∧
    ReadDir slashPlatform (start noSrcTree).fs "src/".toList = none ∧
    (getsrcs slashPlatform "src/".toList ".*\\.txt".toList (start noSrcTree)).1 = none :=
  ⟨by decide,
   (match (getsrcs_returns_matching_sublist slashPlatform "src/".toList ".*\\.txt".toList
      (start mixedTree)).1
      [⟨"a.txt".toList, 10, 5⟩, ⟨"b.txt".toList, 20, 9⟩, ⟨"notes.md".toList, 3, 7⟩]
      (by decide) with
    | ⟨_, h1, h2, _⟩ => h1.trans (congrArg some (h2.trans (by decide)))),
   by decide,
   (match (getsrcs_returns_matching_sublist slashPlatform "src/".toList ".*\\.txt".toList
      (start staleTree)).1 [⟨"notes.md".toList, 3, 5⟩] (by decide) with
    | ⟨_, h1, h2, _⟩ => h1.trans (congrArg some (h2.trans (by decide)))),
   by decide,
   (getsrcs_returns_matching_sublist slashPlatform "src/".toList ".*\\.txt".toList
      (start noSrcTree)).2.1 (by decide)⟩

/-! ## The claims on `main` and `wait4dst` -/

/-- C7: when one of the five string flags is empty, `main` prints the
    configuration error and exits with code -1 without any other event: no
    directory is listed, nothing is copied or removed, the filesystem is
    unchanged.  When all five are given, a run never takes the exit path. -/
theorem main_exits_when_flag_missing (P : Platform) (fl : Flags) (w : World) :
    ((fl.srcDir = [] ∨ fl.dstDir = [] ∨ fl.srcStr = [] ∨ fl.dstStr = [] ∨ fl.dstAffix = []) →
      ∃ out, main P fl w = some out ∧ out.fs = w.fs ∧
        out.trace = w.trace ++ [Event.Println usage, Event.Exit (-1)] ∧ exitCode out = -1) ∧
    (allGiven fl → ∀ out, main P fl w = some out →
      ∃ new, out.trace = w.trace ++ new ∧ ∀ code, Event.Exit code ∉ new) := by
  constructor
  · intro h
    have hn : ¬ allGiven fl := by
      rintro ⟨h1, h2, h3, h4, h5⟩
      rcases h with h | h | h | h | h
      · exact h1 h
      · exact h2 h
      · exact h3 h
      · exact h4 h
      · exact h5 h
    refine ⟨_, main_not_allGiven P fl w hn, rfl, rfl, ?_⟩
    simp [exitCode, World.log]
  · intro h out hrun
    obtain ⟨new, h1, h2⟩ := main_events P fl w out h hrun
    refine ⟨new, h1, ?_⟩
    intro code hc
    exact h2 _ hc

/-- C7 on the scenario with `-dstAffix` left out, and on the scenario itself. -/
theorem main_exits_when_flag_missing_witness :
    (({ sampleFlags with dstAffix := [] } : Flags).dstAffix = [] ∧
      ∃ out, main slashPlatform { sampleFlags with dstAffix := [] } (start sampleTree) = some out ∧
        out.fs = (start sampleTree).fs ∧
        out.trace = (start sampleTree).trace ++ [Event.Println usage, Event.Exit (-1)] ∧
        exitCode out = -1) ∧
    (allGiven sampleFlags ∧ ∀ out, main slashPlatform sampleFlags (start sampleTree) = some out →
      ∃ new, out.trace = (start sampleTree).trace ++ new ∧ ∀ code, Event.Exit code ∉ new) :=
  ⟨⟨rfl, (main_exits_when_flag_missing slashPlatform { sampleFlags with dstAffix := [] }
      (start sampleTree)).1 (Or.inr (Or.inr (Or.inr (Or.inr rfl))))⟩,
   ⟨by decide, (main_exits_when_flag_missing slashPlatform sampleFlags (start sampleTree)).2
      (by decide)⟩⟩

/-- C8: when the listing of the destination fails and `ignore` is set,
    `wait4dst` returns `(nil, false)` after that single listing, without prompt
    and without reading the console; a run of `main` with `-ignore` then ends
    with the filesystem unchanged, having done nothing but print and list.  When
    the first listing succeeds, `wait4dst` returns it with `ok = true` whatever
    `ignore` is. -/
theorem wait4dst_ignore_returns_at_once (P : Platform) (dstDir : Str) (w : World) :
    (ReadDir P w.fs dstDir = none →
      wait4dst P dstDir true w = some ((none, false), w.log [Event.ReadDir dstDir false])) ∧
    (∀ fl, allGiven fl → fl.ignore = true → (dirCorrect P fl.dstDir).1 = dstDir →
      ReadDir P w.fs dstDir = none →
      ∃ out, main P fl w = some out ∧ out.fs = w.fs ∧
        ∃ new, out.trace = w.trace ++ new ∧
          ∀ e ∈ new, (∃ line, e = Event.Println line) ∨ (∃ d ok, e = Event.ReadDir d ok)) ∧
    (∀ dir ignore, ReadDir P w.fs dstDir = some dir →
      wait4dst P dstDir ignore w = some ((some dir, true), w.log [Event.ReadDir dstDir true])) := by
  refine ⟨?_, ?_, ?_⟩
  · intro h
    exact wait4dstLoop_ignore P dstDir w.fs w.trace w.console h
  · intro fl hall hig hd hnone
    subst hd
    rcases main_cases P fl w hall with ⟨_, hm⟩ | ⟨files, _, hrest⟩
    · exact ⟨_, hm, rfl, via_checked P w _ _ (fun line => Or.inl ⟨line, rfl⟩)
        ⟨_, rfl, by simp⟩⟩
    · have hw : wait4dst P (dirCorrect P fl.dstDir).1 fl.ignore
          ((checked P w).log [Event.ReadDir (dirCorrect P fl.srcDir).1 true])
          = some ((none, false), ((checked P w).log [Event.ReadDir (dirCorrect P fl.srcDir).1 true]).log
              [Event.ReadDir (dirCorrect P fl.dstDir).1 false]) := by
        rw [hig]
        exact wait4dstLoop_ignore P _ _ _ _ hnone
      rcases hrest with ⟨hw2, _⟩ | ⟨r, w2, hw2, _, hm⟩ | ⟨dir, w2, hw2, _⟩
      · rw [hw] at hw2; cases hw2
      · rw [hw] at hw2
        obtain ⟨_, h2⟩ := Prod.mk.inj (Option.some.inj hw2)
        subst h2
        exact ⟨_, hm, rfl, via_checked P w _ _ (fun line => Or.inl ⟨line, rfl⟩)
          ⟨[Event.ReadDir (dirCorrect P fl.srcDir).1 true,
            Event.ReadDir (dirCorrect P fl.dstDir).1 false], by simp [World.log], by simp⟩⟩
      · rw [hw] at hw2
        obtain ⟨h1, _⟩ := Prod.mk.inj (Option.some.inj hw2)
        cases h1
  · intro dir ignore h
    exact wait4dstLoop_ready P dstDir ignore w.fs w.trace w.console dir h

/-- C8 on a tree without destination directory, with `-ignore`. -/
theorem wait4dst_ignore_returns_at_once_witness :
    ReadDir slashPlatform (start noDstTree).fs "dst/".toList = none ∧
    wait4dst slashPlatform "dst/".toList true (start noDstTree)
      = some ((none, false), (start noDstTree).log [Event.ReadDir "dst/".toList false]) ∧
    ∃ out, main slashPlatform { sampleFlags with ignore := true } (start noDstTree) = some out ∧
      out.fs = (start noDstTree).fs ∧
      ∃ new, out.trace = (start noDstTree).trace ++ new ∧
        ∀ e ∈ new, (∃ line, e = Event.Println line) ∨ (∃ d ok, e = Event.ReadDir d ok) :=
  ⟨by decide,
   (wait4dst_ignore_returns_at_once slashPlatform "dst/".toList (start noDstTree)).1 (by decide),
   (wait4dst_ignore_returns_at_once slashPlatform "dst/".toList (start noDstTree)).2.1
     { sampleFlags with ignore := true } (by decide) rfl (by decide) (by decide)⟩

/-- C5, as stated, fails: the source directory lists, no name matches, and the
    run goes on to the destination, whose old output `dst/out.dat` it
    removes. -/
theorem main_purges_destination_without_match :
    allGiven sampleFlags ∧
    ReadDir slashPlatform staleTree "src/".toList = some [⟨"notes.md".toList, 3, 5⟩] ∧
    matched slashPlatform sampleFlags.srcStr ⟨"notes.md".toList, 3, 5⟩ = false ∧
    ReadDir slashPlatform staleTree "dst/".toList = some [⟨"out.dat".toList, 2, 3⟩] ∧
    main slashPlatform sampleFlags (start staleTree)
      = some
        { fs :=
            { nodes := [(srcPlace, Node.dir 4096 1),
                (dstPlace, Node.dir 4096 100),
                (srcPlace ++ ["notes.md".toList], Node.file ⟨[1, 2, 3], 5⟩)]
              cwd := []
              denied := [] }
          console := []
          trace := [Event.ReadDir "src/".toList true, Event.ReadDir "dst/".toList true,
            Event.Println (toDelete "dst/".toList "out.dat".toList),
            Event.Remove "dst/out.dat".toList true,
            Event.Println "NO eligible source files!".toList] } := by
  decide

/-- C5, amended: with all flags given, the run stops after `getsrcs` when the
    source directory cannot be listed: the destination is never listed or
    waited for and nothing is removed.  When the source directory lists but no
    name matches, `getsrcs` returns the empty slice, not nil, and the run does
    not stop there: it lists the destination (waiting for it if need be) and,
    with `dbg` off, removes the destination entries whose name contains
    `dstStr`, whether the destination listed at once or after a wait; it
    opens, creates and copies nothing and removes nothing else. -/
theorem main_stops_when_source_unlistable (P : Platform) (fl : Flags) (w : World)
    (h : allGiven fl) :
    (ReadDir P w.fs (dirCorrect P fl.srcDir).1 = none →
      ∃ out, main P fl w = some out ∧ out.fs = w.fs ∧
        out.trace = w.trace ++ (dirCorrectLog P ++ dirCorrectLog P) ++
          [Event.ReadDir (dirCorrect P fl.srcDir).1 false,
            Event.Println ("NO source files found!".toList ++
              P.errorText (dirCorrect P fl.srcDir).1)]) ∧
    (∀ files, ReadDir P w.fs (dirCorrect P fl.srcDir).1 = some files →
      (∀ f ∈ files, matched P fl.srcStr f = false) →
      (getsrcs P (dirCorrect P fl.srcDir).1 fl.srcStr w).1 = some [] ∧
      (∀ out, main P fl w = some out →
        ∃ new, out.trace = w.trace ++ new ∧
          (∃ ok, Event.ReadDir (dirCorrect P fl.dstDir).1 ok ∈ new) ∧
          ∀ e ∈ new, (∃ line, e = Event.Println line) ∨ (∃ d ok, e = Event.ReadDir d ok) ∨
            e = Event.Scan ∨
            (fl.dbg = false ∧ ∃ name ok, Contains name fl.dstStr = true ∧
              e = Event.Remove ((dirCorrect P fl.dstDir).1 ++ name) ok)) ∧
      (∀ dir, ReadDir P w.fs (dirCorrect P fl.dstDir).1 = some dir →
        ∃ out, main P fl w = some out ∧
          (fl.dbg = false → ∀ f ∈ dir, Contains f.Name fl.dstStr = true →
            ∃ ok, Event.Remove ((dirCorrect P fl.dstDir).1 ++ f.Name) ok ∈ out.trace)) ∧
      (∀ dir w2, wait4dst P (dirCorrect P fl.dstDir).1 fl.ignore
          ((checked P w).log [Event.ReadDir (dirCorrect P fl.srcDir).1 true])
          = some ((some dir, true), w2) →
        ∃ out, main P fl w = some out ∧
          (fl.dbg = false → ∀ f ∈ dir, Contains f.Name fl.dstStr = true →
            ∃ ok, Event.Remove ((dirCorrect P fl.dstDir).1 ++ f.Name) ok ∈ out.trace))) := by
  constructor
  · intro hnone
    rcases main_cases P fl w h with ⟨_, hm⟩ | ⟨files, hf, _⟩
    · exact ⟨_, hm, rfl, rfl⟩
    · rw [hnone] at hf; cases hf
  · intro files hfiles hno
    have hloop : matchLoop P fl.srcStr files = [] := by
      rw [matchLoop_eq_filter]
      apply List.filter_eq_nil_iff.2
      intro f hf
      simp [hno f hf]
    have hget : get1src (dirCorrect P fl.srcDir).1 (matchLoop P fl.srcStr files) = [] := by
      rw [hloop]; rfl
    have hrem : ∀ dir w2, wait4dst P (dirCorrect P fl.dstDir).1 fl.ignore
        ((checked P w).log [Event.ReadDir (dirCorrect P fl.srcDir).1 true])
        = some ((some dir, true), w2) →
        ∃ out, main P fl w = some out ∧
          (fl.dbg = false → ∀ f ∈ dir, Contains f.Name fl.dstStr = true →
            ∃ ok, Event.Remove ((dirCorrect P fl.dstDir).1 ++ f.Name) ok ∈ out.trace) := by
      intro dir w2 hw
      rcases main_cases P fl w h with ⟨h0, _⟩ | ⟨files2, hf2, hrest⟩
      · rw [hfiles] at h0; cases h0
      · have hfe : files2 = files := by
          rw [hfiles] at hf2; exact (Option.some.inj hf2).symm
        subst hfe
        rcases hrest with ⟨hw2, _⟩ | ⟨r, w3, hw2, hr, _⟩ | ⟨dir2, w3, hw2, hrest⟩
        · rw [hw] at hw2; cases hw2
        · rw [hw] at hw2
          obtain ⟨h1, _⟩ := Prod.mk.inj (Option.some.inj hw2)
          exact absurd h1.symm (hr dir)
        · rw [hw] at hw2
          obtain ⟨h1, h2⟩ := Prod.mk.inj (Option.some.inj hw2)
          have hd : dir2 = dir := by
            have := (Prod.mk.inj h1).1
            exact (Option.some.inj this).symm
          subst hd
          subst h2
          rcases hrest with ⟨_, hm⟩ | ⟨hq, _⟩
          · refine ⟨_, hm, ?_⟩
            intro hdbg f hf hc
            rw [hdbg, purgeDst_eq_purgeSrc]
            obtain ⟨newS, hs1, _, hs3⟩ := purgeSrc_trace P (dirCorrect P fl.dstDir).1
              (dir2.filter (fun f => Contains f.Name fl.dstStr)) w2
            obtain ⟨ok, hok⟩ := hs3 f (List.mem_filter.2 ⟨hf, hc⟩)
            refine ⟨ok, ?_⟩
            simp only [World.log] at hs1 ⊢
            rw [hs1]
            simp [hok]
          · exact absurd hget hq
    refine ⟨by simp [getsrcs, hfiles, hloop], ?_,
      fun dir hdir => hrem dir _ (wait4dstLoop_ready P _ _ _ _ _ dir hdir), hrem⟩
    · intro out hrun
      rcases main_cases P fl w h with ⟨h0, _⟩ | ⟨files2, hf2, hrest⟩
      · rw [hfiles] at h0; cases h0
      · have hfe : files2 = files := by
          rw [hfiles] at hf2; exact (Option.some.inj hf2).symm
        subst hfe
        rcases hrest with ⟨_, hm⟩ | ⟨r, w2, hw, _, hm⟩ | ⟨dir, w2, hw, hrest⟩
        · rw [hm] at hrun; cases hrun
        · rw [hm] at hrun
          have := Option.some.inj hrun
          subst this
          obtain ⟨_, ⟨new, hn1, hn2⟩, _⟩ := wait4dstLoop_spec P _ _ _ _ _ _ _ hw
          obtain ⟨pre, ok, hpre⟩ := wait4dstLoop_lists P _ _ _ _ _ _ _ hw
          have hnew : new = pre ++ [Event.ReadDir (dirCorrect P fl.dstDir).1 ok] := by
            have : ((checked P w).log [Event.ReadDir (dirCorrect P fl.srcDir).1 true]).trace ++ new
                = ((checked P w).log [Event.ReadDir (dirCorrect P fl.srcDir).1 true]).trace ++
                  (pre ++ [Event.ReadDir (dirCorrect P fl.dstDir).1 ok]) := by
              rw [← hn1, hpre, List.append_assoc]
            exact List.append_cancel_left this
          refine ⟨(dirCorrectLog P ++ dirCorrectLog P) ++
            Event.ReadDir (dirCorrect P fl.srcDir).1 true :: new, ?_, ⟨ok, ?_⟩, ?_⟩
          · rw [hn1]; simp [World.log, checked]
          · rw [hnew]; simp
          · intro e he
            rcases List.mem_append.1 he with he | he
            · exact Or.inl (dirCorrectLog_lines P e he)
            rcases List.mem_cons.1 he with he | he
            · exact Or.inr (Or.inl ⟨_, _, he⟩)
            · rcases hn2 e he with ⟨ok, he⟩ | ⟨_, ⟨line, he⟩ | he⟩
              · exact Or.inr (Or.inl ⟨_, _, he⟩)
              · exact Or.inl ⟨_, he⟩
              · exact Or.inr (Or.inr (Or.inl he))
        · obtain ⟨_, ⟨new, hn1, hn2⟩, _⟩ := wait4dstLoop_spec P _ _ _ _ _ _ _ hw
          obtain ⟨pre, ok, hpre⟩ := wait4dstLoop_lists P _ _ _ _ _ _ _ hw
          have hnew : new = pre ++ [Event.ReadDir (dirCorrect P fl.dstDir).1 ok] := by
            have : ((checked P w).log [Event.ReadDir (dirCorrect P fl.srcDir).1 true]).trace ++ new
                = ((checked P w).log [Event.ReadDir (dirCorrect P fl.srcDir).1 true]).trace ++
                  (pre ++ [Event.ReadDir (dirCorrect P fl.dstDir).1 ok]) := by
              rw [← hn1, hpre, List.append_assoc]
            exact List.append_cancel_left this
          rcases hrest with ⟨_, hm⟩ | ⟨hq, _⟩
          · rw [hm] at hrun
            have := Option.some.inj hrun
            subst this
            obtain ⟨newD, hd1, hd2⟩ :=
              purgeDst_events P fl.dbg (dirCorrect P fl.dstDir).1 fl.dstStr dir w2
            refine ⟨(dirCorrectLog P ++ dirCorrectLog P) ++
              (Event.ReadDir (dirCorrect P fl.srcDir).1 true :: new ++ newD ++
              [Event.Println "NO eligible source files!".toList]), ?_, ⟨ok, ?_⟩, ?_⟩
            · simp only [World.log]; rw [hd1, hn1]; simp [World.log, checked]
            · rw [hnew]; simp
            · intro e he
              rcases List.mem_append.1 he with he | he
              · exact Or.inl (dirCorrectLog_lines P e he)
              rcases List.mem_append.1 he with he | he
              · rcases List.mem_append.1 he with he | he
                · rcases List.mem_cons.1 he with he | he
                  · exact Or.inr (Or.inl ⟨_, _, he⟩)
                  · rcases hn2 e he with ⟨ok, he⟩ | ⟨_, ⟨line, he⟩ | he⟩
                    · exact Or.inr (Or.inl ⟨_, _, he⟩)
                    · exact Or.inl ⟨_, he⟩
                    · exact Or.inr (Or.inr (Or.inl he))
                · rcases hd2 e he with hl | ⟨hdbg, f, _, hc, ok, he⟩
                  · exact Or.inl hl
                  · exact Or.inr (Or.inr (Or.inr ⟨hdbg, f.Name, ok, hc, he⟩))
              · simp only [List.mem_singleton] at he
                exact Or.inl ⟨_, he⟩
          · exact absurd hget hq
/-- C5 amended, on a tree without source directory and on the tree whose
    source holds no match. -/
theorem main_stops_when_source_unlistable_witness :
    allGiven sampleFlags ∧
    ReadDir slashPlatform (start noSrcTree).fs (dirCorrect slashPlatform sampleFlags.srcDir).1
      = none ∧
    (∃ out, main slashPlatform sampleFlags (start noSrcTree) = some out ∧
      out.fs = (start noSrcTree).fs ∧
      out.trace = (start noSrcTree).trace ++
        (dirCorrectLog slashPlatform ++ dirCorrectLog slashPlatform) ++
        [Event.ReadDir (dirCorrect slashPlatform sampleFlags.srcDir).1 false,
          Event.Println ("NO source files found!".toList ++
            slashPlatform.errorText (dirCorrect slashPlatform sampleFlags.srcDir).1)]) ∧
    (getsrcs slashPlatform (dirCorrect slashPlatform sampleFlags.srcDir).1 sampleFlags.srcStr
      (start staleTree)).1 = some [] :=
  ⟨by decide, by decide,
   (main_stops_when_source_unlistable slashPlatform sampleFlags (start noSrcTree)
      (by decide)).1 (by decide),
   ((main_stops_when_source_unlistable slashPlatform sampleFlags (start staleTree)
      (by decide)).2 [⟨"notes.md".toList, 3, 5⟩] (by decide) (by decide)).1⟩

/-- C10: with the separator obtained, the path returned by `dirCorrect` ends
    with the separator; a directory that already ends with it is returned as it
    is with the flag false, any other has the separator appended and the flag
    true; correcting a corrected path changes nothing; and in a run of `main`
    the two corrected directories end with the separator and every path that is
    listed, opened, created or removed is one of them or starts with one of
    them. -/
theorem dirCorrect_ends_with_separator (P : Platform) (dir sep : Str)
    (h : P.unquotedSeparator = some sep) :
    HasSuffix (dirCorrect P dir).1 sep = true ∧
    (HasSuffix dir sep = true → dirCorrect P dir = (dir, false)) ∧
    (HasSuffix dir sep = false → dirCorrect P dir = (dir ++ sep, true)) ∧
    (dirCorrect P (dirCorrect P dir).1).1 = (dirCorrect P dir).1 ∧
    (∀ fl w out, allGiven fl → main P fl w = some out →
      HasSuffix (dirCorrect P fl.srcDir).1 sep = true ∧
      HasSuffix (dirCorrect P fl.dstDir).1 sep = true ∧
      ∃ new, out.trace = w.trace ++ new ∧ ∀ e ∈ new,
        (∀ d ok, e = Event.ReadDir d ok →
          d = (dirCorrect P fl.srcDir).1 ∨ d = (dirCorrect P fl.dstDir).1) ∧
        (∀ p ok, e = Event.Open p ok → ∃ name, p = (dirCorrect P fl.srcDir).1 ++ name) ∧
        (∀ p ok, e = Event.Create p ok →
          p = nameDst (dirCorrect P fl.dstDir).1 fl.dstStr fl.dstAffix) ∧
        (∀ p ok, e = Event.Remove p ok →
          ∃ name, p = (dirCorrect P fl.srcDir).1 ++ name ∨
            p = (dirCorrect P fl.dstDir).1 ++ name)) := by
  obtain ⟨h1, h2, h3⟩ := dirCorrect_spec P dir sep h
  refine ⟨h1, h2, h3, ?_, ?_⟩
  · rw [(dirCorrect_spec P (dirCorrect P dir).1 sep h).2.1 h1]
  · intro fl w out hall hrun
    obtain ⟨new, hn1, hn2⟩ := main_events P fl w out hall hrun
    refine ⟨(dirCorrect_spec P fl.srcDir sep h).1, (dirCorrect_spec P fl.dstDir sep h).1,
      new, hn1, ?_⟩
    intro e he
    have hme := hn2 e he
    refine ⟨?_, ?_, ?_, ?_⟩
    · intro d ok hd; subst hd; exact hme
    · intro p ok hp; subst hp; exact hme
    · intro p ok hp; subst hp; exact hme
    · intro p ok hp; subst hp; exact hme.2

/-- C10 on the directory `src` of the scenario. -/
theorem dirCorrect_ends_with_separator_witness :
    slashPlatform.unquotedSeparator = some "/".toList ∧
    dirCorrect slashPlatform "src".toList = ("src/".toList, true) ∧
    dirCorrect slashPlatform "src/".toList = ("src/".toList, false) ∧
    HasSuffix (dirCorrect slashPlatform "src".toList).1 "/".toList = true :=
  ⟨rfl,
   (dirCorrect_ends_with_separator slashPlatform "src".toList "/".toList rfl).2.2.1 (by decide),
   (dirCorrect_ends_with_separator slashPlatform "src/".toList "/".toList rfl).2.1 (by decide),
   (dirCorrect_ends_with_separator slashPlatform "src".toList "/".toList rfl).1⟩
/-- C6: with the debug flag set a run of `main` removes nothing.  No call of
    `os.Remove` is made; the final tree has the working directory, the refusals
    and the directories of the tree that the environment supplied (the initial
    one when `main` read no line from the console, else one that the operator
    left while `main` waited), every object of that tree is still there, every
    object other than the destination file `dstStr+dstAffix` is unchanged (the
    modification time of a directory aside), and every name listed in a
    directory before is still listed in it.  The run ends whenever `ignore` is
    set or the destination can be listed at once or after one of the lines of
    the operator. -/
theorem main_dbg_removes_nothing (P : Platform) (fl : Flags) (w : World)
    (hdbg : fl.dbg = true) :
    (∀ out, main P fl w = some out →
      ∃ new fsE, out.trace = w.trace ++ new ∧ (∀ p ok, Event.Remove p ok ∉ new) ∧
        fsE ∈ w.fs :: w.console ∧ (Event.Scan ∉ new → fsE = w.fs) ∧
        out.fs.cwd = fsE.cwd ∧ out.fs.denied = fsE.denied ∧
        (∀ q, out.fs.isDir q = fsE.isDir q) ∧
        (∀ q, (fsE.node q).isSome = true → (out.fs.node q).isSome = true) ∧
        (∀ q, resolve P.PathSeparator fsE
            (nameDst (dirCorrect P fl.dstDir).1 fl.dstStr fl.dstAffix) ≠ some q →
          out.fs.obj q = fsE.obj q) ∧
        (∀ d l, ReadDir P fsE d = some l →
          ∃ l1, ReadDir P out.fs d = some l1 ∧ ∀ f ∈ l, ∃ f1 ∈ l1, f1.Name = f.Name)) ∧
    ((fl.ignore = true ∨
        ∃ fs1 ∈ w.fs :: w.console, ReadDir P fs1 (dirCorrect P fl.dstDir).1 ≠ none) →
      ∃ out, main P fl w = some out) := by
  constructor
  · intro out hrun
    have hev : ∃ new, out.trace = w.trace ++ new ∧ ∀ p ok, Event.Remove p ok ∉ new := by
      by_cases hall : allGiven fl
      · obtain ⟨new, hn1, hn2⟩ := main_events P fl w out hall hrun
        refine ⟨new, hn1, ?_⟩
        intro p ok hp
        have := (hn2 _ hp).1
        rw [hdbg] at this
        cases this
      · rw [main_not_allGiven P fl w hall] at hrun
        have := Option.some.inj hrun
        subst this
        exact ⟨_, rfl, by simp⟩
    have key : ∃ fsE ∈ w.fs :: w.console,
        (∀ new, out.trace = w.trace ++ new → Event.Scan ∉ new → fsE = w.fs) ∧
        out.fs.cwd = fsE.cwd ∧ out.fs.denied = fsE.denied ∧
        (∀ q, out.fs.isDir q = fsE.isDir q) ∧
        (∀ q, (fsE.node q).isSome = true → (out.fs.node q).isSome = true) ∧
        (∀ q, resolve P.PathSeparator fsE
            (nameDst (dirCorrect P fl.dstDir).1 fl.dstStr fl.dstAffix) ≠ some q →
          out.fs.obj q = fsE.obj q) := by
      by_cases hall : allGiven fl
      · rcases main_cases P fl w hall with ⟨_, hm⟩ | ⟨files, _, hrest⟩
        · rw [hm] at hrun
          have := Option.some.inj hrun
          subst this
          exact ⟨w.fs, by simp, fun _ _ _ => rfl, rfl, rfl, fun _ => rfl, fun _ hq => hq,
            fun _ _ => rfl⟩
        · rcases hrest with ⟨_, hm⟩ | ⟨r, w2, hw, _, hm⟩ | ⟨dir, w2, hw, hrest⟩
          · rw [hm] at hrun; cases hrun
          · rw [hm] at hrun
            have := Option.some.inj hrun
            subst this
            obtain ⟨hin, _, _⟩ := wait4dstLoop_spec P _ _ _ _ _ _ _ hw
            obtain ⟨newW, hnw, henv⟩ := wait4dstLoop_env P _ _ _ _ _ _ _ hw
            refine ⟨_, hin, ?_, rfl, rfl, fun _ => rfl, fun _ hq => hq, fun _ _ => rfl⟩
            exact env_of_noscan P w _ [Event.ReadDir (dirCorrect P fl.srcDir).1 true] newW []
              _ (by rw [hnw]; simp [World.log]) henv
          · obtain ⟨hin, _, _⟩ := wait4dstLoop_spec P _ _ _ _ _ _ _ hw
            obtain ⟨newW, hnw, henv⟩ := wait4dstLoop_env P _ _ _ _ _ _ _ hw
            have hpd : (purgeDst P fl.dbg (dirCorrect P fl.dstDir).1 fl.dstStr dir w2).fs
                = w2.fs := by
              rw [hdbg, purgeDst_eq_purgeSrc]
              exact (purgeSrc_dbg _ _ _ _).1
            obtain ⟨newD, hd1, _⟩ :=
              purgeDst_events P fl.dbg (dirCorrect P fl.dstDir).1 fl.dstStr dir w2
            rcases hrest with ⟨_, hm⟩ | ⟨_, hm⟩
            · rw [hm] at hrun
              have := Option.some.inj hrun
              subst this
              refine ⟨w2.fs, hin, ?_, ?_, ?_, ?_, ?_, ?_⟩
              · exact env_of_noscan P w _ [Event.ReadDir (dirCorrect P fl.srcDir).1 true] newW
                  (newD ++ [Event.Println "NO eligible source files!".toList]) _
                  (by
                    change (purgeDst P fl.dbg _ _ _ _).trace ++ _ = _
                    rw [hd1, hnw]; simp [World.log]) henv
              · simp only [World.log]; rw [hpd]
              · simp only [World.log]; rw [hpd]
              · intro q; simp only [World.log]; rw [hpd]
              · intro q hq; simp only [World.log]; rw [hpd]; exact hq
              · intro q _; simp only [World.log]; rw [hpd]
            · rw [hm] at hrun
              have := Option.some.inj hrun
              subst this
              obtain ⟨c1, c2, _, c4, c5, c6⟩ := cp_frame P
                (get1src (dirCorrect P fl.srcDir).1 (matchLoop P fl.srcStr files))
                (nameDst (dirCorrect P fl.dstDir).1 fl.dstStr fl.dstAffix)
                (purgeDst P fl.dbg (dirCorrect P fl.dstDir).1 fl.dstStr dir w2)
              obtain ⟨newC, hc1, _⟩ := cp_trace P
                (get1src (dirCorrect P fl.srcDir).1 (matchLoop P fl.srcStr files))
                (nameDst (dirCorrect P fl.dstDir).1 fl.dstStr fl.dstAffix)
                (purgeDst P fl.dbg (dirCorrect P fl.dstDir).1 fl.dstStr dir w2)
              obtain ⟨newS, hs1, _⟩ := purgeSrc_events P fl.dbg (dirCorrect P fl.srcDir).1
                (matchLoop P fl.srcStr files)
                (cp P (get1src (dirCorrect P fl.srcDir).1 (matchLoop P fl.srcStr files))
                  (nameDst (dirCorrect P fl.dstDir).1 fl.dstStr fl.dstAffix)
                  (purgeDst P fl.dbg (dirCorrect P fl.dstDir).1 fl.dstStr dir w2))
              rw [hpd] at c1 c2 c4 c5 c6
              have hps : ∀ w4, (purgeSrc P fl.dbg (dirCorrect P fl.srcDir).1
                  (matchLoop P fl.srcStr files) w4).fs = w4.fs := by
                intro w4; rw [hdbg]; exact (purgeSrc_dbg _ _ _ _).1
              refine ⟨w2.fs, hin, ?_, ?_, ?_, ?_, ?_, ?_⟩
              · exact env_of_noscan P w _ [Event.ReadDir (dirCorrect P fl.srcDir).1 true] newW
                  (newD ++ newC ++ newS) _
                  (by rw [hs1, hc1, hd1, hnw]; simp [World.log]) henv
              · rw [hps]; exact c1
              · rw [hps]; exact c2
              · intro q; rw [hps]; exact c6 q
              · intro q hq; rw [hps]; exact c5 q hq
              · intro q hq; rw [hps]; exact c4 q hq
      · rw [main_not_allGiven P fl w hall] at hrun
        have := Option.some.inj hrun
        subst this
        exact ⟨w.fs, by simp, fun _ _ _ => rfl, rfl, rfl, fun _ => rfl, fun _ hq => hq,
            fun _ _ => rfl⟩
    obtain ⟨new, hn1, hn2⟩ := hev
    obtain ⟨fsE, hin, k0, k1, k2, k3, k4, k5⟩ := key
    exact ⟨new, fsE, hn1, hn2, hin, k0 new hn1, k1, k2, k3, k4, k5,
      fun d l hl => names_preserved P fsE out.fs k1 k2 k3 k4 d l hl⟩
  · intro hterm
    by_cases hall : allGiven fl
    · rcases main_cases P fl w hall with ⟨_, hm⟩ | ⟨files, _, hrest⟩
      · exact ⟨_, hm⟩
      · rcases hrest with ⟨hw, _⟩ | ⟨r, w2, _, _, hm⟩ | ⟨dir, w2, _, hrest⟩
        · obtain ⟨r, hr⟩ := wait4dstLoop_terminates P (dirCorrect P fl.dstDir).1 fl.ignore
            w.console w.fs
            ((checked P w).log [Event.ReadDir (dirCorrect P fl.srcDir).1 true]).trace hterm
          have hw2 : wait4dst P (dirCorrect P fl.dstDir).1 fl.ignore
              ((checked P w).log [Event.ReadDir (dirCorrect P fl.srcDir).1 true]) = some r := hr
          rw [hw] at hw2; cases hw2
        · exact ⟨_, hm⟩
        · rcases hrest with ⟨_, hm⟩ | ⟨_, hm⟩
          · exact ⟨_, hm⟩
          · exact ⟨_, hm⟩
    · exact ⟨_, main_not_allGiven P fl w hall⟩

/-- C6 on the scenario run with `-debug`: the copy is made and both source
    files are still there. -/
theorem main_dbg_removes_nothing_witness :
    ({ sampleFlags with dbg := true } : Flags).dbg = true ∧
    main slashPlatform { sampleFlags with dbg := true } (start sampleTree)
      = some
        { fs :=
            { nodes := [(srcPlace, Node.dir 4096 1),
                (dstPlace, Node.dir 4096 100),
                (srcPlace ++ ["a.txt".toList], Node.file ⟨List.replicate 10 1, 5⟩),
                (srcPlace ++ ["b.txt".toList], Node.file ⟨List.replicate 20 2, 9⟩),
                (dstPlace ++ ["out.dat".toList], Node.file ⟨List.replicate 20 2, 100⟩)]
              cwd := []
              denied := [] }
          console := []
          trace := [Event.ReadDir "src/".toList true, Event.ReadDir "dst/".toList true,
            Event.Open "src/b.txt".toList true, Event.Create "dst/out.dat".toList true,
            Event.Copy "dst/out.dat".toList "src/b.txt".toList true,
            Event.Println (toDelete "src/".toList "a.txt".toList),
            Event.Println (toDelete "src/".toList "b.txt".toList)] } ∧
    ∃ out, main slashPlatform { sampleFlags with dbg := true } (start sampleTree) = some out :=
  ⟨rfl, by decide,
   (main_dbg_removes_nothing slashPlatform { sampleFlags with dbg := true } (start sampleTree)
      rfl).2 (Or.inr ⟨sampleTree, by simp [start], by decide⟩)⟩

/-- C4 fails on the code: when the copy fails, `cp` prints the failure and
    returns nothing, and `main` removes both source candidates all the same.
    First run: the destination file cannot be created.  Second run: the chosen
    source file cannot be opened.  In both, `src/a.txt` and `src/b.txt` are
    removed and no copy exists. -/
theorem main_removes_sources_when_copy_fails :
    Create slashPlatform lockedTree "dst/out.dat".toList = none ∧
    main slashPlatform sampleFlags (start lockedTree)
      = some
        { fs :=
            { nodes := [(srcPlace, Node.dir 4096 100), (dstPlace, Node.dir 4096 1)]
              cwd := []
              denied := [Syscall.Create (dstPlace ++ ["out.dat".toList])] }
          console := []
          trace := [Event.ReadDir "src/".toList true, Event.ReadDir "dst/".toList true,
            Event.Open "src/b.txt".toList true, Event.Create "dst/out.dat".toList false,
            Event.Println ("FAILED to create target file!".toList ++ ": error".toList),
            Event.Println (toDelete "src/".toList "a.txt".toList),
            Event.Remove "src/a.txt".toList true,
            Event.Println (toDelete "src/".toList "b.txt".toList),
            Event.Remove "src/b.txt".toList true] } ∧
    Open slashPlatform sealedTree "src/b.txt".toList = none ∧
    main slashPlatform sampleFlags (start sealedTree)
      = some
        { fs :=
            { nodes := [(srcPlace, Node.dir 4096 100), (dstPlace, Node.dir 4096 1)]
              cwd := []
              denied := [Syscall.Open (srcPlace ++ ["b.txt".toList])] }
          console := []
          trace := [Event.ReadDir "src/".toList true, Event.ReadDir "dst/".toList true,
            Event.Open "src/b.txt".toList false,
            Event.Println ("FAILED to open source file!".toList ++ ": error".toList),
            Event.Println (toDelete "src/".toList "a.txt".toList),
            Event.Remove "src/a.txt".toList true,
            Event.Println (toDelete "src/".toList "b.txt".toList),
            Event.Remove "src/b.txt".toList true] } := by
  decide

/-- C1, amended: a run with debug off and all five string flags given, with
    `dstStr+dstAffix` free of the path separator, a source directory that
    lists and is another directory than the destination (`cs` and `cd` are the
    places that the two directory strings name), and a destination that lists
    at once, ends; and if in that run the copy succeeds and no `Remove` fails,
    then the candidate chosen by `get1src` was a regular file of the source
    directory, both directories are still there, and (1) the destination
    directory holds, and lists, a regular file named `dstStr+dstAffix` with the
    bytes of that candidate; (2) every other entry listed in the destination
    directory bears the name of an entry of before that does not contain
    `dstStr`, and every entry of before whose name does not contain `dstStr`
    is still listed and is the same object (of a directory only the
    modification time may differ, and that only if it is the source directory
    itself); (3) no candidate returned by `getsrcs` is left in the source
    directory. -/
theorem main_moves_freshest_file (P : Platform) (fl : Flags) (w : World) (S D : Str)
    (cs cd : Path) (srcListing dstListing : List FileInfo)
    (hS : (dirCorrect P fl.srcDir).1 = S) (hD : (dirCorrect P fl.dstDir).1 = D)
    (hdbg : fl.dbg = false) (hall : allGiven fl)
    (hname : P.PathSeparator ∉ fl.dstStr ++ fl.dstAffix)
    (hcs : resolve P.PathSeparator w.fs S = some cs)
    (hcd : resolve P.PathSeparator w.fs D = some cd)
    (hdist : cs ≠ cd)
    (hsrc : ReadDir P w.fs S = some srcListing)
    (hdst : ReadDir P w.fs D = some dstListing) :
    ∃ out new, main P fl w = some out ∧ out.trace = w.trace ++ new ∧
      ((∃ dst src, Event.Copy dst src true ∈ new) → (∀ p, Event.Remove p false ∉ new) →
        ∃ fc file,
          fc ∈ matchLoop P fl.srcStr srcListing ∧
          get1src S (matchLoop P fl.srcStr srcListing) = S ++ fc.Name ∧
          w.fs.node (cs ++ [fc.Name]) = some (Node.file file) ∧
          out.fs.isDir cs = true ∧ out.fs.isDir cd = true ∧
          out.fs.node (cd ++ [fl.dstStr ++ fl.dstAffix])
            = some (Node.file ⟨file.bytes, P.now⟩) ∧
          (⟨fl.dstStr ++ fl.dstAffix, (file.bytes.length : Int), P.now⟩ : FileInfo)
            ∈ out.fs.entries P.PathSeparator cd ∧
          (∀ e ∈ out.fs.entries P.PathSeparator cd, e.Name = fl.dstStr ++ fl.dstAffix ∨
            (Contains e.Name fl.dstStr = false ∧ ∃ e0 ∈ dstListing, e0.Name = e.Name)) ∧
          (∀ e ∈ dstListing, Contains e.Name fl.dstStr = false →
            out.fs.obj (cd ++ [e.Name]) = w.fs.obj (cd ++ [e.Name]) ∧
            (∃ e1 ∈ out.fs.entries P.PathSeparator cd, e1.Name = e.Name) ∧
            (cd ++ [e.Name] ≠ cs →
              out.fs.node (cd ++ [e.Name]) = w.fs.node (cd ++ [e.Name]) ∧
              e ∈ out.fs.entries P.PathSeparator cd)) ∧
          (∀ f ∈ matchLoop P fl.srcStr srcListing,
            out.fs.node (cs ++ [f.Name]) = none ∧
            ∀ e ∈ out.fs.entries P.PathSeparator cs, e.Name ≠ f.Name)) := by
  -- the separator was obtained, or the source directory would be the empty string
  have hsep : P.unquotedSeparator = some [P.PathSeparator] := by
    cases hf : P.unquoteFails with
    | true =>
      exfalso
      have hnil : S = [] := by
        rw [← hS]; simp [dirCorrect, Platform.unquotedSeparator, hf]
      rw [hnil] at hcs
      simp [resolve] at hcs
    | false => simp [Platform.unquotedSeparator, hf]
  -- the two directory strings end with the separator
  obtain ⟨s0, hs0⟩ := hasSuffix_singleton S P.PathSeparator
    (by rw [← hS]; exact (dirCorrect_spec P fl.srcDir _ hsep).1)
  obtain ⟨d0, hd0⟩ := hasSuffix_singleton D P.PathSeparator
    (by rw [← hD]; exact (dirCorrect_spec P fl.dstDir _ hsep).1)
  subst hs0
  subst hd0
  have hck : (checked P w).trace = w.trace := by
    rw [checked_trace, dirCorrectLog_of_some P _ hsep]; simp
  have hcands : matchLoop P fl.srcStr srcListing = srcListing.filter (matched P fl.srcStr) :=
    matchLoop_eq_filter _ _ _
  have hcl : ∀ f ∈ matchLoop P fl.srcStr srcListing, f ∈ srcListing := by
    intro f hf; rw [hcands] at hf; exact (List.mem_filter.1 hf).1
  -- the two listings
  obtain ⟨ps0, a1, a2, _, _, amem⟩ := ReadDir_some P w.fs _ srcListing hsrc
  obtain ⟨pd0, b1, b2, _, _, bmem⟩ := ReadDir_some P w.fs _ dstListing hdst
  have e1 : ps0 = cs := by rw [hcs] at a1; exact (Option.some.inj a1).symm
  have e2 : pd0 = cd := by rw [hcd] at b1; exact (Option.some.inj b1).symm
  subst e1
  subst e2
  have srcEnt : ∀ f ∈ srcListing, validName P.PathSeparator f.Name ∧
      ∃ nd, w.fs.node (ps0 ++ [f.Name]) = some nd ∧ f = toInfo f.Name nd := by
    intro f hf
    obtain ⟨n, nd, hv, hnd, hfe⟩ := (mem_entries _ _ _ _).1 ((amem f).1 hf)
    have hn : f.Name = n := by rw [hfe, toInfo_Name]
    rw [hn]
    exact ⟨hv, nd, hnd, hfe⟩
  have dstEnt : ∀ f ∈ dstListing, validName P.PathSeparator f.Name ∧
      ∃ nd, w.fs.node (pd0 ++ [f.Name]) = some nd ∧ f = toInfo f.Name nd := by
    intro f hf
    obtain ⟨n, nd, hv, hnd, hfe⟩ := (mem_entries _ _ _ _).1 ((bmem f).1 hf)
    have hn : f.Name = n := by rw [hfe, toInfo_Name]
    rw [hn]
    exact ⟨hv, nd, hnd, hfe⟩
  -- no place is an entry of both directories
  have hXD : ∀ n l, ps0 ++ [n] ∉ placesOf pd0 l := by
    intro n l hmem
    obtain ⟨g, _, hg⟩ := List.mem_map.1 hmem
    exact hdist (append_singleton_inj _ _ _ _ hg).1.symm
  have hXS : ∀ n l, pd0 ++ [n] ∉ placesOf ps0 l := by
    intro n l hmem
    obtain ⟨g, _, hg⟩ := List.mem_map.1 hmem
    exact hdist (append_singleton_inj _ _ _ _ hg).1
  have hself : ∀ (c : Path) l, c ∉ placesOf c l := by
    intro c l hmem
    obtain ⟨g, _, hg⟩ := List.mem_map.1 hmem
    exact append_singleton_ne_self c g.Name hg
  -- the run up to the purge of the destination
  have hw : wait4dst P (d0 ++ [P.PathSeparator]) fl.ignore
      ((checked P w).log [Event.ReadDir (s0 ++ [P.PathSeparator]) true])
      = some ((some dstListing, true),
          ((checked P w).log [Event.ReadDir (s0 ++ [P.PathSeparator]) true]).log
            [Event.ReadDir (d0 ++ [P.PathSeparator]) true]) :=
    wait4dstLoop_ready P _ fl.ignore _ _ _ dstListing hdst
  obtain ⟨newD, t1, t2, _⟩ :=
    purgeSrc_trace P (d0 ++ [P.PathSeparator])
      (dstListing.filter (fun f => Contains f.Name fl.dstStr))
      (((checked P w).log [Event.ReadDir (s0 ++ [P.PathSeparator]) true]).log
        [Event.ReadDir (d0 ++ [P.PathSeparator]) true])
  have hnoCopyD : ∀ dst src ok, Event.Copy dst src ok ∉ newD := by
    intro dst src ok hmem
    obtain ⟨f, _, h1 | ⟨ok, h1⟩⟩ := t2 _ hmem <;> cases h1
  have hw2tr : (((checked P w).log [Event.ReadDir (s0 ++ [P.PathSeparator]) true]).log
      [Event.ReadDir (d0 ++ [P.PathSeparator]) true]).trace
      = w.trace ++ [Event.ReadDir (s0 ++ [P.PathSeparator]) true,
          Event.ReadDir (d0 ++ [P.PathSeparator]) true] := by
    simp [World.log, hck]
  have hpurgeD := purgeSrc_obj P w.fs d0 pd0
    (dstListing.filter (fun f => Contains f.Name fl.dstStr)) hcd
    (fun f hf => (dstEnt f (List.mem_filter.1 hf).1).1)
    (((checked P w).log [Event.ReadDir (s0 ++ [P.PathSeparator]) true]).log
      [Event.ReadDir (d0 ++ [P.PathSeparator]) true])
    (DirsWithin_refl w.fs) newD t1
  have hw2fs : (((checked P w).log [Event.ReadDir (s0 ++ [P.PathSeparator]) true]).log
      [Event.ReadDir (d0 ++ [P.PathSeparator]) true]).fs = w.fs := rfl
  rw [hw2fs] at hpurgeD
  rw [hw2tr] at t1
  by_cases hq : get1src (s0 ++ [P.PathSeparator]) (matchLoop P fl.srcStr srcListing) = []
  · -- no candidate is chosen: no copy is made
    have hmain := main_without_candidate P fl w _ srcListing dstListing hall
      (by rw [hS]; exact hsrc) (by rw [hS, hD]; exact hw) (by rw [hS]; exact hq)
    rw [hD, hdbg, purgeDst_eq_purgeSrc] at hmain
    refine ⟨_, [Event.ReadDir (s0 ++ [P.PathSeparator]) true,
      Event.ReadDir (d0 ++ [P.PathSeparator]) true] ++ newD ++
      [Event.Println "NO eligible source files!".toList], hmain,
      by change (purgeSrc P false _ _ _).trace ++ _ = _; rw [t1]; simp, ?_⟩
    rintro ⟨dst, src, hcopy⟩ _
    exfalso
    rcases List.mem_append.1 hcopy with h | h
    · rcases List.mem_append.1 h with h | h
      · simp at h
      · exact hnoCopyD _ _ _ h
    · simp at h
  -- a candidate is chosen
  obtain ⟨fc, hfc, hget⟩ : ∃ f ∈ matchLoop P fl.srcStr srcListing,
      get1src (s0 ++ [P.PathSeparator]) (matchLoop P fl.srcStr srcListing)
        = s0 ++ [P.PathSeparator] ++ f.Name := by
    rcases get1src_form (s0 ++ [P.PathSeparator]) (matchLoop P fl.srcStr srcListing) with h0 | h1
    · exact absurd h0 hq
    · exact h1
  have hmain := main_reaches_cp P fl w _ srcListing dstListing hall
    (by rw [hS]; exact hsrc) (by rw [hS, hD]; exact hw) (by rw [hS]; exact hq)
  simp only [afterCp] at hmain
  rw [hS, hD, hdbg, purgeDst_eq_purgeSrc] at hmain
  generalize hw3 : purgeSrc P false (d0 ++ [P.PathSeparator])
    (dstListing.filter (fun f => Contains f.Name fl.dstStr))
    (((checked P w).log [Event.ReadDir (s0 ++ [P.PathSeparator]) true]).log
      [Event.ReadDir (d0 ++ [P.PathSeparator]) true]) = w3
    at hmain hpurgeD t1
  obtain ⟨newC, c1, c2⟩ := cp_trace P
    (get1src (s0 ++ [P.PathSeparator]) (matchLoop P fl.srcStr srcListing))
    (nameDst (d0 ++ [P.PathSeparator]) fl.dstStr fl.dstAffix) w3
  have hcopied := cp_copied P
    (get1src (s0 ++ [P.PathSeparator]) (matchLoop P fl.srcStr srcListing))
    (nameDst (d0 ++ [P.PathSeparator]) fl.dstStr fl.dstAffix) w3 newC c1
  generalize hw4 : cp P (get1src (s0 ++ [P.PathSeparator]) (matchLoop P fl.srcStr srcListing))
    (nameDst (d0 ++ [P.PathSeparator]) fl.dstStr fl.dstAffix) w3 = w4 at hmain c1 hcopied
  obtain ⟨newS, u1, u2, _⟩ :=
    purgeSrc_trace P (s0 ++ [P.PathSeparator]) (matchLoop P fl.srcStr srcListing) w4
  have hpurgeS := fun hin => purgeSrc_obj P w.fs s0 ps0 (matchLoop P fl.srcStr srcListing) hcs
    (fun f hf => (srcEnt f (hcl f hf)).1) w4 hin newS u1
  have hnoCopyS : ∀ dst src ok, Event.Copy dst src ok ∉ newS := by
    intro dst src ok hmem
    obtain ⟨f, _, h1 | ⟨ok, h1⟩⟩ := u2 _ hmem <;> cases h1
  generalize hout : purgeSrc P false (s0 ++ [P.PathSeparator])
    (matchLoop P fl.srcStr srcListing) w4 = out at hmain hpurgeS u1
  refine ⟨out, [Event.ReadDir (s0 ++ [P.PathSeparator]) true,
    Event.ReadDir (d0 ++ [P.PathSeparator]) true] ++ newD ++ newC ++ newS, hmain,
    by rw [u1, c1, t1]; simp, ?_⟩
  rintro ⟨cdst, csrc, hcopy⟩ hR
  have hcopyC : Event.Copy cdst csrc true ∈ newC := by
    rcases List.mem_append.1 hcopy with h | h
    · rcases List.mem_append.1 h with h | h
      · rcases List.mem_append.1 h with h | h
        · simp at h
        · exact absurd h (hnoCopyD _ _ _)
      · exact h
    · exact absurd h (hnoCopyS _ _ _)
  have hokD : ∀ p, Event.Remove p false ∉ newD := by
    intro p hp
    exact hR p (by simp [hp])
  have hokS : ∀ p, Event.Remove p false ∉ newS := by
    intro p hp
    exact hR p (by simp [hp])
  -- the purge of the destination
  obtain ⟨D1, _, _, D4, D5, D6⟩ := hpurgeD hokD
  -- the copy
  obtain ⟨ps, pd, file, k1, k2, k3, k4, k5, k6, k7, k8, k9, _, _, k12, k13⟩ :=
    hcopied ⟨cdst, csrc, hcopyC⟩
  have hvc : validName P.PathSeparator fc.Name := (srcEnt fc (hcl fc hfc)).1
  have hps : ps = ps0 ++ [fc.Name] := by
    rw [hget] at k1
    have h1 := resolve_mono _ _ _ D1 _ _ k1
    rw [resolve_child _ _ _ _ _ hcs hvc] at h1
    exact (Option.some.inj h1).symm
  have hdstAssoc : nameDst (d0 ++ [P.PathSeparator]) fl.dstStr fl.dstAffix
      = d0 ++ [P.PathSeparator] ++ (fl.dstStr ++ fl.dstAffix) := by
    simp [nameDst]
  have hv0 : validName P.PathSeparator (fl.dstStr ++ fl.dstAffix) := by
    rw [hdstAssoc, lastComponent_dir_name _ _ _ hname] at k3 k4 k5
    exact ⟨k3, hname, k4, k5⟩
  have hpd : pd = pd0 ++ [fl.dstStr ++ fl.dstAffix] := by
    rw [hdstAssoc] at k2
    have h1 := resolve_mono _ _ _ D1 _ _ k2
    rw [resolve_child _ _ _ _ _ hcd hv0] at h1
    exact (Option.some.inj h1).symm
  subst hps
  subst hpd
  have hne : ps0 ++ [fc.Name] ≠ pd0 ++ [fl.dstStr ++ fl.dstAffix] :=
    fun e => hdist (append_singleton_inj _ _ _ _ e).1
  have hdrop : (pd0 ++ [fl.dstStr ++ fl.dstAffix]).dropLast = pd0 := by simp
  rw [hdrop] at k13
  -- the file of the candidate chosen
  have hfile : w.fs.node (ps0 ++ [fc.Name]) = some (Node.file file) := by
    have h3 := (node_file_iff _ _ _).1 (k8 hne)
    rw [D4, if_neg (hXD _ _)] at h3
    exact (node_file_iff _ _ _).2 h3
  -- the directories that the tree after the copy has
  have DW4 : DirsWithin w4.fs w.fs := by
    refine ⟨k9.trans D1.1, ?_⟩
    intro q hq
    apply D1.2
    rw [isDir_eq_obj, k12] at hq
    rw [isDir_eq_obj]
    by_cases hqd : q = pd0 ++ [fl.dstStr ++ fl.dstAffix]
    · rw [if_pos hqd] at hq
      have hqn : q ≠ [] := by rw [hqd]; simp
      simp [isDirObj, hqn] at hq
    · rw [if_neg hqd] at hq; exact hq
  obtain ⟨_, _, _, S4, S5, S6⟩ := hpurgeS DW4 hokS
  -- the source directory is not an entry of the destination that was removed
  have hcsD : ps0 ∉ placesOf pd0 (dstListing.filter (fun f => Contains f.Name fl.dstStr)) := by
    intro hmem
    have := D6 ps0 hmem a2 fc.Name hvc
    rw [(node_file_iff _ _ _).1 hfile] at this
    cases this
  have hcs3 : w3.fs.obj ps0 = w.fs.obj ps0 := by rw [D4, if_neg hcsD]
  have hcsne : ps0 ≠ pd0 ++ [fl.dstStr ++ fl.dstAffix] := by
    intro e
    have h3 : w3.fs.isDir ps0 = true := by rw [isDir_congr _ _ _ hcs3]; exact a2
    rw [← e, h3] at k6
    cases k6
  have hcs4 : w4.fs.obj ps0 = w.fs.obj ps0 := by rw [k12, if_neg hcsne, hcs3]
  have hcsO : out.fs.obj ps0 = w.fs.obj ps0 := by rw [S4, if_neg (hself _ _), hcs4]
  -- the destination directory is not a candidate that was removed
  have hcd3 : w3.fs.obj pd0 = w.fs.obj pd0 := by rw [D4, if_neg (hself _ _)]
  have hcd4 : w4.fs.obj pd0 = w.fs.obj pd0 := by
    rw [k12, if_neg (append_singleton_ne_self _ _).symm, hcd3]
  have hdst4 : w4.fs.obj (pd0 ++ [fl.dstStr ++ fl.dstAffix])
      = some (Node.file ⟨file.bytes, P.now⟩) := by rw [k12, if_pos rfl]
  have hcdS : pd0 ∉ placesOf ps0 (matchLoop P fl.srcStr srcListing) := by
    intro hmem
    have h4 : w4.fs.isDir pd0 = true := by rw [isDir_congr _ _ _ hcd4]; exact b2
    have := S6 pd0 hmem h4 _ hv0
    rw [hdst4] at this
    cases this
  have hcdO : out.fs.obj pd0 = w.fs.obj pd0 := by rw [S4, if_neg hcdS, hcd4]
  have hdstO : out.fs.node (pd0 ++ [fl.dstStr ++ fl.dstAffix])
      = some (Node.file ⟨file.bytes, P.now⟩) := by
    apply (node_file_iff _ _ _).2
    rw [S4, if_neg (hXS _ _), hdst4]
  -- the objects of the destination other than the destination file
  have hother : ∀ n, n ≠ fl.dstStr ++ fl.dstAffix →
      out.fs.obj (pd0 ++ [n])
        = if pd0 ++ [n] ∈ placesOf pd0 (dstListing.filter (fun f => Contains f.Name fl.dstStr))
          then none else w.fs.obj (pd0 ++ [n]) := by
    intro n hn
    have h1 : pd0 ++ [n] ≠ pd0 ++ [fl.dstStr ++ fl.dstAffix] :=
      fun e => hn (append_singleton_inj _ _ _ _ e).2
    rw [S4, if_neg (hXS _ _), k12, if_neg h1, D4]
  refine ⟨fc, file, hfc, hget, hfile, ?_, ?_, hdstO, ?_, ?_, ?_, ?_⟩
  · rw [isDir_congr _ _ _ hcsO]; exact a2
  · rw [isDir_congr _ _ _ hcdO]; exact b2
  · exact (mem_entries _ _ _ _).2 ⟨_, _, hv0, hdstO, rfl⟩
  · -- (2) the entries of the destination at the end
    intro e he
    obtain ⟨n, nd, hv, hnd, hfe⟩ := (mem_entries _ _ _ _).1 he
    have hen : e.Name = n := by rw [hfe, toInfo_Name]
    by_cases hn : n = fl.dstStr ++ fl.dstAffix
    · left; rw [hen, hn]
    · right
      have hsome : (out.fs.obj (pd0 ++ [n])).isSome = true := by
        rw [← node_isSome_obj, hnd]; rfl
      rw [hother n hn] at hsome
      by_cases hmem : pd0 ++ [n] ∈
          placesOf pd0 (dstListing.filter (fun f => Contains f.Name fl.dstStr))
      · rw [if_pos hmem] at hsome; cases hsome
      · rw [if_neg hmem, ← node_isSome_obj] at hsome
        obtain ⟨nd0, hnd0⟩ := Option.isSome_iff_exists.1 hsome
        have he0 : toInfo n nd0 ∈ dstListing :=
          (bmem _).2 ((mem_entries _ _ _ _).2 ⟨n, nd0, hv, hnd0, rfl⟩)
        refine ⟨?_, toInfo n nd0, he0, by rw [toInfo_Name, hen]⟩
        by_contra hc
        have hc2 : Contains e.Name fl.dstStr = true := by simpa using hc
        apply hmem
        apply List.mem_map.2
        refine ⟨toInfo n nd0, List.mem_filter.2 ⟨he0, ?_⟩, by rw [toInfo_Name]⟩
        rw [toInfo_Name, ← hen]
        exact hc2
  · -- (2) the entries of before that do not contain `dstStr`
    intro e he hce
    obtain ⟨hv, nd0, hnd0, hfe⟩ := dstEnt e he
    have hn : e.Name ≠ fl.dstStr ++ fl.dstAffix := by
      intro hen
      have := contains_append_self fl.dstStr fl.dstAffix
      rw [← hen, hce] at this
      cases this
    have hmem : pd0 ++ [e.Name] ∉
        placesOf pd0 (dstListing.filter (fun f => Contains f.Name fl.dstStr)) := by
      intro hmem
      obtain ⟨g, hg, hge⟩ := List.mem_map.1 hmem
      have hgn : g.Name = e.Name := (append_singleton_inj _ _ _ _ hge).2
      have := (List.mem_filter.1 hg).2
      rw [hgn, hce] at this
      cases this
    have hobj : out.fs.obj (pd0 ++ [e.Name]) = w.fs.obj (pd0 ++ [e.Name]) := by
      rw [hother _ hn, if_neg hmem]
    have hsome : (out.fs.node (pd0 ++ [e.Name])).isSome = true := by
      rw [node_isSome_obj, hobj, ← node_isSome_obj, hnd0]; rfl
    obtain ⟨nd1, hnd1⟩ := Option.isSome_iff_exists.1 hsome
    refine ⟨hobj, ⟨toInfo e.Name nd1, (mem_entries _ _ _ _).2 ⟨_, _, hv, hnd1, rfl⟩,
      toInfo_Name _ _⟩, ?_⟩
    intro hnecs
    have hnode : out.fs.node (pd0 ++ [e.Name]) = w.fs.node (pd0 ++ [e.Name]) := by
      rw [S5 _ (hXS _ _) hnecs,
        k13 _ (fun e2 => hn (append_singleton_inj _ _ _ _ e2).2) (append_singleton_ne_self _ _),
        D5 _ hmem (append_singleton_ne_self _ _)]
    refine ⟨hnode, (mem_entries _ _ _ _).2 ⟨_, nd0, hv, ?_, hfe⟩⟩
    rw [hnode]; exact hnd0
  · -- (3) no candidate is left in the source
    intro f hf
    have hnone : out.fs.node (ps0 ++ [f.Name]) = none := by
      have hin : ps0 ++ [f.Name] ∈ placesOf ps0 (matchLoop P fl.srcStr srcListing) :=
        List.mem_map.2 ⟨f, hf, rfl⟩
      apply (node_none_iff _ _).2
      rw [S4, if_pos hin]
    refine ⟨hnone, ?_⟩
    intro e he hen
    obtain ⟨n, nd, _, hnd, hfe⟩ := (mem_entries _ _ _ _).1 he
    have : e.Name = n := by rw [hfe, toInfo_Name]
    rw [← this, hen, hnone] at hnd
    cases hnd

/-- C1, as stated, fails.  First run: with `-dstStr=sub/out` and a
    subdirectory `dst/sub/`, debug is off, the five flags are given, source and
    destination are two directories that list, both source entries match and
    `b.txt` is eligible, the copy succeeds and both removals succeed; yet at
    the end the destination directory `dst/` holds no file named
    `dstStr+dstAffix`: its only entry is the directory `sub`, in which the
    copy was made.  Second run: the source directory is the entry `in` of the
    destination directory; the hypotheses hold again, the name `in` does not
    contain `dstStr`, and yet that entry changes: the candidates are removed
    from it and its modification time goes from 1 to 100. -/
theorem main_copies_outside_destination :
    (nestedFlags.dbg = false ∧ allGiven nestedFlags ∧
      resolve '/' nestedTree "src/".toList = some srcPlace ∧
      resolve '/' nestedTree "dst/".toList = some dstPlace ∧ srcPlace ≠ dstPlace ∧
      ReadDir slashPlatform nestedTree "src/".toList
        = some [⟨"a.txt".toList, 10, 5⟩, ⟨"b.txt".toList, 20, 9⟩] ∧
      ReadDir slashPlatform nestedTree "dst/".toList = some [⟨"sub".toList, 4096, 1⟩] ∧
      (getsrcs slashPlatform "src/".toList nestedFlags.srcStr (start nestedTree)).1
        = some [⟨"a.txt".toList, 10, 5⟩, ⟨"b.txt".toList, 20, 9⟩] ∧
      get1src "src/".toList [⟨"a.txt".toList, 10, 5⟩, ⟨"b.txt".toList, 20, 9⟩]
        = "src/b.txt".toList ∧
      main slashPlatform nestedFlags (start nestedTree) = some nestedOut ∧
      Event.Copy "dst/sub/out.dat".toList "src/b.txt".toList true ∈ nestedOut.trace ∧
      (∀ e ∈ nestedOut.trace, ∀ p, e ≠ Event.Remove p false) ∧
      nestedFlags.dstStr ++ nestedFlags.dstAffix = "sub/out.dat".toList ∧
      ReadDir slashPlatform nestedOut.fs "dst/".toList = some [⟨"sub".toList, 4096, 100⟩] ∧
      nestedOut.fs.node (dstPlace ++ ["sub/out.dat".toList]) = none ∧
      ReadDir slashPlatform nestedOut.fs "src/".toList = some []) ∧
    (innerFlags.dbg = false ∧ allGiven innerFlags ∧
      '/' ∉ innerFlags.dstStr ++ innerFlags.dstAffix ∧
      resolve '/' innerTree "dst/in/".toList = some (dstPlace ++ ["in".toList]) ∧
      resolve '/' innerTree "dst/".toList = some dstPlace ∧
      dstPlace ++ ["in".toList] ≠ dstPlace ∧
      ReadDir slashPlatform innerTree "dst/in/".toList
        = some [⟨"a.txt".toList, 10, 5⟩, ⟨"b.txt".toList, 20, 9⟩] ∧
      ReadDir slashPlatform innerTree "dst/".toList = some [⟨"in".toList, 4096, 1⟩] ∧
      Contains "in".toList innerFlags.dstStr = false ∧
      main slashPlatform innerFlags (start innerTree) = some innerOut ∧
      Event.Copy "dst/out.dat".toList "dst/in/b.txt".toList true ∈ innerOut.trace ∧
      (∀ e ∈ innerOut.trace, ∀ p, e ≠ Event.Remove p false) ∧
      ReadDir slashPlatform innerOut.fs "dst/".toList
        = some [⟨"in".toList, 4096, 100⟩, ⟨"out.dat".toList, 20, 100⟩] ∧
      ReadDir slashPlatform innerOut.fs "dst/in/".toList = some []) := by
  refine ⟨⟨rfl, by decide, by decide, by decide, by decide, by decide, by decide, by decide,
    by decide, by decide, by decide, ?_, by decide, by decide, by decide, by decide⟩,
    ⟨rfl, by decide, by decide, by decide, by decide, by decide, by decide, by decide,
    by decide, by decide, by decide, ?_, by decide, by decide⟩⟩
  · intro e he p
    simp [nestedOut] at he
    rcases he with h | h | h | h | h | h | h | h | h <;> rw [h] <;> simp
  · intro e he p
    simp [innerOut] at he
    rcases he with h | h | h | h | h | h | h | h | h <;> rw [h] <;> simp

/-- C1 amended, on the scenario: source `a.txt` (10 bytes, older) and `b.txt`
    (20 bytes, newer), pattern `.*\.txt`, empty destination, `dstStr` `out`,
    `dstAffix` `.dat`.  The hypotheses hold, the run ends in the state
    `sampleOut`, in which the copy succeeded and no removal failed, so that
    (1)-(3) hold there: the destination lists exactly `out.dat`, which holds
    the 20 bytes of `b.txt`, and the source directory is empty. -/
theorem main_moves_freshest_file_witness :
    (sampleFlags.dbg = false ∧ allGiven sampleFlags ∧
      slashPlatform.PathSeparator ∉ sampleFlags.dstStr ++ sampleFlags.dstAffix ∧
      resolve slashPlatform.PathSeparator (start sampleTree).fs "src/".toList = some srcPlace ∧
      resolve slashPlatform.PathSeparator (start sampleTree).fs "dst/".toList = some dstPlace ∧
      srcPlace ≠ dstPlace ∧
      ReadDir slashPlatform (start sampleTree).fs "src/".toList
        = some [⟨"a.txt".toList, 10, 5⟩, ⟨"b.txt".toList, 20, 9⟩] ∧
      ReadDir slashPlatform (start sampleTree).fs "dst/".toList = some []) ∧
    main slashPlatform sampleFlags (start sampleTree) = some sampleOut ∧
    (∃ fc file,
      fc ∈ matchLoop slashPlatform sampleFlags.srcStr
        [⟨"a.txt".toList, 10, 5⟩, ⟨"b.txt".toList, 20, 9⟩] ∧
      get1src "src/".toList (matchLoop slashPlatform sampleFlags.srcStr
        [⟨"a.txt".toList, 10, 5⟩, ⟨"b.txt".toList, 20, 9⟩]) = "src/".toList ++ fc.Name ∧
      (start sampleTree).fs.node (srcPlace ++ [fc.Name]) = some (Node.file file) ∧
      sampleOut.fs.isDir srcPlace = true ∧ sampleOut.fs.isDir dstPlace = true ∧
      sampleOut.fs.node (dstPlace ++ [sampleFlags.dstStr ++ sampleFlags.dstAffix])
        = some (Node.file ⟨file.bytes, slashPlatform.now⟩) ∧
      (⟨sampleFlags.dstStr ++ sampleFlags.dstAffix, (file.bytes.length : Int),
          slashPlatform.now⟩ : FileInfo)
        ∈ sampleOut.fs.entries slashPlatform.PathSeparator dstPlace ∧
      (∀ e ∈ sampleOut.fs.entries slashPlatform.PathSeparator dstPlace,
        e.Name = sampleFlags.dstStr ++ sampleFlags.dstAffix ∨
          (Contains e.Name sampleFlags.dstStr = false ∧
            ∃ e0 ∈ ([] : List FileInfo), e0.Name = e.Name)) ∧
      (∀ e ∈ ([] : List FileInfo), Contains e.Name sampleFlags.dstStr = false →
        sampleOut.fs.obj (dstPlace ++ [e.Name]) = (start sampleTree).fs.obj (dstPlace ++ [e.Name]) ∧
        (∃ e1 ∈ sampleOut.fs.entries slashPlatform.PathSeparator dstPlace, e1.Name = e.Name) ∧
        (dstPlace ++ [e.Name] ≠ srcPlace →
          sampleOut.fs.node (dstPlace ++ [e.Name])
            = (start sampleTree).fs.node (dstPlace ++ [e.Name]) ∧
          e ∈ sampleOut.fs.entries slashPlatform.PathSeparator dstPlace)) ∧
      (∀ f ∈ matchLoop slashPlatform sampleFlags.srcStr
          [⟨"a.txt".toList, 10, 5⟩, ⟨"b.txt".toList, 20, 9⟩],
        sampleOut.fs.node (srcPlace ++ [f.Name]) = none ∧
        ∀ e ∈ sampleOut.fs.entries slashPlatform.PathSeparator srcPlace, e.Name ≠ f.Name)) ∧
    ReadDir slashPlatform sampleOut.fs "dst/".toList = some [⟨"out.dat".toList, 20, 100⟩] ∧
    ReadDir slashPlatform sampleOut.fs "src/".toList = some [] := by
  have hrun : main slashPlatform sampleFlags (start sampleTree) = some sampleOut := by decide
  refine ⟨⟨rfl, by decide, by decide, by decide, by decide, by decide, by decide, by decide⟩,
    hrun, ?_, by decide, by decide⟩
  obtain ⟨out, new, hm, htr, himp⟩ :=
    main_moves_freshest_file slashPlatform sampleFlags (start sampleTree)
      "src/".toList "dst/".toList srcPlace dstPlace
      [⟨"a.txt".toList, 10, 5⟩, ⟨"b.txt".toList, 20, 9⟩] []
      (by decide) (by decide) rfl (by decide) (by decide) (by decide) (by decide) (by decide)
      (by decide) (by decide)
  have ho : out = sampleOut := Option.some.inj (hm.symm.trans hrun)
  subst ho
  have hnew : new = sampleOut.trace := by
    have h2 : sampleOut.trace = [] ++ new := htr
    rw [List.nil_append] at h2
    exact h2.symm
  subst hnew
  refine himp ⟨"dst/out.dat".toList, "src/b.txt".toList, by decide⟩ ?_
  intro p hp
  simp [sampleOut] at hp

end Renamer
